import Mathlib

/-!
# Reference-counted copy-on-write handles (`correct_cow`)

A shallow embedding of `better-code-tex/content/05/code/correct_cow.cpp`.

* The free store is a list of cells; the address of a payload is its index.
  `new` appends a cell (addresses are never reused), `delete` turns a cell
  into `Cell.freed`.
* `count_m` is a `std::atomic<int>`: a 32-bit two's-complement integer whose
  `++` and `--` wrap around (atomic arithmetic on signed integers is defined
  to wrap, it is not undefined behaviour).
* A handle is an index into the list of handles; the entry is `some p` while
  the handle is within its lifetime (`p` is its `object_m`) and `none` after
  its destructor has run.
* Every member function is a function on states that returns
  `Except Err (State T)`; `Err.bad_access` is a dereference or a `delete` of a
  payload that is not allocated, `Err.dead_handle` is a member call on a
  handle outside its lifetime.
-/

namespace Cow

/-! ## Machine integers -/

/-- Smallest value of a 32-bit `int`. -/
def INT_MIN : Int := -2147483648

/-- Largest value of a 32-bit `int`. -/
def INT_MAX : Int := 2147483647

/-- Reduction of an integer to the 32-bit two's-complement range. -/
def wrap32 (i : Int) : Int := (i + 2147483648) % 4294967296 - 2147483648

/-- Values of the C++ type `int` (32 bits, two's complement). -/
structure c_int where
  val : Int
  lo : -2147483648 ≤ val
  hi : val ≤ 2147483647
deriving DecidableEq

/-- The `int` obtained from an integer by wrap-around. -/
def c_int.wrap (i : Int) : c_int :=
  ⟨wrap32 i, by unfold wrap32; omega, by unfold wrap32; omega⟩

/-- Value stored by `++c` on an atomic `int`. -/
def c_int.succ (c : c_int) : c_int := c_int.wrap (c.val + 1)

/-- Value stored by `--c` on an atomic `int`. -/
def c_int.pred (c : c_int) : c_int := c_int.wrap (c.val - 1)

/-- The `int` constant `1`, the initial value of `count_m`. -/
def c_int.one : c_int := ⟨1, by decide, by decide⟩

/-! ## Data model -/

/-- The payload `object_t`: `atomic<int> count_m{1}; T data_m;`. -/
structure object_t (T : Type) where
  count_m : c_int
  data_m : T
deriving DecidableEq

/-- A cell of the free store: an allocated payload, or storage that was
released by `delete`. -/
inductive Cell (T : Type) where
  | live (o : object_t T)
  | freed
deriving DecidableEq

/-- Ways in which an execution leaves defined behaviour. -/
inductive Err where
  | dead_handle
  | bad_access
deriving DecidableEq

deriving instance DecidableEq for Except

/-- Program state: the free store and the `object_m` of every handle created
so far (`none` once the handle has been destroyed). -/
structure State (T : Type) where
  heap : List (Cell T)
  handles : List (Option Nat)
deriving DecidableEq

/-- The state before anything has been allocated or constructed. -/
def State.empty {T : Type} : State T := ⟨[], []⟩

/-! ## Primitive steps -/

/-- The member `object_m` of handle `h`, which must be within its lifetime. -/
def object_m {T : Type} (s : State T) (h : Nat) : Except Err Nat :=
  match s.handles[h]? with
  | some (some p) => .ok p
  | _ => .error .dead_handle

/-- Dereference of the payload pointer `p`. -/
def deref {T : Type} (s : State T) (p : Nat) : Except Err (object_t T) :=
  match s.heap[p]? with
  | some (Cell.live o) => .ok o
  | _ => .error .bad_access

/-- The expression `new object_t(x)`: a fresh payload with `count_m` 1 and
`data_m` x; returns the new state and the address. -/
def new_object {T : Type} (s : State T) (x : T) : State T × Nat :=
  ({ s with heap := s.heap ++ [Cell.live ⟨c_int.one, x⟩] }, s.heap.length)

/-- Overwrites the allocated payload at `p`. -/
def put {T : Type} (s : State T) (p : Nat) (o : object_t T) : State T :=
  { s with heap := s.heap.set p (Cell.live o) }

/-- The expression `++p->count_m`; returns the new state and the new count. -/
def pre_inc {T : Type} (s : State T) (p : Nat) : Except Err (State T × c_int) :=
  match deref s p with
  | .error e => .error e
  | .ok o => .ok (put s p { o with count_m := o.count_m.succ }, o.count_m.succ)

/-- The expression `--p->count_m`; returns the new state and the new count. -/
def pre_dec {T : Type} (s : State T) (p : Nat) : Except Err (State T × c_int) :=
  match deref s p with
  | .error e => .error e
  | .ok o => .ok (put s p { o with count_m := o.count_m.pred }, o.count_m.pred)

/-- The statement `delete p`. -/
def delete_object {T : Type} (s : State T) (p : Nat) : Except Err (State T) :=
  match deref s p with
  | .error e => .error e
  | .ok _ => .ok { s with heap := s.heap.set p Cell.freed }

/-- The statement `if (0 == --p->count_m) delete p;`. -/
def release {T : Type} (s : State T) (p : Nat) : Except Err (State T) :=
  match pre_dec s p with
  | .error e => .error e
  | .ok (s1, c) => if c.val = 0 then delete_object s1 p else .ok s1

/-- Stores `p` into the member `object_m` of handle `h`. -/
def bind_handle {T : Type} (s : State T) (h : Nat) (p : Option Nat) : State T :=
  { s with handles := s.handles.set h p }

/-! ## The member functions of `correct_cow` -/

namespace correct_cow

/-- The constructor
`explicit correct_cow(const T& x) : object_m(new object_t(x)) { }`.
The new handle is the next index of `handles`. -/
def ctor {T : Type} (x : T) (s : State T) : State T :=
  let (s1, p) := new_object s x
  { s1 with handles := s1.handles ++ [some p] }

/-- The destructor
`~correct_cow() { if (0 == --object_m->count_m) delete object_m; }`. -/
def dtor {T : Type} (h : Nat) (s : State T) : Except Err (State T) :=
  match object_m s h with
  | .error e => .error e
  | .ok p =>
    match release s p with
    | .error e => .error e
    | .ok s1 => .ok (bind_handle s1 h none)

/-- The copy constructor
`correct_cow(const correct_cow& x) : object_m(x.object_m) { ++object_m->count_m; }`.
The new handle is the next index of `handles`. -/
def copy_ctor {T : Type} (x : Nat) (s : State T) : Except Err (State T) :=
  match object_m s x with
  | .error e => .error e
  | .ok p =>
    let s1 : State T := { s with handles := s.handles ++ [some p] }
    match pre_inc s1 p with
    | .error e => .error e
    | .ok (s2, _) => .ok s2

/-- The assignment `correct_cow& operator=(const T& x)`:
```
if (object_m->count_m == 1) object_m->data_m = x;
else {
    object_t* tmp = new object_t(x);
    if (0 == --object_m->count_m) delete object_m;    // position 3
    object_m = tmp;
}
```
-/
def assign {T : Type} (h : Nat) (x : T) (s : State T) : Except Err (State T) :=
  match object_m s h with
  | .error e => .error e
  | .ok p =>
    match deref s p with
    | .error e => .error e
    | .ok o =>
      if o.count_m.val = 1 then .ok (put s p { o with data_m := x })
      else
        let (s1, tmp) := new_object s x
        match release s1 p with
        | .error e => .error e
        | .ok s2 => .ok (bind_handle s2 h (some tmp))

/-- The states passed through by `operator=` on handle `h`, one per statement
executed, in program order: after the in-place store on the first branch;
after `new`, after the decrement-and-test with its `delete`, and after the
store to `object_m` on the second branch. -/
def assign_trace {T : Type} (h : Nat) (x : T) (s : State T) :
    Except Err (List (State T)) :=
  match object_m s h with
  | .error e => .error e
  | .ok p =>
    match deref s p with
    | .error e => .error e
    | .ok o =>
      if o.count_m.val = 1 then .ok [put s p { o with data_m := x }]
      else
        let (s1, tmp) := new_object s x
        match release s1 p with
        | .error e => .error e
        | .ok s2 => .ok [s1, s2, bind_handle s2 h (some tmp)]

end correct_cow

/-! ## Sequences of operations -/

/-- The four operations of the class, applied to handles named by index. -/
inductive Op (T : Type) where
  | construct (x : T)
  | copy (src : Nat)
  | destroy (h : Nat)
  | assign (h : Nat) (x : T)
deriving DecidableEq

/-- One operation of `correct_cow`. -/
def step {T : Type} (op : Op T) (s : State T) : Except Err (State T) :=
  match op with
  | .construct x => .ok (correct_cow.ctor x s)
  | .copy src => correct_cow.copy_ctor src s
  | .destroy h => correct_cow.dtor h s
  | .assign h x => correct_cow.assign h x s

/-- Sequential execution of a list of operations. -/
def run {T : Type} (ops : List (Op T)) (s : State T) : Except Err (State T) :=
  match ops with
  | [] => .ok s
  | op :: rest =>
    match step op s with
    | .error e => .error e
    | .ok s1 => run rest s1

/-! ## Observations -/

/-- Number of live handles whose `object_m` is `p`. -/
def refs {T : Type} (s : State T) (p : Nat) : Nat := s.handles.count (some p)

/-- The value `object_m->data_m` seen through handle `h`. -/
def value_of {T : Type} (s : State T) (h : Nat) : Except Err T :=
  match object_m s h with
  | .error e => .error e
  | .ok p =>
    match deref s p with
    | .error e => .error e
    | .ok o => .ok o.data_m

/-- Number of payloads currently allocated. -/
def allocated {T : Type} (s : State T) : Nat :=
  s.heap.countP (fun c => match c with | Cell.live _ => true | Cell.freed => false)

/-! ## The member functions of `bad_cow`

`better-code-tex/content/05/code/bad_cow.cpp`. The class has the same
`object_t` and the same constructor, destructor and copy constructor as
`correct_cow`; `operator=` decrements at position 2 without testing for
zero and without `delete`. -/

namespace bad_cow

/-- The constructor
`explicit bad_cow(const T& x) : object_m(new object_t(x)) { }`. -/
def ctor {T : Type} (x : T) (s : State T) : State T :=
  let (s1, p) := new_object s x
  { s1 with handles := s1.handles ++ [some p] }

/-- The destructor
`~bad_cow() { if (0 == --object_m->count_m) delete object_m; }`. -/
def dtor {T : Type} (h : Nat) (s : State T) : Except Err (State T) :=
  match object_m s h with
  | .error e => .error e
  | .ok p =>
    match release s p with
    | .error e => .error e
    | .ok s1 => .ok (bind_handle s1 h none)

/-- The copy constructor
`bad_cow(const bad_cow& x) : object_m(x.object_m) { ++object_m->count_m; }`. -/
def copy_ctor {T : Type} (x : Nat) (s : State T) : Except Err (State T) :=
  match object_m s x with
  | .error e => .error e
  | .ok p =>
    let s1 : State T := { s with handles := s.handles ++ [some p] }
    match pre_inc s1 p with
    | .error e => .error e
    | .ok (s2, _) => .ok s2

/-- The assignment `bad_cow& operator=(const T& x)`:
```
if (object_m->count_m == 1) object_m->data_m = x;     // position 1
else {
    object_t* tmp = new object_t(x);
    --object_m->count_m;                              // position 2
    object_m = tmp;
}
```
-/
def assign {T : Type} (h : Nat) (x : T) (s : State T) : Except Err (State T) :=
  match object_m s h with
  | .error e => .error e
  | .ok p =>
    match deref s p with
    | .error e => .error e
    | .ok o =>
      if o.count_m.val = 1 then .ok (put s p { o with data_m := x })
      else
        let (s1, tmp) := new_object s x
        match pre_dec s1 p with
        | .error e => .error e
        | .ok (s2, _) => .ok (bind_handle s2 h (some tmp))

/-- One operation of `bad_cow`. -/
def step {T : Type} (op : Op T) (s : State T) : Except Err (State T) :=
  match op with
  | .construct x => .ok (ctor x s)
  | .copy src => copy_ctor src s
  | .destroy h => dtor h s
  | .assign h x => assign h x s

/-- Sequential execution of a list of operations of `bad_cow`. -/
def run {T : Type} (ops : List (Op T)) (s : State T) : Except Err (State T) :=
  match ops with
  | [] => .ok s
  | op :: rest =>
    match step op s with
    | .error e => .error e
    | .ok s1 => run rest s1

end bad_cow

/-! ## Allocation failure in `correct_cow::operator=` -/

/-- How a call ends when `new` can throw `std::bad_alloc`: by returning, or
by the exception leaving the function; in both cases with the state reached
at that point. -/
inductive Outcome (T : Type) where
  | returned (s : State T)
  | threw (s : State T)
deriving DecidableEq

/-- The expression `new object_t(x)` when the allocation function can fail:
with `avail = false` no storage is obtained, `std::bad_alloc` is thrown and
the free store is not changed. -/
def try_new_object {T : Type} (avail : Bool) (s : State T) (x : T) :
    Option (State T × Nat) :=
  if avail then some (new_object s x) else none

/-- The assignment `correct_cow::operator=` with the outcome of its `new`
expression given by `avail`. The function has no handler, so an exception
thrown by `new` leaves it at once. -/
def correct_cow.assign_alloc {T : Type} (avail : Bool) (h : Nat) (x : T) (s : State T) :
    Except Err (Outcome T) :=
  match object_m s h with
  | .error e => .error e
  | .ok p =>
    match deref s p with
    | .error e => .error e
    | .ok o =>
      if o.count_m.val = 1 then .ok (.returned (put s p { o with data_m := x }))
      else
        match try_new_object avail s x with
        | none => .ok (.threw s)
        | some (s1, tmp) =>
          match release s1 p with
          | .error e => .error e
          | .ok s2 => .ok (.returned (bind_handle s2 h (some tmp)))

/-! ## State families and invariants used in the proofs -/

/-- The state in which one payload holding `v` is shared by `k` live handles
and nothing else exists. -/
def shared {T : Type} (v : T) (k : Nat) : State T :=
  ⟨[Cell.live ⟨c_int.wrap k, v⟩], List.replicate k (some 0)⟩

/-- Consistency of a state with the 32-bit counter: handles point into the
free store, the count of an allocated payload is the number of live handles
pointing at it reduced to 32 bits, and that number is a multiple of 2^32 for
a freed payload. -/
def Consistent {T : Type} (s : State T) : Prop :=
  (∀ h p : Nat, s.handles[h]? = some (some p) → p < s.heap.length) ∧
  (∀ (p : Nat) (o : object_t T), s.heap[p]? = some (Cell.live o) →
      o.count_m.val = wrap32 (refs s p)) ∧
  (∀ p : Nat, s.heap[p]? = some Cell.freed → wrap32 (refs s p) = 0)

/-! ## Threads and interleavings

Several threads work on one free store. Every thread owns its handles (its
own table of `object_m` values, indexed from 0) and runs its own list of
operations on them, one member function at a time. A member function is a
sequence of atomic steps, one for each access to the free store (an atomic
operation on `count_m`, a store to `data_m`, `new`, `delete`) and one for each
store to the thread's own `object_m`; `Pc` tells which step of the source
text comes next. A schedule is the list of the thread numbers in the order
in which they take their steps. -/

/-- The two classes of the repository. -/
inductive Variant where
  | bad
  | correct
deriving DecidableEq

/-- The position of a thread inside a member function: the statement of the
source text that it executes next.
* `idle`: between two member functions;
* `copy_inc`: copy constructor, `object_m` of the new handle (the last of the
  thread) is initialised, `++object_m->count_m` comes next;
* `dtor_delete h`: destructor of handle h, the decrement gave 0,
  `delete object_m` comes next;
* `assign_store h x`: `operator=`, the count was read as 1,
  `object_m->data_m = x` comes next;
* `assign_new h x`: the count was read as other than 1, `new object_t(x)`
  comes next;
* `assign_dec h tmp`: `tmp` is allocated, `--object_m->count_m` comes next;
* `assign_delete h tmp`: (`correct_cow`) the decrement gave 0,
  `delete object_m` comes next;
* `assign_bind h tmp`: `object_m = tmp` comes next. -/
inductive Pc (T : Type) where
  | idle
  | copy_inc
  | dtor_delete (h : Nat)
  | assign_store (h : Nat) (x : T)
  | assign_new (h : Nat) (x : T)
  | assign_dec (h : Nat) (tmp : Nat)
  | assign_delete (h : Nat) (tmp : Nat)
  | assign_bind (h : Nat) (tmp : Nat)
deriving DecidableEq

/-- A thread: its own handles, its position, and the operations it still has
to start. -/
structure Thread (T : Type) where
  handles : List (Option Nat)
  pc : Pc T
  todo : List (Op T)
deriving DecidableEq

/-- The free store shared by all threads, and the threads. -/
structure Config (T : Type) where
  heap : List (Cell T)
  threads : List (Thread T)
deriving DecidableEq

/-- One atomic step of a thread on the free store. A thread that is idle
with nothing left to do stays as it is. -/
def thread_step {T : Type} (v : Variant) (heap : List (Cell T)) (t : Thread T) :
    Except Err (List (Cell T) × Thread T) :=
  let s : State T := ⟨heap, t.handles⟩
  match t.pc with
  | .idle =>
    match t.todo with
    | [] => .ok (heap, t)
    | .construct x :: rest =>
      let s1 := correct_cow.ctor x s
      .ok (s1.heap, ⟨s1.handles, .idle, rest⟩)
    | .copy src :: rest =>
      match object_m s src with
      | .error e => .error e
      | .ok p => .ok (heap, ⟨t.handles ++ [some p], .copy_inc, rest⟩)
    | .destroy h :: rest =>
      match object_m s h with
      | .error e => .error e
      | .ok p =>
        match pre_dec s p with
        | .error e => .error e
        | .ok (s1, c) =>
          if c.val = 0 then .ok (s1.heap, ⟨s1.handles, .dtor_delete h, rest⟩)
          else .ok (s1.heap, ⟨(bind_handle s1 h none).handles, .idle, rest⟩)
    | .assign h x :: rest =>
      match object_m s h with
      | .error e => .error e
      | .ok p =>
        match deref s p with
        | .error e => .error e
        | .ok o =>
          if o.count_m.val = 1 then .ok (heap, ⟨t.handles, .assign_store h x, rest⟩)
          else .ok (heap, ⟨t.handles, .assign_new h x, rest⟩)
  | .copy_inc =>
    match object_m s (t.handles.length - 1) with
    | .error e => .error e
    | .ok p =>
      match pre_inc s p with
      | .error e => .error e
      | .ok (s1, _) => .ok (s1.heap, ⟨s1.handles, .idle, t.todo⟩)
  | .dtor_delete h =>
    match object_m s h with
    | .error e => .error e
    | .ok p =>
      match delete_object s p with
      | .error e => .error e
      | .ok s1 => .ok (s1.heap, ⟨(bind_handle s1 h none).handles, .idle, t.todo⟩)
  | .assign_store h x =>
    match object_m s h with
    | .error e => .error e
    | .ok p =>
      match deref s p with
      | .error e => .error e
      | .ok o => .ok ((put s p { o with data_m := x }).heap, ⟨t.handles, .idle, t.todo⟩)
  | .assign_new h x =>
    let (s1, tmp) := new_object s x
    .ok (s1.heap, ⟨s1.handles, .assign_dec h tmp, t.todo⟩)
  | .assign_dec h tmp =>
    match object_m s h with
    | .error e => .error e
    | .ok p =>
      match pre_dec s p with
      | .error e => .error e
      | .ok (s1, c) =>
        match v with
        | .bad => .ok (s1.heap, ⟨s1.handles, .assign_bind h tmp, t.todo⟩)
        | .correct =>
          if c.val = 0 then .ok (s1.heap, ⟨s1.handles, .assign_delete h tmp, t.todo⟩)
          else .ok (s1.heap, ⟨s1.handles, .assign_bind h tmp, t.todo⟩)
  | .assign_delete h tmp =>
    match object_m s h with
    | .error e => .error e
    | .ok p =>
      match delete_object s p with
      | .error e => .error e
      | .ok s1 => .ok (s1.heap, ⟨s1.handles, .assign_bind h tmp, t.todo⟩)
  | .assign_bind h tmp =>
    .ok (heap, ⟨(bind_handle s h (some tmp)).handles, .idle, t.todo⟩)

/-- Thread number i takes one step; a number that names no thread does
nothing. -/
def Config.step {T : Type} (v : Variant) (i : Nat) (c : Config T) : Except Err (Config T) :=
  match c.threads[i]? with
  | none => .ok c
  | some t =>
    match thread_step v c.heap t with
    | .error e => .error e
    | .ok (heap1, t1) => .ok ⟨heap1, c.threads.set i t1⟩

/-- The interleaving given by a schedule. -/
def exec {T : Type} (v : Variant) (sched : List Nat) (c : Config T) : Except Err (Config T) :=
  match sched with
  | [] => .ok c
  | i :: rest =>
    match Config.step v i c with
    | .error e => .error e
    | .ok c1 => exec v rest c1

/-- The configurations passed through by a schedule, the first one included;
the list ends where a step leaves defined behaviour. -/
def visited {T : Type} (v : Variant) (sched : List Nat) (c : Config T) : List (Config T) :=
  match sched with
  | [] => [c]
  | i :: rest =>
    match Config.step v i c with
    | .error _ => [c]
    | .ok c1 => c :: visited v rest c1

/-- The start of an interleaving: one payload holding x, and for each thread
the number of handles it owns (all pointing at that payload) and its
operations; the count of the payload is the number of all handles. -/
def start {T : Type} (x : T) (progs : List (Nat × List (Op T))) : Config T :=
  ⟨[Cell.live ⟨c_int.wrap ((progs.map (·.1)).sum : Nat), x⟩],
   progs.map (fun pr => ⟨List.replicate pr.1 (some 0), .idle, pr.2⟩)⟩

/-- All threads have finished their operations. -/
def Config.finished {T : Type} (c : Config T) : Prop :=
  ∀ t ∈ c.threads, t.pc = .idle ∧ t.todo = []

/-- Number of live handles, over all threads, whose `object_m` is p. -/
def Config.refs {T : Type} (c : Config T) (p : Nat) : Nat :=
  (c.threads.map (fun t => t.handles.count (some p))).sum

/-- The payloads that the live handles of a table point at. -/
def live_ptrs (hs : List (Option Nat)) : List Nat := hs.filterMap id

/-- The references to payloads that a thread holds and that are counted in
`count_m`: its live handles, without the handle whose increment is still to
come or whose decrement has been done, and with the payload held in `tmp`. -/
def Thread.owned {T : Type} (t : Thread T) : List Nat :=
  match t.pc with
  | .copy_inc => live_ptrs t.handles.dropLast
  | .dtor_delete h => live_ptrs (t.handles.set h none)
  | .assign_dec _ tmp => tmp :: live_ptrs t.handles
  | .assign_delete h tmp => live_ptrs (t.handles.set h (some tmp))
  | .assign_bind h tmp => live_ptrs (t.handles.set h (some tmp))
  | _ => live_ptrs t.handles

/-- The payload that a thread is about to delete, if any. -/
def Thread.deleting {T : Type} (t : Thread T) : List Nat :=
  match t.pc with
  | .dtor_delete h => (t.handles[h]?.getD none).toList
  | .assign_delete h _ => (t.handles[h]?.getD none).toList
  | _ => []

/-- Number of counted references to p over all threads. -/
def Config.owners {T : Type} (c : Config T) (p : Nat) : Nat :=
  (c.threads.map (fun t => t.owned.count p)).sum

/-- Number of threads about to delete p. -/
def Config.deleters {T : Type} (c : Config T) (p : Nat) : Nat :=
  (c.threads.map (fun t => t.deleting.count p)).sum

/-- Number of counted references over all threads and payloads. -/
def Config.owned_total {T : Type} (c : Config T) : Nat :=
  (c.threads.map (fun t => t.owned.length)).sum

/-- A payload is leaked: it is allocated and no thread holds a reference to
it. -/
def Config.leaked {T : Type} (c : Config T) (p : Nat) : Prop :=
  (∃ o, c.heap[p]? = some (Cell.live o)) ∧ c.owners p = 0 ∧ c.deleters p = 0

/-- The position of a thread fits its handles: the handle it is working on
is live, and in the copy constructor the new handle points where an earlier
live handle of the thread points. -/
def Thread.wf {T : Type} (t : Thread T) : Prop :=
  match t.pc with
  | .idle => True
  | .copy_inc => ∃ p, t.handles.getLast? = some (some p) ∧ p ∈ live_ptrs t.handles.dropLast
  | .dtor_delete h => ∃ p, t.handles[h]? = some (some p)
  | .assign_store h _ => ∃ p, t.handles[h]? = some (some p)
  | .assign_new h _ => ∃ p, t.handles[h]? = some (some p)
  | .assign_dec h _ => ∃ p, t.handles[h]? = some (some p)
  | .assign_delete h _ => ∃ p, t.handles[h]? = some (some p)
  | .assign_bind h _ => ∃ p, t.handles[h]? = some (some p)

/-- The invariant of all interleavings, in terms of the number of counted
references to each payload (`own`) and the number of threads about to delete
it (`del`): the counted references point into the free store; the count
of an allocated payload is the number of counted references to it reduced to
32 bits; a freed payload has no counted reference and no thread about to
delete it; a payload that a thread is about to delete is allocated, has no
counted reference, and no second thread is about to delete it. -/
def GInv {T : Type} (heap : List (Cell T)) (own del : Nat → Nat) : Prop :=
  (∀ p : Nat, 0 < own p → p < heap.length) ∧
  (∀ (p : Nat) (o : object_t T), heap[p]? = some (Cell.live o) →
      o.count_m.val = wrap32 (own p)) ∧
  (∀ p : Nat, heap[p]? = some Cell.freed → own p = 0 ∧ del p = 0) ∧
  (∀ p : Nat, 0 < del p → del p = 1 ∧ own p = 0 ∧ ∃ o, heap[p]? = some (Cell.live o))

/-- The invariant of all interleavings: every thread's position fits its
handles, and `GInv` holds for the counted references and pending deletions
of the configuration. -/
def CInv {T : Type} (c : Config T) : Prop :=
  (∀ t ∈ c.threads, t.wf) ∧ GInv c.heap c.owners c.deleters

/-- Number of references an operation can add while it runs: a constructor
and a copy constructor add a handle, an assignment may allocate a payload
before it releases the old one. -/
def Op.creates {T : Type} : Op T → Nat
  | .construct _ => 1
  | .copy _ => 1
  | .destroy _ => 0
  | .assign _ _ => 1

/-- An upper bound on the counted references a thread can ever hold at one
time: those it holds, one more if its next step adds one, and those its
remaining operations can add. -/
def Thread.budget {T : Type} (t : Thread T) : Nat :=
  t.owned.length
    + (match t.pc with
        | .copy_inc => 1
        | .assign_new _ _ => 1
        | _ => 0)
    + (t.todo.map Op.creates).sum

/-- The sum of the budgets of all threads. -/
def Config.budget {T : Type} (c : Config T) : Nat :=
  (c.threads.map Thread.budget).sum

/-- A step of thread number i, in state t, from configuration c is good: it
does not touch a payload that is not allocated (the only possible error is
the misuse of a dead handle by the thread's own operations), and the
configuration after it satisfies the invariant. -/
def GoodStep {T : Type} (v : Variant) (c : Config T) (i : Nat) (t : Thread T) : Prop :=
  (∀ e, thread_step v c.heap t = .error e → e = .dead_handle) ∧
  (∀ heap1 t1, thread_step v c.heap t = .ok (heap1, t1) →
    CInv ⟨heap1, c.threads.set i t1⟩)

end Cow

/-! # The sub-range sort (`sort_subrange`)

A shallow embedding of `better-code-tex/content/03/code/sort-subrange-2.cpp`.
The sequence that the iterators range over is a list; an iterator is a
position in it, `++sf` is `sf + 1`, and the range `[f, l)` is the part of
the list from position `f` up to position `l`. `std::nth_element` and
`std::partial_sort` belong to the standard library; they are parameters of
the embedding, functions from the three iterators and the sequence to the
rearranged sequence, and the theorems assume their standard postconditions.
Elements are compared with a linear order. -/

namespace SortSubrange

/-- The elements at the positions `[a, b)` of a sequence. -/
def slice {α : Type} (xs : List α) (a b : Nat) : List α := (xs.drop a).take (b - a)

/-- A call of one of the two library algorithms, with its three iterators. -/
inductive Call where
  | nth_element (first nth last : Nat)
  | partial_sort (first middle last : Nat)
deriving DecidableEq

/-- The local state of `sort_subrange`: the sequence, the parameter `sf`
(which line 6 increments), and the library calls made so far. -/
structure Frame (α : Type) where
  seq : List α
  sf : Nat
  calls : List Call

/-- The body of `sort_subrange(f, l, sf, sl)`, recording the library calls:
```
if (sf == sl) return;
if (sf != f) {
    std::nth_element(f, sf, l);
    ++sf;
}
std::partial_sort(sf, sl, l);
```
-/
def sort_subrange_frame {α : Type}
    (nth_element partial_sort : Nat → Nat → Nat → List α → List α)
    (f l sf sl : Nat) (xs : List α) : Frame α :=
  if sf = sl then ⟨xs, sf, []⟩
  else
    let fr : Frame α :=
      if sf ≠ f then ⟨nth_element f sf l xs, sf + 1, [Call.nth_element f sf l]⟩
      else ⟨xs, sf, []⟩
    ⟨partial_sort fr.sf sl l fr.seq, fr.sf, fr.calls ++ [Call.partial_sort fr.sf sl l]⟩

/-- The sequence after `sort_subrange(f, l, sf, sl)`. -/
def sort_subrange {α : Type}
    (nth_element partial_sort : Nat → Nat → Nat → List α → List α)
    (f l sf sl : Nat) (xs : List α) : List α :=
  (sort_subrange_frame nth_element partial_sort f l sf sl xs).seq

/-- The library calls made by `sort_subrange(f, l, sf, sl)`, in order. -/
def sort_subrange_calls {α : Type}
    (nth_element partial_sort : Nat → Nat → Nat → List α → List α)
    (f l sf sl : Nat) (xs : List α) : List Call :=
  (sort_subrange_frame nth_element partial_sort f l sf sl xs).calls

/-- The sequence with the whole range `[f, l)` sorted and the rest left as it
is. -/
def sorted_range {α : Type} [LinearOrder α] (xs : List α) (f l : Nat) : List α :=
  xs.take f ++ (slice xs f l).insertionSort (· ≤ ·) ++ xs.drop l

/-- An algorithm on a range only rearranges the range: the sequence keeps its
length, the positions outside `[first, last)` keep their elements, and the
range holds the same elements as before. -/
def Rearranges {α : Type} (first last : Nat) (xs ys : List α) : Prop :=
  ys.length = xs.length ∧ ys.take first = xs.take first ∧ ys.drop last = xs.drop last ∧
  (slice ys first last).Perm (slice xs first last)

/-- Standard postcondition of `std::nth_element(first, nth, last)` for
`nth` before `last`: the element at `nth` is the one that would be there if
the whole range were sorted, and no element of `[nth, last)` is less than an
element of `[first, nth)`. -/
def NthElementPost {α : Type} [LinearOrder α] (first nth last : Nat) (xs ys : List α) :
    Prop :=
  Rearranges first last xs ys ∧
  ys[nth]? = (sorted_range xs first last)[nth]? ∧
  (∀ x ∈ slice ys first nth, ∀ y ∈ slice ys nth last, x ≤ y)

/-- Standard postcondition of `std::partial_sort(first, middle, last)`: the
range `[first, middle)` holds the `middle - first` smallest elements of
`[first, last)` in sorted order; the order of the rest is unspecified. -/
def PartialSortPost {α : Type} [LinearOrder α] (first middle last : Nat)
    (xs ys : List α) : Prop :=
  Rearranges first last xs ys ∧
  (slice ys first middle).Sorted (· ≤ ·) ∧
  (∀ x ∈ slice ys first middle, ∀ y ∈ slice ys middle last, x ≤ y)

/-- The assumption on `std::nth_element`: called on valid iterators with
`nth` before `last`, it meets its postcondition. -/
def NthElementSpec {α : Type} [LinearOrder α]
    (nth_element : Nat → Nat → Nat → List α → List α) : Prop :=
  ∀ (first nth last : Nat) (xs : List α), first ≤ nth → nth < last → last ≤ xs.length →
    NthElementPost first nth last xs (nth_element first nth last xs)

/-- The assumption on `std::partial_sort`: called on valid iterators, it
meets its postcondition. -/
def PartialSortSpec {α : Type} [LinearOrder α]
    (partial_sort : Nat → Nat → Nat → List α → List α) : Prop :=
  ∀ (first middle last : Nat) (xs : List α), first ≤ middle → middle ≤ last →
    last ≤ xs.length →
    PartialSortPost first middle last xs (partial_sort first middle last xs)

/-- An algorithm that meets both postconditions: it sorts the whole range
`[first, last)` and ignores the middle iterator. -/
def sort_whole_range {α : Type} [LinearOrder α] (first _mid last : Nat) (xs : List α) :
    List α :=
  sorted_range xs first last

end SortSubrange

/-! # The shape document (`draw`)

A shallow embedding of `better-code-tex/content/04/code/shape-0.cpp` and
`shape-1.cpp`.

An `ostream` is the text written to it so far together with the parts of its
state that the insertions of these functions read or change: the field width,
the fill character, whether the adjustment is `left`, the error state
`rdstate()` and the mask `exceptions()`. An insertion into a stream that is
not `good()` writes nothing; its `sentry` may call `setstate(failbit)`, which
throws `ios_base::failure` when the mask asks for it. An insertion of a string
into a good stream pads the string to the field width and resets the width to
0. The stream buffer is taken to accept every character, and memory to be
available for every string whose length is allowed.

A function call ends by returning, by an exception, or in undefined
behaviour (`Completion`). `string(n, c)` throws `std::length_error` when n is
above `max_size()`. A `size_t` is a natural number up to `SIZE_MAX`, and
`position + 2` wraps around. `SIZE_MAX`, `max_size()`, the text that
`num_put` produces for a `double`, and the error states in which a `sentry`
calls `setstate(failbit)` are fixed by the implementation of the standard
library; they are the parameter `Library`.

The class `shape` with its two final subclasses is an inductive type and the
virtual call `e->draw` is a match on it; a `shared_ptr<shape>` is null or
points to a shape. -/

namespace Shapes

/-- The exceptions thrown by the standard library in these functions:
`std::length_error` by the constructor of `string`, `ios_base::failure` by
`setstate`. -/
inductive Exn where
  | length_error
  | failure
deriving DecidableEq

/-- The type `ios_base::iostate`: the three error bits of a stream. -/
structure iostate where
  badbit : Bool
  eofbit : Bool
  failbit : Bool
deriving DecidableEq

/-- An `ostream`: the text written so far, `width()`, `fill()`, whether
`flags() & adjustfield` is `left`, `rdstate()` and `exceptions()`. -/
structure ostream where
  text : String
  width : Nat
  fill : Char
  left : Bool
  rdstate : iostate
  exceptions : iostate
deriving DecidableEq

/-- The member `good()`: no error bit is set. -/
def ostream.good (out : ostream) : Bool :=
  !out.rdstate.badbit && !out.rdstate.eofbit && !out.rdstate.failbit

/-- What the implementation of the standard library fixes: the largest
`size_t`; `string::max_size()` (a `size_t`); the characters that `num_put`
produces for a `double` given the width, the fill character and whether the
adjustment is `left` (the other formatting flags, the precision and the locale
are never changed by these functions); and for which error states of a stream
that is not good the `sentry` of an output function calls
`setstate(failbit)`, which the standard allows and does not require. -/
structure Library where
  SIZE_MAX : Nat
  max_size : Nat
  max_size_le : max_size ≤ SIZE_MAX
  num_put : Nat → Char → Bool → Float → String
  sentry_setstate : iostate → Bool

/-- How a call ends: it returns, an exception leaves it, or its behaviour is
undefined; with the stream as it is at that point. -/
inductive Completion where
  | returned (out : ostream)
  | threw (e : Exn) (out : ostream)
  | undefined
deriving DecidableEq

/-- Sequencing: the next statement runs when the one before has returned. -/
def Completion.and_then (r : Completion) (f : ostream → Completion) : Completion :=
  match r with
  | .returned out => f out
  | .threw e out => .threw e out
  | .undefined => .undefined

/-- The text of the stream when the call ended. -/
def Completion.text (r : Completion) : String :=
  match r with
  | .returned out => out.text
  | .threw _ out => out.text
  | .undefined => ""

/-- The string of n copies of c. -/
def copies (n : Nat) (c : Char) : String := String.mk (List.replicate n c)

/-- The expression `string(n, c)`: the string of n copies of c, or
`std::length_error` when n is above `max_size()`. -/
def string_fill (lib : Library) (n : Nat) (c : Char) : Except Exn String :=
  if n ≤ lib.max_size then .ok (copies n c) else .error .length_error

/-- The call `setstate(failbit)`: the bit is set, and `ios_base::failure` is
thrown when `exceptions()` contains a bit of the new error state. -/
def setstate_failbit (out : ostream) : Completion :=
  let out1 : ostream := { out with rdstate := { out.rdstate with failbit := true } }
  if (out1.rdstate.badbit && out1.exceptions.badbit)
      || (out1.rdstate.eofbit && out1.exceptions.eofbit)
      || out1.exceptions.failbit
  then .threw .failure out1
  else .returned out1

/-- An output function on a stream that is not good: nothing is written, and
the `sentry` calls `setstate(failbit)` where the library does so. -/
def sentry_not_ok (lib : Library) (out : ostream) : Completion :=
  if lib.sentry_setstate out.rdstate then setstate_failbit out else .returned out

/-- The padding of a formatted insertion: a sequence shorter than `width()` is
filled up to that width with `fill()`, after the sequence when the adjustment
is `left` and before it otherwise. -/
def padded (out : ostream) (seq : String) : String :=
  if seq.length < out.width then
    if out.left then seq ++ copies (out.width - seq.length) out.fill
    else copies (out.width - seq.length) out.fill ++ seq
  else seq

/-- The insertion `out << s` of a `string` or a string literal: the padded
sequence is written and `width(0)` is called. -/
def insert_string (lib : Library) (out : ostream) (seq : String) : Completion :=
  if out.good then .returned { out with text := out.text ++ padded out seq, width := 0 }
  else sentry_not_ok lib out

/-- The insertion `out << d` of a `double`: the characters of `num_put` are
written and `width(0)` is called. -/
def insert_double (lib : Library) (out : ostream) (d : Float) : Completion :=
  if out.good then
    .returned { out with
      text := out.text ++ lib.num_put out.width out.fill out.left d, width := 0 }
  else sentry_not_ok lib out

/-- The manipulator `endl`: `put` of a newline, which is not padded and leaves
the width alone, and `flush`. -/
def endl (lib : Library) (out : ostream) : Completion :=
  if out.good then .returned { out with text := out.text ++ "\n" }
  else sentry_not_ok lib out

/-- The classes derived from `shape`: `circle` with its `_radius` and
`rectangle` with its `_width` and `_height`. -/
inductive shape where
  | circle (_radius : Float)
  | rectangle (_width _height : Float)

/-- The virtual member `draw(ostream& out, size_t position)`.
`circle::draw`:
```
out << string(position, ' ');
out << "circle: " << _radius << endl;
```
`rectangle::draw`:
```
out << string(position, ' ');
out << "rectangle: " << _width << ", " << _height << endl;
```
-/
def shape.draw (lib : Library) (e : shape) (out : ostream) (position : Nat) : Completion :=
  match e with
  | .circle _radius =>
    match string_fill lib position ' ' with
    | .error ex => .threw ex out
    | .ok s =>
      (insert_string lib out s).and_then fun out =>
      ((insert_string lib out "circle: ").and_then
        fun out => insert_double lib out _radius).and_then (endl lib)
  | .rectangle _width _height =>
    match string_fill lib position ' ' with
    | .error ex => .threw ex out
    | .ok s =>
      (insert_string lib out s).and_then fun out =>
      ((((insert_string lib out "rectangle: ").and_then
        fun out => insert_double lib out _width).and_then
        fun out => insert_string lib out ", ").and_then
        fun out => insert_double lib out _height).and_then (endl lib)

/-- The type `document`, `vector<shared_ptr<shape>>`; `none` is a null
pointer. -/
abbrev document := List (Option shape)

/-- The loop `for (const auto& e: x) e->draw(out, position + 2);` of `draw`.
The call through a null pointer is undefined. -/
def draw_elements (lib : Library) (x : document) (out : ostream) (position : Nat) :
    Completion :=
  match x with
  | [] => .returned out
  | none :: _ => .undefined
  | some e :: rest =>
    (e.draw lib out ((position + 2) % (lib.SIZE_MAX + 1))).and_then
      fun out => draw_elements lib rest out position

/-- The function `draw(const document& x, ostream& out, size_t position)`:
```
out << string(position, ' ') << "<document>" << endl;
for (const auto& e: x) e->draw(out, position + 2);
out << string(position, ' ') << "</document>" << endl;
```
-/
def draw (lib : Library) (x : document) (out : ostream) (position : Nat) : Completion :=
  match string_fill lib position ' ' with
  | .error ex => .threw ex out
  | .ok s =>
    (((insert_string lib out s).and_then
      fun out => insert_string lib out "<document>").and_then (endl lib)).and_then fun out =>
    (draw_elements lib x out position).and_then fun out =>
    match string_fill lib position ' ' with
    | .error ex => .threw ex out
    | .ok s =>
      ((insert_string lib out s).and_then
        fun out => insert_string lib out "</document>").and_then (endl lib)

end Shapes

namespace Cow

/-! ## Basic facts about the primitive steps -/

theorem wrap32_of_range (i : Int) (h1 : -2147483648 ≤ i) (h2 : i ≤ 2147483647) :
    wrap32 i = i := by
  unfold wrap32; omega

theorem wrap32_wrap32_add (i j : Int) : wrap32 (wrap32 i + j) = wrap32 (i + j) := by
  unfold wrap32; omega

theorem c_int.eq_of_val {a b : c_int} (h : a.val = b.val) : a = b := by
  cases a; cases b; simp_all

theorem c_int.succ_val (c : c_int) : c.succ.val = wrap32 (c.val + 1) := rfl

theorem c_int.pred_val (c : c_int) : c.pred.val = wrap32 (c.val - 1) := rfl

theorem c_int.one_val : c_int.one.val = 1 := rfl

theorem c_int.pred_val_eq_zero (c : c_int) : c.pred.val = 0 ↔ c.val = 1 := by
  have h1 := c.lo
  have h2 := c.hi
  rw [c_int.pred_val]; unfold wrap32; omega

theorem object_m_ok {T : Type} {s : State T} {h p : Nat}
    (hh : s.handles[h]? = some (some p)) : object_m s h = .ok p := by
  simp [object_m, hh]

theorem object_m_eq_ok {T : Type} {s : State T} {h p : Nat} :
    object_m s h = .ok p ↔ s.handles[h]? = some (some p) := by
  unfold object_m
  split <;> simp_all

theorem deref_ok {T : Type} {s : State T} {p : Nat} {o : object_t T}
    (hp : s.heap[p]? = some (Cell.live o)) : deref s p = .ok o := by
  simp [deref, hp]

theorem deref_eq_ok {T : Type} {s : State T} {p : Nat} {o : object_t T} :
    deref s p = .ok o ↔ s.heap[p]? = some (Cell.live o) := by
  unfold deref
  split <;> simp_all

theorem deref_freed {T : Type} {s : State T} {p : Nat}
    (hp : s.heap[p]? = some Cell.freed) : deref s p = .error .bad_access := by
  simp [deref, hp]

theorem run_append {T : Type} (ops1 ops2 : List (Op T)) (s : State T) :
    run (ops1 ++ ops2) s =
      match run ops1 s with
      | .error e => .error e
      | .ok s1 => run ops2 s1 := by
  induction ops1 generalizing s with
  | nil => simp [run]
  | cons op rest ih =>
    simp only [List.cons_append, run]
    cases step op s with
    | error e => simp
    | ok s1 => simpa using ih s1

theorem run_append_of_ok {T : Type} {ops1 : List (Op T)} {s s1 : State T}
    (h : run ops1 s = .ok s1) (ops2 : List (Op T)) :
    run (ops1 ++ ops2) s = run ops2 s1 := by
  rw [run_append, h]

theorem run_destroy_singleton {T : Type} {h : Nat} {s s1 : State T}
    (hd : correct_cow.dtor h s = .ok s1) : run [Op.destroy h] s = .ok s1 := by
  simp only [run, step, hd]

/-! ## What each member function computes -/

theorem release_eq {T : Type} {s : State T} {p : Nat} {o : object_t T}
    (hp : s.heap[p]? = some (Cell.live o)) :
    release s p = .ok ⟨s.heap.set p (if o.count_m.val = 1 then Cell.freed
        else Cell.live ⟨o.count_m.pred, o.data_m⟩), s.handles⟩ := by
  have hlt : p < s.heap.length := by
    rcases Nat.lt_or_ge p s.heap.length with h | h
    · exact h
    · rw [List.getElem?_eq_none h] at hp; cases hp
  unfold release pre_dec
  rw [deref_ok hp]
  simp only [c_int.pred_val_eq_zero]
  by_cases h1 : o.count_m.val = 1
  · simp [h1, delete_object, deref, put, hlt]
  · simp [h1, put]

theorem ctor_eq {T : Type} (x : T) (s : State T) :
    correct_cow.ctor x s
      = ⟨s.heap ++ [Cell.live ⟨c_int.one, x⟩], s.handles ++ [some s.heap.length]⟩ := rfl

theorem copy_ctor_eq {T : Type} {s : State T} {x p : Nat} {o : object_t T}
    (hx : s.handles[x]? = some (some p)) (hp : s.heap[p]? = some (Cell.live o)) :
    correct_cow.copy_ctor x s
      = .ok ⟨s.heap.set p (Cell.live ⟨o.count_m.succ, o.data_m⟩), s.handles ++ [some p]⟩ := by
  unfold correct_cow.copy_ctor
  rw [object_m_ok hx]
  simp only [pre_inc]
  rw [deref_ok (s := ⟨s.heap, s.handles ++ [some p]⟩) hp]
  rfl

theorem dtor_eq {T : Type} {s : State T} {h p : Nat} {o : object_t T}
    (hh : s.handles[h]? = some (some p)) (hp : s.heap[p]? = some (Cell.live o)) :
    correct_cow.dtor h s
      = .ok ⟨s.heap.set p (if o.count_m.val = 1 then Cell.freed
          else Cell.live ⟨o.count_m.pred, o.data_m⟩), s.handles.set h none⟩ := by
  unfold correct_cow.dtor
  simp only [object_m_ok hh, release_eq hp]
  rfl

theorem assign_eq_of_unique {T : Type} {s : State T} {h p : Nat} {o : object_t T} (x : T)
    (hh : s.handles[h]? = some (some p)) (hp : s.heap[p]? = some (Cell.live o))
    (h1 : o.count_m.val = 1) :
    correct_cow.assign h x s
      = .ok ⟨s.heap.set p (Cell.live ⟨o.count_m, x⟩), s.handles⟩ := by
  unfold correct_cow.assign
  simp only [object_m_ok hh, deref_ok hp]
  simp [h1, put]

theorem assign_eq_of_shared {T : Type} {s : State T} {h p : Nat} {o : object_t T} (x : T)
    (hh : s.handles[h]? = some (some p)) (hp : s.heap[p]? = some (Cell.live o))
    (h1 : o.count_m.val ≠ 1) :
    correct_cow.assign h x s
      = .ok ⟨s.heap.set p (Cell.live ⟨o.count_m.pred, o.data_m⟩)
              ++ [Cell.live ⟨c_int.one, x⟩],
            s.handles.set h (some s.heap.length)⟩ := by
  have hlt : p < s.heap.length := by
    rcases Nat.lt_or_ge p s.heap.length with h | h
    · exact h
    · rw [List.getElem?_eq_none h] at hp; cases hp
  have hp1 : (new_object s x).1.heap[p]? = some (Cell.live o) := by
    simp only [new_object]
    rw [List.getElem?_append_left hlt]; exact hp
  unfold correct_cow.assign
  simp only [object_m_ok hh, deref_ok hp, h1, if_false, release_eq hp1]
  simp [new_object, bind_handle, List.set_append, hlt]

theorem assign_trace_eq_of_shared {T : Type} {s : State T} {h p : Nat} {o : object_t T}
    (x : T) (hh : s.handles[h]? = some (some p)) (hp : s.heap[p]? = some (Cell.live o))
    (h1 : o.count_m.val ≠ 1) :
    correct_cow.assign_trace h x s
      = .ok [⟨s.heap ++ [Cell.live ⟨c_int.one, x⟩], s.handles⟩,
             ⟨s.heap.set p (Cell.live ⟨o.count_m.pred, o.data_m⟩)
                ++ [Cell.live ⟨c_int.one, x⟩], s.handles⟩,
             ⟨s.heap.set p (Cell.live ⟨o.count_m.pred, o.data_m⟩)
                ++ [Cell.live ⟨c_int.one, x⟩], s.handles.set h (some s.heap.length)⟩] := by
  have hlt : p < s.heap.length := by
    rcases Nat.lt_or_ge p s.heap.length with h | h
    · exact h
    · rw [List.getElem?_eq_none h] at hp; cases hp
  have hp1 : (new_object s x).1.heap[p]? = some (Cell.live o) := by
    simp only [new_object]
    rw [List.getElem?_append_left hlt]; exact hp
  unfold correct_cow.assign_trace
  simp only [object_m_ok hh, deref_ok hp, h1, if_false, release_eq hp1]
  simp [new_object, bind_handle, List.set_append, hlt]

/-! ## Counting the handles that point at a payload -/

theorem lt_length_of_getElem? {α : Type} {l : List α} {i : Nat} {a : α}
    (h : l[i]? = some a) : i < l.length := by
  rcases Nat.lt_or_ge i l.length with h1 | h1
  · exact h1
  · rw [List.getElem?_eq_none h1] at h; cases h

theorem count_append_handle (hs : List (Option Nat)) (q p : Nat) :
    (hs ++ [some q]).count (some p) = hs.count (some p) + (if q = p then 1 else 0) := by
  rw [List.count_append, List.count_singleton]
  by_cases h : q = p <;> simp [h]

theorem count_pos_of_handle {hs : List (Option Nat)} {h q : Nat}
    (hh : hs[h]? = some (some q)) : 0 < hs.count (some q) := by
  rw [List.count_pos_iff]
  exact List.getElem?_mem hh

theorem count_set_none {hs : List (Option Nat)} {h q : Nat}
    (hh : hs[h]? = some (some q)) (p : Nat) :
    (hs.set h none).count (some p) = hs.count (some p) - (if q = p then 1 else 0) := by
  have hlt := lt_length_of_getElem? hh
  have hget : hs[h] = some q := by
    rw [List.getElem?_eq_getElem hlt] at hh
    exact Option.some.inj hh
  rw [List.count_set _ _ _ _ hlt, hget]
  by_cases h1 : q = p <;> simp [h1]

theorem count_set_some {hs : List (Option Nat)} {h q : Nat}
    (hh : hs[h]? = some (some q)) (t p : Nat) :
    (hs.set h (some t)).count (some p)
      = hs.count (some p) - (if q = p then 1 else 0) + (if t = p then 1 else 0) := by
  have hlt := lt_length_of_getElem? hh
  have hget : hs[h] = some q := by
    rw [List.getElem?_eq_getElem hlt] at hh
    exact Option.some.inj hh
  rw [List.count_set _ _ _ _ hlt, hget]
  by_cases h1 : q = p <;> by_cases h2 : t = p <;> simp [h1, h2]

theorem count_eq_zero_of_bound {hs : List (Option Nat)} {n : Nat}
    (hb : ∀ h p : Nat, hs[h]? = some (some p) → p < n) (q : Nat) (hq : n ≤ q) :
    hs.count (some q) = 0 := by
  rw [List.count_eq_zero]
  intro hmem
  obtain ⟨i, hi⟩ := List.mem_iff_getElem?.mp hmem
  have := hb i q hi
  omega

/-! ## Successful calls, read backwards -/

theorem release_error {T : Type} {s : State T} {p : Nat} {e : Err}
    (hd : deref s p = .error e) : release s p = .error e := by
  simp [release, pre_dec, hd]

theorem copy_ctor_inv {T : Type} {s s1 : State T} {x : Nat}
    (H : correct_cow.copy_ctor x s = .ok s1) :
    ∃ (p : Nat) (o : object_t T), s.handles[x]? = some (some p) ∧
      s.heap[p]? = some (Cell.live o) ∧
      s1 = ⟨s.heap.set p (Cell.live ⟨o.count_m.succ, o.data_m⟩), s.handles ++ [some p]⟩ := by
  cases ho : object_m s x with
  | error e => simp [correct_cow.copy_ctor, ho] at H
  | ok p =>
    have hx := object_m_eq_ok.mp ho
    cases hd : deref s p with
    | error e =>
      have hd1 : deref (⟨s.heap, s.handles ++ [some p]⟩ : State T) p = .error e := hd
      simp [correct_cow.copy_ctor, ho, pre_inc, hd1] at H
    | ok o =>
      have hp := deref_eq_ok.mp hd
      rw [copy_ctor_eq hx hp] at H
      exact ⟨p, o, hx, hp, (Except.ok.inj H).symm⟩

theorem dtor_inv {T : Type} {s s1 : State T} {h : Nat}
    (H : correct_cow.dtor h s = .ok s1) :
    ∃ (p : Nat) (o : object_t T), s.handles[h]? = some (some p) ∧
      s.heap[p]? = some (Cell.live o) ∧
      s1 = ⟨s.heap.set p (if o.count_m.val = 1 then Cell.freed
          else Cell.live ⟨o.count_m.pred, o.data_m⟩), s.handles.set h none⟩ := by
  cases ho : object_m s h with
  | error e => simp [correct_cow.dtor, ho] at H
  | ok p =>
    have hh := object_m_eq_ok.mp ho
    cases hd : deref s p with
    | error e => simp [correct_cow.dtor, ho, release_error hd] at H
    | ok o =>
      have hp := deref_eq_ok.mp hd
      rw [dtor_eq hh hp] at H
      exact ⟨p, o, hh, hp, (Except.ok.inj H).symm⟩

theorem assign_inv {T : Type} {s s1 : State T} {h : Nat} {x : T}
    (H : correct_cow.assign h x s = .ok s1) :
    ∃ (p : Nat) (o : object_t T), s.handles[h]? = some (some p) ∧
      s.heap[p]? = some (Cell.live o) ∧
      ((o.count_m.val = 1 ∧
          s1 = ⟨s.heap.set p (Cell.live ⟨o.count_m, x⟩), s.handles⟩) ∨
       (o.count_m.val ≠ 1 ∧
          s1 = ⟨s.heap.set p (Cell.live ⟨o.count_m.pred, o.data_m⟩)
                  ++ [Cell.live ⟨c_int.one, x⟩],
                s.handles.set h (some s.heap.length)⟩)) := by
  cases ho : object_m s h with
  | error e => simp [correct_cow.assign, ho] at H
  | ok p =>
    have hh := object_m_eq_ok.mp ho
    cases hd : deref s p with
    | error e => simp [correct_cow.assign, ho, hd] at H
    | ok o =>
      have hp := deref_eq_ok.mp hd
      by_cases h1 : o.count_m.val = 1
      · rw [assign_eq_of_unique x hh hp h1] at H
        exact ⟨p, o, hh, hp, Or.inl ⟨h1, (Except.ok.inj H).symm⟩⟩
      · rw [assign_eq_of_shared x hh hp h1] at H
        exact ⟨p, o, hh, hp, Or.inr ⟨h1, (Except.ok.inj H).symm⟩⟩

theorem getElem?_set_cases {α : Type} {l : List α} {p q : Nat} {c d : α}
    (h : (l.set p c)[q]? = some d) :
    (q = p ∧ d = c) ∨ (q ≠ p ∧ l[q]? = some d) := by
  rw [List.getElem?_set] at h
  by_cases hpq : p = q
  · left
    rw [if_pos hpq] at h
    by_cases hlt : p < l.length
    · rw [if_pos hlt] at h
      exact ⟨hpq.symm, (Option.some.inj h).symm⟩
    · rw [if_neg hlt] at h; cases h
  · right
    rw [if_neg hpq] at h
    exact ⟨Ne.symm hpq, h⟩

theorem getElem?_concat_cases {α : Type} {l : List α} {q : Nat} {c d : α}
    (h : (l ++ [c])[q]? = some d) :
    (q < l.length ∧ l[q]? = some d) ∨ (q = l.length ∧ d = c) := by
  rcases Nat.lt_trichotomy q l.length with h1 | h1 | h1
  · left
    rw [List.getElem?_append_left h1] at h
    exact ⟨h1, h⟩
  · right
    subst h1
    rw [List.getElem?_concat_length] at h
    exact ⟨rfl, (Option.some.inj h).symm⟩
  · have : (l ++ [c]).length ≤ q := by simp; omega
    rw [List.getElem?_eq_none this] at h; cases h

/-! ## Every operation preserves consistency -/

theorem consistent_empty {T : Type} : Consistent (State.empty : State T) := by
  refine ⟨?_, ?_, ?_⟩ <;> intros <;> simp_all [State.empty]

theorem consistent_ctor {T : Type} {s : State T} (hc : Consistent s) (x : T) :
    Consistent (correct_cow.ctor x s) := by
  obtain ⟨ha, hb, hf⟩ := hc
  have hz : s.handles.count (some s.heap.length) = 0 :=
    count_eq_zero_of_bound ha _ (Nat.le_refl _)
  rw [ctor_eq]
  refine ⟨?_, ?_, ?_⟩
  · intro h p hh
    simp only [List.length_append, List.length_singleton]
    rcases getElem?_concat_cases hh with ⟨_, h1⟩ | ⟨_, h1⟩
    · have := ha h p h1; omega
    · cases h1; omega
  · intro p o hp
    simp only [refs, count_append_handle]
    rcases getElem?_concat_cases hp with ⟨h1, h2⟩ | ⟨h1, h2⟩
    · have := hb p o h2
      have hne : s.heap.length ≠ p := by omega
      simpa [refs, hne] using this
    · cases h2
      subst h1
      simp only [hz, if_true]
      decide
  · intro p hp
    simp only [refs, count_append_handle]
    rcases getElem?_concat_cases hp with ⟨h1, h2⟩ | ⟨h1, h2⟩
    · have := hf p h2
      have hne : s.heap.length ≠ p := by omega
      simpa [refs, hne] using this
    · cases h2

theorem consistent_copy_ctor {T : Type} {s s1 : State T} {x : Nat} (hc : Consistent s)
    (H : correct_cow.copy_ctor x s = .ok s1) : Consistent s1 := by
  obtain ⟨ha, hb, hf⟩ := hc
  obtain ⟨p, o, hx, hp, rfl⟩ := copy_ctor_inv H
  refine ⟨?_, ?_, ?_⟩
  · intro h q hh
    simp only [List.length_set]
    rcases getElem?_concat_cases hh with ⟨_, h1⟩ | ⟨_, h1⟩
    · exact ha h q h1
    · cases h1; exact ha x p hx
  · intro q o1 hq
    simp only [refs, count_append_handle]
    rcases getElem?_set_cases hq with ⟨h1, h2⟩ | ⟨h1, h2⟩
    · cases h2
      subst h1
      have := hb q o hp
      simp only [refs] at this
      simp only [if_true, c_int.succ_val, this, wrap32_wrap32_add]
      norm_cast
    · have := hb q o1 h2
      simpa [refs, Ne.symm h1] using this
  · intro q hq
    simp only [refs, count_append_handle]
    rcases getElem?_set_cases hq with ⟨h1, h2⟩ | ⟨h1, h2⟩
    · cases h2
    · have := hf q h2
      simpa [refs, Ne.symm h1] using this

theorem consistent_dtor {T : Type} {s s1 : State T} {h : Nat} (hc : Consistent s)
    (H : correct_cow.dtor h s = .ok s1) : Consistent s1 := by
  obtain ⟨ha, hb, hf⟩ := hc
  obtain ⟨p, o, hh, hp, rfl⟩ := dtor_inv H
  have hpos := count_pos_of_handle hh
  have hcount := hb p o hp
  simp only [refs] at hcount
  refine ⟨?_, ?_, ?_⟩
  · intro h1 q hq
    simp only [List.length_set]
    rcases getElem?_set_cases hq with ⟨_, h2⟩ | ⟨_, h2⟩
    · cases h2
    · exact ha h1 q h2
  · intro q o1 hq
    simp only [refs, count_set_none hh]
    rcases getElem?_set_cases hq with ⟨h1, h2⟩ | ⟨h1, h2⟩
    · subst h1
      by_cases hone : o.count_m.val = 1
      · rw [if_pos hone] at h2; cases h2
      · rw [if_neg hone] at h2
        cases h2
        simp only [if_true, c_int.pred_val, hcount]
        unfold wrap32
        omega
    · have := hb q o1 h2
      simpa [refs, Ne.symm h1] using this
  · intro q hq
    simp only [refs, count_set_none hh]
    rcases getElem?_set_cases hq with ⟨h1, h2⟩ | ⟨h1, h2⟩
    · subst h1
      by_cases hone : o.count_m.val = 1
      · simp only [if_true]
        rw [hone] at hcount
        unfold wrap32 at hcount ⊢
        omega
      · rw [if_neg hone] at h2; cases h2
    · have := hf q h2
      simpa [refs, Ne.symm h1] using this

theorem consistent_assign {T : Type} {s s1 : State T} {h : Nat} {x : T} (hc : Consistent s)
    (H : correct_cow.assign h x s = .ok s1) : Consistent s1 := by
  obtain ⟨ha, hb, hf⟩ := hc
  obtain ⟨p, o, hh, hp, ⟨h1, rfl⟩ | ⟨h1, rfl⟩⟩ := assign_inv H
  · refine ⟨?_, ?_, ?_⟩
    · intro h2 q hq
      simp only [List.length_set]
      exact ha h2 q hq
    · intro q o1 hq
      rcases getElem?_set_cases hq with ⟨h2, h3⟩ | ⟨h2, h3⟩
      · cases h3
        subst h2
        exact hb q o hp
      · exact hb q o1 h3
    · intro q hq
      rcases getElem?_set_cases hq with ⟨h2, h3⟩ | ⟨h2, h3⟩
      · cases h3
      · exact hf q h3
  · have hpos := count_pos_of_handle hh
    have hcount := hb p o hp
    simp only [refs] at hcount
    have hlt := ha h p hh
    have hz : s.handles.count (some s.heap.length) = 0 :=
      count_eq_zero_of_bound ha _ (Nat.le_refl _)
    refine ⟨?_, ?_, ?_⟩
    · intro h2 q hq
      simp only [List.length_append, List.length_set, List.length_singleton]
      rcases getElem?_set_cases hq with ⟨_, h3⟩ | ⟨_, h3⟩
      · cases h3; omega
      · have := ha h2 q h3; omega
    · intro q o1 hq
      simp only [refs, count_set_some hh]
      rcases getElem?_concat_cases hq with ⟨h2, h3⟩ | ⟨h2, h3⟩
      · simp only [List.length_set] at h2
        have hne : s.heap.length ≠ q := by omega
        rcases getElem?_set_cases h3 with ⟨h4, h5⟩ | ⟨h4, h5⟩
        · cases h5
          subst h4
          simp only [if_true, if_neg hne, c_int.pred_val, hcount]
          unfold wrap32
          omega
        · have := hb q o1 h5
          simpa [refs, Ne.symm h4, hne] using this
      · cases h3
        simp only [List.length_set] at h2
        subst h2
        have hne : p ≠ s.heap.length := by omega
        simp only [hz, if_neg hne, if_true]
        decide
    · intro q hq
      simp only [refs, count_set_some hh]
      rcases getElem?_concat_cases hq with ⟨h2, h3⟩ | ⟨h2, h3⟩
      · simp only [List.length_set] at h2
        have hne : s.heap.length ≠ q := by omega
        rcases getElem?_set_cases h3 with ⟨h4, h5⟩ | ⟨h4, h5⟩
        · cases h5
        · have := hf q h5
          simpa [refs, Ne.symm h4, hne] using this
      · cases h3

theorem consistent_step {T : Type} {s s1 : State T} {op : Op T} (hc : Consistent s)
    (H : step op s = .ok s1) : Consistent s1 := by
  cases op with
  | construct x =>
    simp only [step] at H
    cases Except.ok.inj H
    exact consistent_ctor hc x
  | copy src => exact consistent_copy_ctor hc H
  | destroy h => exact consistent_dtor hc H
  | assign h x => exact consistent_assign hc H

theorem consistent_run {T : Type} (ops : List (Op T)) {s s1 : State T} (hc : Consistent s)
    (H : run ops s = .ok s1) : Consistent s1 := by
  induction ops generalizing s with
  | nil =>
    simp only [run] at H
    cases Except.ok.inj H
    exact hc
  | cons op rest ih =>
    simp only [run] at H
    cases hs : step op s with
    | error e => simp [hs] at H
    | ok s2 =>
      simp only [hs] at H
      exact ih (consistent_step hc hs) H

/-! ## One payload shared by many handles -/

theorem ctor_empty {T : Type} (v : T) :
    correct_cow.ctor v (State.empty : State T) = shared v 1 := rfl

theorem run_construct_empty {T : Type} (v : T) (ops : List (Op T)) :
    run (Op.construct v :: ops) State.empty = run ops (shared v 1) := by
  simp only [run, step, ctor_empty]

theorem shared_handle {T : Type} (v : T) {k j : Nat} (hj : j < k) :
    (shared v k).handles[j]? = some (some 0) := by
  simp only [shared, List.getElem?_replicate, if_pos hj]

theorem shared_heap {T : Type} (v : T) (k : Nat) :
    (shared v k).heap[0]? = some (Cell.live ⟨c_int.wrap k, v⟩) := rfl

theorem shared_refs {T : Type} (v : T) (k : Nat) : refs (shared v k) 0 = k := by
  simp only [refs, shared, List.count_replicate_self]

theorem wrap_succ (k : Nat) : (c_int.wrap k).succ = c_int.wrap (k + 1 : Nat) := by
  apply c_int.eq_of_val
  show wrap32 (wrap32 k + 1) = wrap32 ((k + 1 : Nat) : Int)
  rw [wrap32_wrap32_add]
  norm_cast

theorem wrap_pred (k : Nat) : (c_int.wrap (k + 1 : Nat)).pred = c_int.wrap k := by
  apply c_int.eq_of_val
  show wrap32 (wrap32 ((k + 1 : Nat) : Int) - 1) = wrap32 k
  unfold wrap32
  omega

theorem copy_shared {T : Type} (v : T) {k j : Nat} (hj : j < k) :
    correct_cow.copy_ctor j (shared v k) = .ok (shared v (k + 1)) := by
  rw [copy_ctor_eq (shared_handle v hj) (shared_heap v k)]
  simp only [shared, List.set_cons_zero, wrap_succ, List.replicate_succ']

theorem run_copies_shared {T : Type} (v : T) (srcs : List Nat) (k : Nat)
    (hsrc : ∀ (i : Nat) (hi : i < srcs.length), srcs[i] < k + i) :
    run (srcs.map Op.copy) (shared v k) = .ok (shared v (k + srcs.length)) := by
  induction srcs generalizing k with
  | nil => rfl
  | cons a rest ih =>
    have h0 : a < k := by simpa using hsrc 0 (by simp)
    simp only [List.map_cons, run, step, copy_shared v h0, List.length_cons]
    rw [ih (k + 1)]
    · congr 2; omega
    · intro i hi
      have := hsrc (i + 1) (by simpa using hi)
      simp only [List.getElem_cons_succ] at this
      omega

theorem run_replicate_copy_shared {T : Type} (v : T) (n k : Nat) (hk : 0 < k) :
    run (List.replicate n (Op.copy 0)) (shared v k) = .ok (shared v (k + n)) := by
  induction n generalizing k with
  | zero => rfl
  | succ n ih =>
    simp only [List.replicate_succ, run, step, copy_shared v hk]
    rw [ih (k + 1) (by omega)]
    congr 2; omega

theorem run_family {T : Type} (v : T) (n : Nat) :
    run (Op.construct v :: List.replicate n (Op.copy 0)) State.empty
      = .ok (shared v (n + 1)) := by
  simp only [run, step, ctor_empty]
  rw [run_replicate_copy_shared v n 1 (by decide), Nat.add_comm]

theorem dtor_shared {T : Type} (v : T) {k j : Nat} (hj : j < k + 1)
    (h1 : (c_int.wrap (k + 1 : Nat)).val ≠ 1) :
    correct_cow.dtor j (shared v (k + 1))
      = .ok ⟨[Cell.live ⟨c_int.wrap k, v⟩], (List.replicate (k + 1) (some 0)).set j none⟩ := by
  rw [dtor_eq (shared_handle v hj) (shared_heap v (k + 1))]
  simp only [shared, List.set_cons_zero, if_neg h1, wrap_pred]

theorem dtor_shared_last {T : Type} (v : T) {k j : Nat} (hj : j < k)
    (h1 : (c_int.wrap k).val = 1) :
    correct_cow.dtor j (shared v k)
      = .ok ⟨[Cell.freed], (List.replicate k (some 0)).set j none⟩ := by
  rw [dtor_eq (shared_handle v hj) (shared_heap v k)]
  simp only [shared, List.set_cons_zero, if_pos h1]

theorem wrap_val_ne_one {k : Nat} (h2 : 2 ≤ k) (hk : k ≤ 4294967296) :
    (c_int.wrap k).val ≠ 1 := by
  show wrap32 k ≠ 1
  unfold wrap32
  omega

theorem run_destroys {T : Type} (v : T) (ds : List Nat) (s : State T) (k : Nat)
    (hheap : s.heap = [Cell.live ⟨c_int.wrap k, v⟩]) (hrefs : refs s 0 = k)
    (hlen : ds.length < k) (hk : k ≤ 4294967296) (hnd : ds.Nodup)
    (hlive : ∀ d ∈ ds, s.handles[d]? = some (some 0)) :
    ∃ s1, run (ds.map Op.destroy) s = .ok s1 ∧
      s1.heap = [Cell.live ⟨c_int.wrap (k - ds.length : Nat), v⟩] ∧
      (∀ i : Nat, i ∉ ds → s1.handles[i]? = s.handles[i]?) := by
  induction ds generalizing s k with
  | nil => exact ⟨s, rfl, by simpa using hheap, fun _ _ => rfl⟩
  | cons d rest ih =>
    simp only [List.length_cons] at hlen
    obtain ⟨j, rfl⟩ : ∃ j, k = j + 1 := ⟨k - 1, by omega⟩
    have hd := hlive d (List.mem_cons_self _ _)
    have hp : s.heap[0]? = some (Cell.live ⟨c_int.wrap (j + 1 : Nat), v⟩) := by
      rw [hheap]; rfl
    have hne : (c_int.wrap (j + 1 : Nat)).val ≠ 1 := wrap_val_ne_one (by omega) hk
    have hstep : correct_cow.dtor d s
        = .ok ⟨[Cell.live ⟨c_int.wrap j, v⟩], s.handles.set d none⟩ := by
      rw [dtor_eq hd hp, hheap]
      simp only [List.set_cons_zero, if_neg hne, wrap_pred]
    have hnd1 := (List.nodup_cons.mp hnd).2
    have hdn := (List.nodup_cons.mp hnd).1
    have hrefs1 : refs (⟨[Cell.live ⟨c_int.wrap j, v⟩], s.handles.set d none⟩ : State T) 0
        = j := by
      simp only [refs] at hrefs ⊢
      rw [count_set_none hd, hrefs]
      simp
    obtain ⟨s1, hrun, hheap1, hframe⟩ :=
      ih ⟨[Cell.live ⟨c_int.wrap j, v⟩], s.handles.set d none⟩ j rfl hrefs1 (by omega)
        (by omega) hnd1 (by
          intro d1 hd1
          have hne1 : d ≠ d1 := fun e => hdn (e ▸ hd1)
          show (s.handles.set d none)[d1]? = _
          rw [List.getElem?_set_ne hne1]
          exact hlive d1 (List.mem_cons_of_mem _ hd1))
    refine ⟨s1, ?_, ?_, ?_⟩
    · simp only [List.map_cons, run, step, hstep]
      exact hrun
    · rw [hheap1]
      simp only [List.length_cons]
      congr 4
      omega
    · intro i hi
      have hi1 : i ∉ rest := fun e => hi (List.mem_cons_of_mem _ e)
      have hi2 : d ≠ i := fun e => hi (e ▸ List.mem_cons_self _ _)
      rw [hframe i hi1]
      show (s.handles.set d none)[i]? = _
      rw [List.getElem?_set_ne hi2]

theorem run_destroy_after_free {T : Type} (v : T) (k : Nat) (hk : 2 ≤ k)
    (h1 : (c_int.wrap k).val = 1) (rest : List (Op T)) :
    run (Op.destroy 0 :: Op.destroy 1 :: rest) (shared v k) = .error .bad_access := by
  have hh : (⟨[Cell.freed], (List.replicate k (some 0)).set 0 none⟩ :
      State T).handles[1]? = some (some 0) := by
    show ((List.replicate k (some 0)).set 0 none)[1]? = _
    rw [List.getElem?_set_ne (by decide), List.getElem?_replicate_of_lt (by omega)]
  have hd : deref (⟨[Cell.freed], (List.replicate k (some 0)).set 0 none⟩ : State T) 0
      = .error .bad_access := rfl
  have h2 : correct_cow.dtor 1
      (⟨[Cell.freed], (List.replicate k (some 0)).set 0 none⟩ : State T)
      = .error .bad_access := by
    simp only [correct_cow.dtor, object_m_ok hh, release_error hd]
  simp only [run, step, dtor_shared_last v (show 0 < k by omega) h1, h2]

theorem range_map_destroy_head (T : Type) (n : Nat) :
    ∃ rest : List (Op T),
      (List.range (n + 2)).map Op.destroy = Op.destroy 0 :: Op.destroy 1 :: rest := by
  refine ⟨((List.range n).map Nat.succ |>.map Nat.succ).map Op.destroy, ?_⟩
  rw [List.range_succ_eq_map, List.range_succ_eq_map]
  rfl

/-! ## Reading through a handle -/

theorem value_of_ok {T : Type} {s : State T} {h p : Nat} {o : object_t T}
    (hh : s.handles[h]? = some (some p)) (hp : s.heap[p]? = some (Cell.live o)) :
    value_of s h = .ok o.data_m := by
  simp only [value_of, object_m_ok hh, deref_ok hp]

theorem value_of_inv {T : Type} {s : State T} {h : Nat} {v : T}
    (H : value_of s h = .ok v) :
    ∃ (p : Nat) (o : object_t T), s.handles[h]? = some (some p) ∧
      s.heap[p]? = some (Cell.live o) ∧ o.data_m = v := by
  cases ho : object_m s h with
  | error e => simp [value_of, ho] at H
  | ok p =>
    cases hd : deref s p with
    | error e => simp [value_of, ho, hd] at H
    | ok o =>
      simp only [value_of, ho, hd] at H
      exact ⟨p, o, object_m_eq_ok.mp ho, deref_eq_ok.mp hd, Except.ok.inj H⟩

/-! ## The two-handle scenario, from any starting state -/

theorem c_int.one_succ_val : c_int.one.succ.val = 2 := by decide

theorem c_int.one_succ_pred : c_int.one.succ.pred = c_int.one := by decide

theorem scenario_copy {T : Type} (s0 : State T) (v1 : T) :
    correct_cow.copy_ctor s0.handles.length (correct_cow.ctor v1 s0)
      = .ok ⟨s0.heap ++ [Cell.live ⟨c_int.one.succ, v1⟩],
             s0.handles ++ [some s0.heap.length, some s0.heap.length]⟩ := by
  have hA : (correct_cow.ctor v1 s0).handles[s0.handles.length]? = some (some s0.heap.length) := by
    simp [ctor_eq]
  have hP : (correct_cow.ctor v1 s0).heap[s0.heap.length]?
      = some (Cell.live ⟨c_int.one, v1⟩) := by
    simp [ctor_eq]
  rw [copy_ctor_eq hA hP]
  simp [ctor_eq, List.set_append]

theorem scenario_assign {T : Type} (s0 : State T) (v1 v2 : T) :
    correct_cow.assign (s0.handles.length + 1) v2
        ⟨s0.heap ++ [Cell.live ⟨c_int.one.succ, v1⟩],
         s0.handles ++ [some s0.heap.length, some s0.heap.length]⟩
      = .ok ⟨s0.heap ++ [Cell.live ⟨c_int.one, v1⟩, Cell.live ⟨c_int.one, v2⟩],
             s0.handles ++ [some s0.heap.length, some (s0.heap.length + 1)]⟩ := by
  have hB : (⟨s0.heap ++ [Cell.live ⟨c_int.one.succ, v1⟩],
         s0.handles ++ [some s0.heap.length, some s0.heap.length]⟩ : State T).handles[
           s0.handles.length + 1]? = some (some s0.heap.length) := by
    show (s0.handles ++ [some s0.heap.length, some s0.heap.length])[s0.handles.length + 1]? = _
    rw [List.getElem?_append_right (Nat.le_add_right _ _)]; simp
  have hP : (⟨s0.heap ++ [Cell.live ⟨c_int.one.succ, v1⟩],
         s0.handles ++ [some s0.heap.length, some s0.heap.length]⟩ : State T).heap[
           s0.heap.length]? = some (Cell.live ⟨c_int.one.succ, v1⟩) := by
    simp
  rw [assign_eq_of_shared v2 hB hP (by rw [c_int.one_succ_val]; decide)]
  simp [List.set_append, c_int.one_succ_pred]

theorem scenario_run {T : Type} (s0 : State T) (v1 v2 : T) :
    run [Op.construct v1, Op.copy s0.handles.length,
         Op.assign (s0.handles.length + 1) v2] s0
      = .ok ⟨s0.heap ++ [Cell.live ⟨c_int.one, v1⟩, Cell.live ⟨c_int.one, v2⟩],
             s0.handles ++ [some s0.heap.length, some (s0.heap.length + 1)]⟩ := by
  simp only [run, step, scenario_copy, scenario_assign]

/-! ## Theorems -/

/-- C1. Copy-on-write isolation: in any state, construct A with v1, copy A to
B, assign v2 to B; the run succeeds, A still reads v1, B reads v2, and the
two handles point at two different payloads. -/
theorem C1_cow_isolation {T : Type} (s0 : State T) (v1 v2 : T) :
    ∃ s pA pB,
      run [Op.construct v1, Op.copy s0.handles.length,
           Op.assign (s0.handles.length + 1) v2] s0 = .ok s ∧
      object_m s s0.handles.length = .ok pA ∧
      object_m s (s0.handles.length + 1) = .ok pB ∧
      pA ≠ pB ∧
      value_of s s0.handles.length = .ok v1 ∧
      value_of s (s0.handles.length + 1) = .ok v2 := by
  have hA : (s0.handles ++ [some s0.heap.length, some (s0.heap.length + 1)])[
      s0.handles.length]? = some (some s0.heap.length) := by
    rw [List.getElem?_append_right (Nat.le_refl _)]; simp
  have hB : (s0.handles ++ [some s0.heap.length, some (s0.heap.length + 1)])[
      s0.handles.length + 1]? = some (some (s0.heap.length + 1)) := by
    rw [List.getElem?_append_right (Nat.le_add_right _ _)]; simp
  have hPA : (s0.heap ++ [Cell.live ⟨c_int.one, v1⟩, Cell.live ⟨c_int.one, v2⟩])[
      s0.heap.length]? = some (Cell.live ⟨c_int.one, v1⟩) := by
    rw [List.getElem?_append_right (Nat.le_refl _)]; simp
  have hPB : (s0.heap ++ [Cell.live ⟨c_int.one, v1⟩, Cell.live ⟨c_int.one, v2⟩])[
      s0.heap.length + 1]? = some (Cell.live ⟨c_int.one, v2⟩) := by
    rw [List.getElem?_append_right (Nat.le_add_right _ _)]; simp
  refine ⟨_, s0.heap.length, s0.heap.length + 1, scenario_run s0 v1 v2, ?_, ?_, ?_, ?_, ?_⟩
  · exact object_m_ok (s := ⟨_, _⟩) hA
  · exact object_m_ok (s := ⟨_, _⟩) hB
  · omega
  · simp only [value_of, object_m_ok (s := ⟨_, _⟩) hA, deref_ok (s := ⟨_, _⟩) hPA]
  · simp only [value_of, object_m_ok (s := ⟨_, _⟩) hB, deref_ok (s := ⟨_, _⟩) hPB]

/-- C9. Concrete scenario from the empty heap, for all values v1 and v2:
after constructing A and copying it to B one payload exists with count 2;
after assigning v2 to B there are two payloads with count 1, A reads v1 and
B reads v2; after destroying A and B both payloads are freed (each once) and
none stays allocated. -/
theorem C9_concrete_scenario {T : Type} (v1 v2 : T) :
    run [Op.construct v1, Op.copy 0] State.empty
      = .ok ⟨[Cell.live ⟨⟨2, by decide, by decide⟩, v1⟩], [some 0, some 0]⟩ ∧
    (∃ s, run [Op.construct v1, Op.copy 0, Op.assign 1 v2] State.empty = .ok s ∧
      s = ⟨[Cell.live ⟨⟨1, by decide, by decide⟩, v1⟩,
            Cell.live ⟨⟨1, by decide, by decide⟩, v2⟩], [some 0, some 1]⟩ ∧
      value_of s 0 = .ok v1 ∧ value_of s 1 = .ok v2 ∧
      object_m s 0 = .ok 0 ∧ object_m s 1 = .ok 1) ∧
    (∃ s, run [Op.construct v1, Op.copy 0, Op.assign 1 v2, Op.destroy 0, Op.destroy 1]
        State.empty = .ok s ∧
      s = ⟨[Cell.freed, Cell.freed], [none, none]⟩ ∧ allocated s = 0) := by
  refine ⟨rfl, ⟨_, rfl, rfl, rfl, rfl, rfl, rfl⟩, ⟨_, rfl, rfl, rfl⟩⟩

/-- C4. In-place fast path: when the payload of a live handle has count 1,
`operator=` performs the single in-place store: the free store keeps its
length (nothing allocated), every cell keeps its allocation status (nothing
freed), all handles keep their `object_m`, the payload keeps count 1 and now
holds x, and every other cell is unchanged. -/
theorem C4_fast_path {T : Type} (s : State T) (h p : Nat) (o : object_t T) (x : T)
    (hh : s.handles[h]? = some (some p)) (hp : s.heap[p]? = some (Cell.live o))
    (h1 : o.count_m.val = 1) :
    ∃ s1, correct_cow.assign h x s = .ok s1 ∧
      correct_cow.assign_trace h x s = .ok [s1] ∧
      s1.heap.length = s.heap.length ∧
      (∀ q : Nat, s1.heap[q]? = some Cell.freed ↔ s.heap[q]? = some Cell.freed) ∧
      s1.handles = s.handles ∧
      object_m s1 h = .ok p ∧
      (∃ c : c_int, c.val = 1 ∧ s1.heap[p]? = some (Cell.live ⟨c, x⟩)) ∧
      (∀ q : Nat, q ≠ p → s1.heap[q]? = s.heap[q]?) := by
  have hlt : p < s.heap.length := by
    rcases Nat.lt_or_ge p s.heap.length with h | h
    · exact h
    · rw [List.getElem?_eq_none h] at hp; cases hp
  refine ⟨_, assign_eq_of_unique x hh hp h1, ?_, ?_, ?_, rfl, ?_, ⟨o.count_m, h1, ?_⟩, ?_⟩
  · unfold correct_cow.assign_trace
    simp only [object_m_ok hh, deref_ok hp]
    simp [h1, put]
  · simp
  · intro q
    by_cases hq : q = p
    · subst hq
      simp [List.getElem?_set, hlt, hp]
    · simp [List.getElem?_set, Ne.symm hq]
  · exact object_m_ok (s := ⟨_, _⟩) hh
  · simp [List.getElem?_set, hlt]
  · intro q hq
    simp [List.getElem?_set, Ne.symm hq]

/-- Witness for C4: a sole owner holding 10 is assigned 20. -/
theorem C4_fast_path_witness :
    (⟨[Cell.live ⟨c_int.one, (10 : Int)⟩], [some 0]⟩ : State Int).handles[0]? = some (some 0) ∧
    ∃ s1, correct_cow.assign 0 (20 : Int) ⟨[Cell.live ⟨c_int.one, 10⟩], [some 0]⟩ = .ok s1 ∧
      correct_cow.assign_trace 0 (20 : Int) ⟨[Cell.live ⟨c_int.one, 10⟩], [some 0]⟩ = .ok [s1] ∧
      s1.heap.length = 1 ∧
      (∀ q : Nat, s1.heap[q]? = some Cell.freed ↔
        [Cell.live ⟨c_int.one, (10 : Int)⟩][q]? = some Cell.freed) ∧
      s1.handles = [some 0] ∧
      object_m s1 0 = .ok 0 ∧
      (∃ c : c_int, c.val = 1 ∧ s1.heap[0]? = some (Cell.live ⟨c, 20⟩)) ∧
      (∀ q : Nat, q ≠ 0 → s1.heap[q]? = [Cell.live ⟨c_int.one, (10 : Int)⟩][q]?) :=
  ⟨by decide,
   C4_fast_path ⟨[Cell.live ⟨c_int.one, 10⟩], [some 0]⟩ 0 0 ⟨c_int.one, 10⟩ 20
     (by decide) (by decide) (by decide)⟩

/-- C2 (as amended). From the empty heap, after every sequence of operations
that runs without error, the count of every allocated payload is the number
of live handles pointing at it reduced to 32 bits, and so equals that number
whenever fewer than 2^31 live handles point at the payload. -/
theorem C2_refcount_accounting {T : Type} (ops : List (Op T)) (s : State T) (p : Nat)
    (o : object_t T) (hrun : run ops State.empty = .ok s)
    (hp : s.heap[p]? = some (Cell.live o)) :
    o.count_m.val = wrap32 (refs s p) ∧
    (refs s p < 2147483648 → o.count_m.val = refs s p) := by
  have hc := (consistent_run ops consistent_empty hrun).2.1 p o hp
  refine ⟨hc, fun hlt => ?_⟩
  rw [hc]
  exact wrap32_of_range _ (by omega) (by omega)

/-- Witness for C2: the two-handle scenario, first payload. -/
theorem C2_refcount_accounting_witness :
    run [Op.construct (10 : Int), Op.copy 0, Op.assign 1 20] State.empty
      = .ok ⟨[Cell.live ⟨c_int.one, 10⟩, Cell.live ⟨c_int.one, 20⟩], [some 0, some 1]⟩ ∧
    (1 : Int) = wrap32 (refs (⟨[Cell.live ⟨c_int.one, 10⟩, Cell.live ⟨c_int.one, 20⟩],
        [some 0, some 1]⟩ : State Int) 0) ∧
    (refs (⟨[Cell.live ⟨c_int.one, 10⟩, Cell.live ⟨c_int.one, 20⟩],
        [some 0, some 1]⟩ : State Int) 0 < 2147483648 →
      (1 : Int) = refs (⟨[Cell.live ⟨c_int.one, 10⟩, Cell.live ⟨c_int.one, 20⟩],
        [some 0, some 1]⟩ : State Int) 0) :=
  ⟨by decide,
   C2_refcount_accounting [Op.construct (10 : Int), Op.copy 0, Op.assign 1 20]
     ⟨[Cell.live ⟨c_int.one, 10⟩, Cell.live ⟨c_int.one, 20⟩], [some 0, some 1]⟩ 0
     ⟨c_int.one, 10⟩ (by decide) (by decide)⟩

/-- C2 (as stated) fails: after one construction and 2^31 - 1 copies the
payload is allocated, 2^31 live handles point at it, and its count is
-2^31. -/
theorem C2_counterexample :
    run (Op.construct (0 : Int) :: List.replicate 2147483647 (Op.copy 0)) State.empty
      = .ok (shared 0 2147483648) ∧
    (shared (0 : Int) 2147483648).heap[0]? = some (Cell.live ⟨c_int.wrap 2147483648, 0⟩) ∧
    (c_int.wrap 2147483648).val = -2147483648 ∧
    refs (shared (0 : Int) 2147483648) 0 = 2147483648 ∧
    (c_int.wrap 2147483648).val ≠ (refs (shared (0 : Int) 2147483648) 0 : Int) :=
  ⟨run_family 0 2147483647, rfl, by decide, shared_refs 0 2147483648,
   by rw [shared_refs]; decide⟩

/-- C10 (as amended). From the empty heap, after every sequence of operations
that runs without error, a live handle whose payload has fewer than 2^31 live
handles pointing at it refers to an allocated payload with count at least 1;
reading through the handle, copying it, destroying it and assigning to it
all stay within defined behaviour. -/
theorem C10_no_dangling_handle {T : Type} (ops : List (Op T)) (s : State T) (h p : Nat)
    (hrun : run ops State.empty = .ok s) (hh : s.handles[h]? = some (some p))
    (hlt : refs s p < 2147483648) :
    (∃ o, s.heap[p]? = some (Cell.live o) ∧ 1 ≤ o.count_m.val ∧
      value_of s h = .ok o.data_m) ∧
    (∃ s1, correct_cow.copy_ctor h s = .ok s1) ∧
    (∃ s1, correct_cow.dtor h s = .ok s1) ∧
    (∀ x : T, ∃ s1, correct_cow.assign h x s = .ok s1) := by
  obtain ⟨ha, hb, hf⟩ := consistent_run ops consistent_empty hrun
  have hpos : 0 < refs s p := count_pos_of_handle hh
  have hin := ha h p hh
  cases hcell : s.heap[p]? with
  | none =>
    rw [List.getElem?_eq_none_iff] at hcell
    omega
  | some c =>
    cases c with
    | freed =>
      have := hf p hcell
      unfold wrap32 at this
      omega
    | live o =>
      refine ⟨⟨o, rfl, ?_, value_of_ok hh hcell⟩, ⟨_, copy_ctor_eq hh hcell⟩,
        ⟨_, dtor_eq hh hcell⟩, fun x => ?_⟩
      · rw [hb p o hcell, wrap32_of_range _ (by omega) (by omega)]
        omega
      · by_cases h1 : o.count_m.val = 1
        · exact ⟨_, assign_eq_of_unique x hh hcell h1⟩
        · exact ⟨_, assign_eq_of_shared x hh hcell h1⟩

/-- Witness for C10: the two-handle scenario, second handle. -/
theorem C10_no_dangling_handle_witness :
    run [Op.construct (10 : Int), Op.copy 0, Op.assign 1 20] State.empty
      = .ok ⟨[Cell.live ⟨c_int.one, 10⟩, Cell.live ⟨c_int.one, 20⟩], [some 0, some 1]⟩ ∧
    ((∃ o, (⟨[Cell.live ⟨c_int.one, 10⟩, Cell.live ⟨c_int.one, 20⟩],
        [some 0, some 1]⟩ : State Int).heap[1]? = some (Cell.live o) ∧ 1 ≤ o.count_m.val ∧
      value_of (⟨[Cell.live ⟨c_int.one, 10⟩, Cell.live ⟨c_int.one, 20⟩],
        [some 0, some 1]⟩ : State Int) 1 = .ok o.data_m) ∧
    (∃ s1, correct_cow.copy_ctor 1 (⟨[Cell.live ⟨c_int.one, 10⟩, Cell.live ⟨c_int.one, 20⟩],
        [some 0, some 1]⟩ : State Int) = .ok s1) ∧
    (∃ s1, correct_cow.dtor 1 (⟨[Cell.live ⟨c_int.one, 10⟩, Cell.live ⟨c_int.one, 20⟩],
        [some 0, some 1]⟩ : State Int) = .ok s1) ∧
    (∀ x : Int, ∃ s1, correct_cow.assign 1 x
        (⟨[Cell.live ⟨c_int.one, 10⟩, Cell.live ⟨c_int.one, 20⟩],
        [some 0, some 1]⟩ : State Int) = .ok s1)) :=
  ⟨by decide,
   C10_no_dangling_handle [Op.construct (10 : Int), Op.copy 0, Op.assign 1 20]
     ⟨[Cell.live ⟨c_int.one, 10⟩, Cell.live ⟨c_int.one, 20⟩], [some 0, some 1]⟩ 1 1
     (by decide) (by decide) (by decide)⟩

/-- C10 (as stated) fails: after one construction and 2^31 - 1 copies handle 0
is live and its payload is allocated with count -2^31, which is below 1. -/
theorem C10_counterexample :
    run (Op.construct (0 : Int) :: List.replicate 2147483647 (Op.copy 0)) State.empty
      = .ok (shared 0 2147483648) ∧
    (shared (0 : Int) 2147483648).handles[0]? = some (some 0) ∧
    (shared (0 : Int) 2147483648).heap[0]? = some (Cell.live ⟨c_int.wrap 2147483648, 0⟩) ∧
    ¬ (1 ≤ (c_int.wrap 2147483648).val) :=
  ⟨run_family 0 2147483647, shared_handle 0 (by decide), rfl, by decide⟩

/-- C5. Divergence: when the payload p of a live handle h has count n > 1,
`h = x` succeeds; exactly one cell is added to the free store, it holds x
with count 1 and h points at it; p keeps its data and has count n - 1; every
other cell is unchanged; every other handle keeps its `object_m` and reads the
value it read before. -/
theorem C5_divergence {T : Type} (s : State T) (h p : Nat) (o : object_t T) (x : T)
    (hh : s.handles[h]? = some (some p)) (hp : s.heap[p]? = some (Cell.live o))
    (hn : 1 < o.count_m.val) :
    ∃ s1, correct_cow.assign h x s = .ok s1 ∧
      s1.heap.length = s.heap.length + 1 ∧
      (∃ c : c_int, c.val = 1 ∧ s1.heap[s.heap.length]? = some (Cell.live ⟨c, x⟩)) ∧
      s1.handles[h]? = some (some s.heap.length) ∧
      (∃ c : c_int, c.val = o.count_m.val - 1 ∧
        s1.heap[p]? = some (Cell.live ⟨c, o.data_m⟩)) ∧
      (∀ q : Nat, q ≠ p → q < s.heap.length → s1.heap[q]? = s.heap[q]?) ∧
      (∀ h1 : Nat, h1 ≠ h → s1.handles[h1]? = s.handles[h1]?) ∧
      (∀ (h1 : Nat) (v : T), h1 ≠ h → value_of s h1 = .ok v → value_of s1 h1 = .ok v) := by
  have hlt := lt_length_of_getElem? hp
  have hhlt := lt_length_of_getElem? hh
  have hne : o.count_m.val ≠ 1 := by omega
  have hpred : o.count_m.pred.val = o.count_m.val - 1 := by
    have := o.count_m.hi
    rw [c_int.pred_val]
    exact wrap32_of_range _ (by omega) (by omega)
  have hold : ∀ q : Nat, q ≠ p → q < s.heap.length →
      (s.heap.set p (Cell.live ⟨o.count_m.pred, o.data_m⟩)
        ++ [Cell.live ⟨c_int.one, x⟩])[q]? = s.heap[q]? := by
    intro q hq hql
    rw [List.getElem?_append_left (by simpa using hql), List.getElem?_set_ne (Ne.symm hq)]
  have hnew : (s.heap.set p (Cell.live ⟨o.count_m.pred, o.data_m⟩)
        ++ [Cell.live ⟨c_int.one, x⟩])[p]?
      = some (Cell.live ⟨o.count_m.pred, o.data_m⟩) := by
    rw [List.getElem?_append_left (by simpa using hlt)]
    simp [List.getElem?_set, hlt]
  refine ⟨_, assign_eq_of_shared x hh hp hne, ?_, ⟨c_int.one, rfl, ?_⟩, ?_,
    ⟨o.count_m.pred, hpred, hnew⟩, hold, ?_, ?_⟩
  · simp
  · have hlen : s.heap.length
        = (s.heap.set p (Cell.live ⟨o.count_m.pred, o.data_m⟩)).length := by simp
    show (s.heap.set p (Cell.live ⟨o.count_m.pred, o.data_m⟩)
        ++ [Cell.live ⟨c_int.one, x⟩])[s.heap.length]? = _
    rw [List.getElem?_append_right (by simp)]
    simp
  · simp [List.getElem?_set, hhlt]
  · intro h1 hh1
    show (s.handles.set h (some s.heap.length))[h1]? = _
    rw [List.getElem?_set_ne (Ne.symm hh1)]
  · intro h1 v hh1 hv
    obtain ⟨q, o1, hq1, hq2, rfl⟩ := value_of_inv hv
    have hq1n : (s.handles.set h (some s.heap.length))[h1]? = some (some q) := by
      rw [List.getElem?_set_ne (Ne.symm hh1)]; exact hq1
    by_cases hqp : q = p
    · subst hqp
      rw [hp] at hq2
      cases hq2
      exact value_of_ok (s := ⟨_, _⟩) (o := ⟨o.count_m.pred, o.data_m⟩) hq1n hnew
    · have hql := lt_length_of_getElem? hq2
      exact value_of_ok (s := ⟨_, _⟩) hq1n ((hold q hqp hql).trans hq2)

/-- Witness for C5: two handles share a payload holding 10; the second is
assigned 20. -/
theorem C5_divergence_witness :
    ∃ s1, correct_cow.assign 1 (20 : Int)
        ⟨[Cell.live ⟨c_int.one.succ, 10⟩], [some 0, some 0]⟩ = .ok s1 ∧
      s1.heap.length = 1 + 1 ∧
      (∃ c : c_int, c.val = 1 ∧ s1.heap[1]? = some (Cell.live ⟨c, 20⟩)) ∧
      s1.handles[1]? = some (some 1) ∧
      (∃ c : c_int, c.val = c_int.one.succ.val - 1 ∧
        s1.heap[0]? = some (Cell.live ⟨c, 10⟩)) ∧
      (∀ q : Nat, q ≠ 0 → q < 1 →
        s1.heap[q]? = [Cell.live ⟨c_int.one.succ, (10 : Int)⟩][q]?) ∧
      (∀ h1 : Nat, h1 ≠ 1 → s1.handles[h1]? = [some 0, some 0][h1]?) ∧
      (∀ (h1 : Nat) (v : Int), h1 ≠ 1 →
        value_of ⟨[Cell.live ⟨c_int.one.succ, 10⟩], [some 0, some 0]⟩ h1 = .ok v →
        value_of s1 h1 = .ok v) :=
  C5_divergence ⟨[Cell.live ⟨c_int.one.succ, 10⟩], [some 0, some 0]⟩ 1 0
    ⟨c_int.one.succ, 10⟩ 20 (by decide) (by decide) (by decide)

/-- C8 (as amended). Copy construction from a live handle src whose payload p
has a count below INT_MAX succeeds: the new handle (the next index) has the
same `object_m` as src, all earlier handles are unchanged, the free store
keeps its length, p keeps its data and its count is one higher, and every
other cell is unchanged. -/
theorem C8_copy_contract {T : Type} (s : State T) (x p : Nat) (o : object_t T)
    (hx : s.handles[x]? = some (some p)) (hp : s.heap[p]? = some (Cell.live o))
    (hmax : o.count_m.val < INT_MAX) :
    ∃ s1, correct_cow.copy_ctor x s = .ok s1 ∧
      s1.handles = s.handles ++ [some p] ∧
      s1.handles[s.handles.length]? = some (some p) ∧
      s1.handles[x]? = some (some p) ∧
      s1.heap.length = s.heap.length ∧
      (∃ c : c_int, c.val = o.count_m.val + 1 ∧
        s1.heap[p]? = some (Cell.live ⟨c, o.data_m⟩)) ∧
      (∀ q : Nat, q ≠ p → s1.heap[q]? = s.heap[q]?) := by
  have hlt := lt_length_of_getElem? hp
  have hxlt := lt_length_of_getElem? hx
  have hsucc : o.count_m.succ.val = o.count_m.val + 1 := by
    have := o.count_m.lo
    unfold INT_MAX at hmax
    rw [c_int.succ_val]
    exact wrap32_of_range _ (by omega) (by omega)
  refine ⟨_, copy_ctor_eq hx hp, rfl, ?_, ?_, ?_, ⟨o.count_m.succ, hsucc, ?_⟩, ?_⟩
  · simp
  · show (s.handles ++ [some p])[x]? = _
    rw [List.getElem?_append_left hxlt]; exact hx
  · simp
  · simp [List.getElem?_set, hlt]
  · intro q hq
    show (s.heap.set p _)[q]? = _
    rw [List.getElem?_set_ne (Ne.symm hq)]

/-- Witness for C8: copying the only handle of a payload holding 10. -/
theorem C8_copy_contract_witness :
    ∃ s1, correct_cow.copy_ctor 0 ⟨[Cell.live ⟨c_int.one, (10 : Int)⟩], [some 0]⟩ = .ok s1 ∧
      s1.handles = [some 0] ++ [some 0] ∧
      s1.handles[1]? = some (some 0) ∧
      s1.handles[0]? = some (some 0) ∧
      s1.heap.length = 1 ∧
      (∃ c : c_int, c.val = c_int.one.val + 1 ∧
        s1.heap[0]? = some (Cell.live ⟨c, 10⟩)) ∧
      (∀ q : Nat, q ≠ 0 → s1.heap[q]? = [Cell.live ⟨c_int.one, (10 : Int)⟩][q]?) :=
  C8_copy_contract ⟨[Cell.live ⟨c_int.one, (10 : Int)⟩], [some 0]⟩ 0 0 ⟨c_int.one, 10⟩
    (by decide) (by decide) (by decide)

/-- C8 (as stated) fails: after one construction and 2^31 - 2 copies handle 0
is live and its payload has count INT_MAX; copying handle 0 once more succeeds
and leaves the count at -2^31, not one higher. -/
theorem C8_counterexample :
    run (Op.construct (0 : Int) :: List.replicate 2147483646 (Op.copy 0)) State.empty
      = .ok (shared 0 2147483647) ∧
    (shared (0 : Int) 2147483647).handles[0]? = some (some 0) ∧
    (shared (0 : Int) 2147483647).heap[0]? = some (Cell.live ⟨c_int.wrap 2147483647, 0⟩) ∧
    correct_cow.copy_ctor 0 (shared (0 : Int) 2147483647) = .ok (shared 0 2147483648) ∧
    (shared (0 : Int) 2147483648).heap[0]? = some (Cell.live ⟨c_int.wrap 2147483648, 0⟩) ∧
    (c_int.wrap 2147483647).val = INT_MAX ∧
    (c_int.wrap 2147483648).val = INT_MIN ∧
    (c_int.wrap 2147483648).val ≠ (c_int.wrap 2147483647).val + 1 :=
  ⟨run_family 0 2147483646, shared_handle 0 (by decide), rfl,
   copy_shared 0 (by decide), rfl, by decide, by decide, by decide⟩

/-- C7 (as amended). The destructor of a live handle whose payload p has a
count above INT_MIN succeeds, ends the handle, lowers the count of p by
exactly one, frees p exactly when the lowered count is zero, and leaves every
other cell unchanged. Across all four operations, a cell that goes from
allocated to freed in one operation had its count lowered to zero by the
destructor of a handle pointing at it. -/
theorem C7_destroy_contract {T : Type} (s : State T) (h p : Nat) (o : object_t T)
    (hh : s.handles[h]? = some (some p)) (hp : s.heap[p]? = some (Cell.live o))
    (hmin : INT_MIN < o.count_m.val) :
    (∃ s1, correct_cow.dtor h s = .ok s1 ∧
      s1.handles = s.handles.set h none ∧
      (o.count_m.val - 1 = 0 → s1.heap[p]? = some Cell.freed) ∧
      (o.count_m.val - 1 ≠ 0 → ∃ c : c_int, c.val = o.count_m.val - 1 ∧
        s1.heap[p]? = some (Cell.live ⟨c, o.data_m⟩)) ∧
      (∀ q : Nat, q ≠ p → s1.heap[q]? = s.heap[q]?)) ∧
    (∀ (op : Op T) (t t1 : State T) (q : Nat) (c : object_t T),
      step op t = .ok t1 → t.heap[q]? = some (Cell.live c) →
      t1.heap[q]? = some Cell.freed →
      c.count_m.pred.val = 0 ∧
        ∃ h1, op = Op.destroy h1 ∧ t.handles[h1]? = some (some q)) := by
  have hlt := lt_length_of_getElem? hp
  have hpred : o.count_m.pred.val = o.count_m.val - 1 := by
    have := o.count_m.hi
    unfold INT_MIN at hmin
    rw [c_int.pred_val]
    exact wrap32_of_range _ (by omega) (by omega)
  refine ⟨⟨_, dtor_eq hh hp, rfl, ?_, ?_, ?_⟩, ?_⟩
  · intro h0
    have h1 : o.count_m.val = 1 := by omega
    simp [List.getElem?_set, hlt, h1]
  · intro h0
    have h1 : o.count_m.val ≠ 1 := by omega
    exact ⟨o.count_m.pred, hpred, by simp [List.getElem?_set, hlt, h1]⟩
  · intro q hq
    show (s.heap.set p _)[q]? = _
    rw [List.getElem?_set_ne (Ne.symm hq)]
  · intro op t t1 q c hstep hq hq1
    cases op with
    | construct x =>
      simp only [step, ctor_eq] at hstep
      cases Except.ok.inj hstep
      have hql := lt_length_of_getElem? hq
      rw [show (⟨t.heap ++ [Cell.live ⟨c_int.one, x⟩], t.handles ++ [some t.heap.length]⟩ :
        State T).heap = t.heap ++ [Cell.live ⟨c_int.one, x⟩] from rfl,
        List.getElem?_append_left hql, hq] at hq1
      cases hq1
    | copy src =>
      obtain ⟨p1, o1, _, hp1, rfl⟩ := copy_ctor_inv hstep
      rcases getElem?_set_cases hq1 with ⟨_, h2⟩ | ⟨_, h2⟩
      · cases h2
      · rw [hq] at h2; cases h2
    | destroy h1 =>
      obtain ⟨p1, o1, hh1, hp1, rfl⟩ := dtor_inv hstep
      rcases getElem?_set_cases hq1 with ⟨h2, h3⟩ | ⟨_, h3⟩
      · subst h2
        have hoc : c = o1 := by
          rw [hp1] at hq
          exact (Cell.live.inj (Option.some.inj hq)).symm
        subst hoc
        by_cases hone : c.count_m.val = 1
        · exact ⟨(c_int.pred_val_eq_zero _).mpr hone, h1, rfl, hh1⟩
        · rw [if_neg hone] at h3; cases h3
      · rw [hq] at h3; cases h3
    | assign h1 x =>
      obtain ⟨p1, o1, _, hp1, ⟨_, rfl⟩ | ⟨_, rfl⟩⟩ := assign_inv hstep
      · rcases getElem?_set_cases hq1 with ⟨_, h2⟩ | ⟨_, h2⟩
        · cases h2
        · rw [hq] at h2; cases h2
      · have hql := lt_length_of_getElem? hq
        rw [show (⟨t.heap.set p1 (Cell.live ⟨o1.count_m.pred, o1.data_m⟩)
            ++ [Cell.live ⟨c_int.one, x⟩], t.handles.set h1 (some t.heap.length)⟩ :
            State T).heap = t.heap.set p1 (Cell.live ⟨o1.count_m.pred, o1.data_m⟩)
            ++ [Cell.live ⟨c_int.one, x⟩] from rfl,
          List.getElem?_append_left (by simpa using hql)] at hq1
        rcases getElem?_set_cases hq1 with ⟨_, h2⟩ | ⟨_, h2⟩
        · cases h2
        · rw [hq] at h2; cases h2

/-- Witness for C7: destroying the only handle of a payload. -/
theorem C7_destroy_contract_witness :
    (∃ s1, correct_cow.dtor 0 ⟨[Cell.live ⟨c_int.one, (10 : Int)⟩], [some 0]⟩ = .ok s1 ∧
      s1.handles = [some 0].set 0 none ∧
      (c_int.one.val - 1 = 0 → s1.heap[0]? = some Cell.freed) ∧
      (c_int.one.val - 1 ≠ 0 → ∃ c : c_int, c.val = c_int.one.val - 1 ∧
        s1.heap[0]? = some (Cell.live ⟨c, 10⟩)) ∧
      (∀ q : Nat, q ≠ 0 → s1.heap[q]? = [Cell.live ⟨c_int.one, (10 : Int)⟩][q]?)) ∧
    (∀ (op : Op Int) (t t1 : State Int) (q : Nat) (c : object_t Int),
      step op t = .ok t1 → t.heap[q]? = some (Cell.live c) →
      t1.heap[q]? = some Cell.freed →
      c.count_m.pred.val = 0 ∧
        ∃ h1, op = Op.destroy h1 ∧ t.handles[h1]? = some (some q)) :=
  C7_destroy_contract ⟨[Cell.live ⟨c_int.one, (10 : Int)⟩], [some 0]⟩ 0 0 ⟨c_int.one, 10⟩
    (by decide) (by decide) (by decide)

/-- C7 (as stated) fails: after one construction and 2^31 - 1 copies handle 0
is live and its payload has count INT_MIN; the destructor of handle 0 leaves
the count at INT_MAX, which is not one less. -/
theorem C7_counterexample :
    run (Op.construct (0 : Int) :: List.replicate 2147483647 (Op.copy 0)) State.empty
      = .ok (shared 0 2147483648) ∧
    (shared (0 : Int) 2147483648).handles[0]? = some (some 0) ∧
    (shared (0 : Int) 2147483648).heap[0]? = some (Cell.live ⟨c_int.wrap 2147483648, 0⟩) ∧
    correct_cow.dtor 0 (shared (0 : Int) 2147483648)
      = .ok ⟨[Cell.live ⟨c_int.wrap 2147483647, 0⟩],
             (List.replicate 2147483648 (some 0)).set 0 none⟩ ∧
    (c_int.wrap 2147483648).val = INT_MIN ∧
    (c_int.wrap 2147483647).val = INT_MAX ∧
    (c_int.wrap 2147483647).val ≠ (c_int.wrap 2147483648).val - 1 :=
  ⟨run_family 0 2147483647, shared_handle 0 (by decide), rfl,
   dtor_shared 0 (by decide) (by decide), by decide, by decide, by decide⟩

/-- C3 (as amended). On the divergence path of `operator=` (count above 1) the
statements run in the order allocate, decrement, rebind: first the new payload
holding x with count 1 exists while the old payload and the handle are
untouched; then the old count is lowered by one while the handle still holds
the old pointer; the store of the new pointer into `object_m` is the last
step, and its state is the result of the assignment. -/
theorem C3_divergence_order {T : Type} (s : State T) (h p : Nat) (o : object_t T) (x : T)
    (hh : s.handles[h]? = some (some p)) (hp : s.heap[p]? = some (Cell.live o))
    (hn : 1 < o.count_m.val) :
    ∃ s1 s2 s3, correct_cow.assign_trace h x s = .ok [s1, s2, s3] ∧
      correct_cow.assign h x s = .ok s3 ∧
      s1 = ⟨s.heap ++ [Cell.live ⟨c_int.one, x⟩], s.handles⟩ ∧
      s1.heap[p]? = some (Cell.live o) ∧
      s2.heap = s.heap.set p (Cell.live ⟨o.count_m.pred, o.data_m⟩)
                  ++ [Cell.live ⟨c_int.one, x⟩] ∧
      o.count_m.pred.val = o.count_m.val - 1 ∧
      s2.handles[h]? = some (some p) ∧
      s3.heap = s2.heap ∧
      s3.handles = s.handles.set h (some s.heap.length) ∧
      s3.handles[h]? = some (some s.heap.length) := by
  have hlt := lt_length_of_getElem? hp
  have hhlt := lt_length_of_getElem? hh
  have hne : o.count_m.val ≠ 1 := by omega
  have hpred : o.count_m.pred.val = o.count_m.val - 1 := by
    have := o.count_m.hi
    rw [c_int.pred_val]
    exact wrap32_of_range _ (by omega) (by omega)
  refine ⟨_, _, _, assign_trace_eq_of_shared x hh hp hne, assign_eq_of_shared x hh hp hne,
    rfl, ?_, rfl, hpred, hh, rfl, rfl, ?_⟩
  · show (s.heap ++ [Cell.live ⟨c_int.one, x⟩])[p]? = _
    rw [List.getElem?_append_left hlt]; exact hp
  · simp [List.getElem?_set, hhlt]

/-- Witness for C3: two handles share a payload holding 10; the second is
assigned 20. -/
theorem C3_divergence_order_witness :
    ∃ s1 s2 s3, correct_cow.assign_trace 1 (20 : Int)
        ⟨[Cell.live ⟨c_int.one.succ, 10⟩], [some 0, some 0]⟩ = .ok [s1, s2, s3] ∧
      correct_cow.assign 1 (20 : Int)
        ⟨[Cell.live ⟨c_int.one.succ, 10⟩], [some 0, some 0]⟩ = .ok s3 ∧
      s1 = ⟨[Cell.live ⟨c_int.one.succ, 10⟩] ++ [Cell.live ⟨c_int.one, 20⟩],
            [some 0, some 0]⟩ ∧
      s1.heap[0]? = some (Cell.live ⟨c_int.one.succ, 10⟩) ∧
      s2.heap = [Cell.live ⟨c_int.one.succ, (10 : Int)⟩].set 0
                  (Cell.live ⟨c_int.one.succ.pred, 10⟩) ++ [Cell.live ⟨c_int.one, 20⟩] ∧
      c_int.one.succ.pred.val = c_int.one.succ.val - 1 ∧
      s2.handles[1]? = some (some 0) ∧
      s3.heap = s2.heap ∧
      s3.handles = [some 0, some 0].set 1 (some 1) ∧
      s3.handles[1]? = some (some 1) :=
  C3_divergence_order ⟨[Cell.live ⟨c_int.one.succ, 10⟩], [some 0, some 0]⟩ 1 0
    ⟨c_int.one.succ, 10⟩ 20 (by decide) (by decide) (by decide)

/-- C3 (as stated) fails: with two handles sharing a payload of count 2, the
assignment to the second handle passes through a state in which the old
payload's count is already lowered to 1 and the handle still points at the
old payload; the rebind comes only in the next step. -/
theorem C3_counterexample :
    correct_cow.assign_trace 1 (20 : Int)
        ⟨[Cell.live ⟨⟨2, by decide, by decide⟩, 10⟩], [some 0, some 0]⟩
      = .ok [⟨[Cell.live ⟨⟨2, by decide, by decide⟩, 10⟩,
               Cell.live ⟨⟨1, by decide, by decide⟩, 20⟩], [some 0, some 0]⟩,
             ⟨[Cell.live ⟨⟨1, by decide, by decide⟩, 10⟩,
               Cell.live ⟨⟨1, by decide, by decide⟩, 20⟩], [some 0, some 0]⟩,
             ⟨[Cell.live ⟨⟨1, by decide, by decide⟩, 10⟩,
               Cell.live ⟨⟨1, by decide, by decide⟩, 20⟩], [some 0, some 1]⟩] ∧
    (⟨[Cell.live ⟨⟨1, by decide, by decide⟩, 10⟩,
       Cell.live ⟨⟨1, by decide, by decide⟩, 20⟩], [some 0, some 0]⟩ :
        State Int).handles[1]? = some (some 0) := by
  decide

/-- C6 (as amended). For every N with 1 ≤ N ≤ 2^32 and every value v:
construct one handle with v, make N - 1 further handles by copy construction
(each from a handle that already exists), then destroy any N - 1 of the N
handles in any order. The run succeeds, the remaining handle r is live, and
its payload is allocated with count 1 and holds v. Here N is the number of
copies plus one. -/
theorem C6_last_survivor {T : Type} (v : T) (srcs ds : List Nat) (r : Nat)
    (hN : srcs.length + 1 ≤ 4294967296)
    (hsrc : ∀ (i : Nat) (hi : i < srcs.length), srcs[i] ≤ i)
    (hlen : ds.length = srcs.length) (hnd : ds.Nodup)
    (hds : ∀ d ∈ ds, d < srcs.length + 1)
    (hr : r < srcs.length + 1) (hrds : r ∉ ds) :
    ∃ s, run (Op.construct v :: (srcs.map Op.copy ++ ds.map Op.destroy)) State.empty
        = .ok s ∧
      s.handles[r]? = some (some 0) ∧
      (∃ c : c_int, c.val = 1 ∧ s.heap[0]? = some (Cell.live ⟨c, v⟩)) ∧
      value_of s r = .ok v := by
  have hcopies : run (srcs.map Op.copy) (shared v 1) = .ok (shared v (1 + srcs.length)) :=
    run_copies_shared v srcs 1 (fun i hi => by have := hsrc i hi; omega)
  obtain ⟨s1, hrun, hheap, hframe⟩ :=
    run_destroys v ds (shared v (1 + srcs.length)) (1 + srcs.length) rfl
      (shared_refs v _) (by omega) (by omega) hnd
      (fun d hd => shared_handle v (by have := hds d hd; omega))
  have hone : (1 + srcs.length - ds.length : Nat) = 1 := by omega
  rw [hone] at hheap
  have hhr : s1.handles[r]? = some (some 0) := by
    rw [hframe r hrds]
    exact shared_handle v (by omega)
  have hcell : s1.heap[0]? = some (Cell.live ⟨c_int.wrap (1 : Nat), v⟩) := by
    rw [hheap]; rfl
  refine ⟨s1, ?_, hhr, ⟨c_int.wrap (1 : Nat), by decide, hcell⟩, value_of_ok hhr hcell⟩
  simp only [run, step, ctor_empty]
  rw [run_append, hcopies]
  exact hrun

/-- Witness for C6: three handles, the copies made from handles 0 and 1;
handles 2 and 0 are destroyed, handle 1 survives. -/
theorem C6_last_survivor_witness :
    ∃ s, run (Op.construct (10 : Int) :: ([0, 1].map Op.copy ++ [2, 0].map Op.destroy))
        State.empty = .ok s ∧
      s.handles[1]? = some (some 0) ∧
      (∃ c : c_int, c.val = 1 ∧ s.heap[0]? = some (Cell.live ⟨c, 10⟩)) ∧
      value_of s 1 = .ok 10 :=
  C6_last_survivor (10 : Int) [0, 1] [2, 0] 1 (by decide) (by decide) (by decide)
    (by decide) (by decide) (by decide) (by decide)

/-- C6 (as stated) fails for N = 2^32 + 1: after one construction and 2^32
copies the count has wrapped around to 1, so the first destructor frees the
payload while handle 2^32 is live and still points at it, and the second
destructor dereferences the freed payload. -/
theorem C6_counterexample :
    run (Op.construct (0 : Int) ::
          ((List.replicate 4294967296 0).map Op.copy ++ [Op.destroy 0])) State.empty
      = .ok ⟨[Cell.freed], (List.replicate 4294967297 (some 0)).set 0 none⟩ ∧
    ((List.replicate 4294967297 (some 0)).set 0 none)[4294967296]? = some (some 0) ∧
    run (Op.construct (0 : Int) ::
          ((List.replicate 4294967296 0).map Op.copy
            ++ (List.range 4294967296).map Op.destroy)) State.empty
      = .error .bad_access := by
  have hcopies : run ((List.replicate 4294967296 0).map Op.copy) (shared (0 : Int) 1)
      = .ok (shared 0 4294967297) := by
    rw [List.map_replicate]
    exact run_replicate_copy_shared 0 4294967296 1 (by decide)
  have hwrap : (c_int.wrap (4294967297 : Nat)).val = 1 := by decide
  refine ⟨?_, ?_, ?_⟩
  · rw [run_construct_empty, run_append_of_ok hcopies]
    exact run_destroy_singleton
      (dtor_shared_last (0 : Int) (show 0 < 4294967297 by decide) hwrap)
  · rw [List.getElem?_set_ne (by decide), List.getElem?_replicate_of_lt (by decide)]
  · obtain ⟨rest, hrest⟩ := range_map_destroy_head Int 4294967294
    have hrange : (List.range 4294967296).map Op.destroy
        = Op.destroy 0 :: Op.destroy 1 :: rest := hrest
    rw [run_construct_empty, hrange, run_append_of_ok hcopies]
    exact run_destroy_after_free 0 4294967297 (by decide) hwrap rest

/-! ## `bad_cow` against `correct_cow`, sequentially -/

theorem pre_dec_eq {T : Type} {s : State T} {p : Nat} {o : object_t T}
    (hp : s.heap[p]? = some (Cell.live o)) :
    pre_dec s p = .ok (⟨s.heap.set p (Cell.live ⟨o.count_m.pred, o.data_m⟩), s.handles⟩,
      o.count_m.pred) := by
  simp only [pre_dec, deref_ok hp, put]

theorem release_eq_pre_dec {T : Type} (s : State T) (p : Nat)
    (h1 : ∀ o, s.heap[p]? = some (Cell.live o) → o.count_m.val ≠ 1) :
    release s p = (match pre_dec s p with
      | .error e => .error e
      | .ok (s1, _) => .ok s1) := by
  cases hd : deref s p with
  | error e => simp [release, pre_dec, hd]
  | ok o =>
    have hp := deref_eq_ok.mp hd
    have hne : o.count_m.pred.val ≠ 0 := fun h0 =>
      h1 o hp ((c_int.pred_val_eq_zero _).mp h0)
    simp only [release, pre_dec_eq hp, if_neg hne]

theorem bad_assign_eq {T : Type} (h : Nat) (x : T) (s : State T) :
    bad_cow.assign h x s = correct_cow.assign h x s := by
  unfold bad_cow.assign correct_cow.assign
  cases ho : object_m s h with
  | error e => rfl
  | ok p =>
    cases hd : deref s p with
    | error e => simp only [hd]
    | ok o =>
      simp only [hd]
      by_cases h1 : o.count_m.val = 1
      · simp only [if_pos h1]
      · simp only [if_neg h1]
        have hp := deref_eq_ok.mp hd
        rw [release_eq_pre_dec]
        · cases pre_dec (new_object s x).1 p with
          | error e => rfl
          | ok r => rfl
        · intro o1 ho1
          have hlt := lt_length_of_getElem? hp
          have : (new_object s x).1.heap[p]? = s.heap[p]? := by
            simp only [new_object]
            exact List.getElem?_append_left hlt
          rw [this, hp] at ho1
          cases ho1
          exact h1

theorem bad_step_eq {T : Type} (op : Op T) (s : State T) :
    bad_cow.step op s = step op s := by
  cases op with
  | construct x => rfl
  | copy src => rfl
  | destroy h => rfl
  | assign h x => exact bad_assign_eq h x s

theorem bad_run_eq {T : Type} (ops : List (Op T)) (s : State T) :
    bad_cow.run ops s = run ops s := by
  induction ops generalizing s with
  | nil => rfl
  | cons op rest ih =>
    simp only [bad_cow.run, run, bad_step_eq]
    cases step op s with
    | error e => rfl
    | ok s1 => exact ih s1

/-- C15. Sequential equivalence: from the empty heap, after every prefix of
every sequence of operations, `bad_cow` and `correct_cow` have the same
outcome (the same heap and handles, or the same error). In any state, on the
divergence path of `correct_cow::operator=` (count other than 1) the
decrement at position 3 yields a nonzero count, so the statement at position
3 is the decrement alone and its `delete` is not executed. -/
theorem C15_sequential_equivalence {T : Type} (ops : List (Op T)) (k : Nat)
    (s : State T) (h p : Nat) (o : object_t T) (x : T)
    (hp : s.heap[p]? = some (Cell.live o)) (h1 : o.count_m.val ≠ 1) :
    bad_cow.run (ops.take k) State.empty = run (ops.take k) State.empty ∧
    bad_cow.assign h x s = correct_cow.assign h x s ∧
    (∃ s1 c, pre_dec (new_object s x).1 p = .ok (s1, c) ∧ c.val ≠ 0 ∧
      release (new_object s x).1 p = .ok s1) := by
  refine ⟨bad_run_eq _ _, bad_assign_eq h x s, ?_⟩
  have hlt := lt_length_of_getElem? hp
  have hp1 : (new_object s x).1.heap[p]? = some (Cell.live o) := by
    simp only [new_object]
    rw [List.getElem?_append_left hlt]; exact hp
  have hne : o.count_m.pred.val ≠ 0 := fun h0 => h1 ((c_int.pred_val_eq_zero _).mp h0)
  refine ⟨_, _, pre_dec_eq hp1, hne, ?_⟩
  simp only [release, pre_dec_eq hp1, if_neg hne]

/-- Witness for C15: the two-handle scenario and the assignment to its second
handle. -/
theorem C15_sequential_equivalence_witness :
    bad_cow.run ([Op.construct (10 : Int), Op.copy 0, Op.assign 1 20].take 3) State.empty
      = run ([Op.construct (10 : Int), Op.copy 0, Op.assign 1 20].take 3) State.empty ∧
    bad_cow.assign 1 (20 : Int) ⟨[Cell.live ⟨c_int.one.succ, 10⟩], [some 0, some 0]⟩
      = correct_cow.assign 1 20 ⟨[Cell.live ⟨c_int.one.succ, 10⟩], [some 0, some 0]⟩ ∧
    (∃ s1 c, pre_dec (new_object
        (⟨[Cell.live ⟨c_int.one.succ, 10⟩], [some 0, some 0]⟩ : State Int) 20).1 0
          = .ok (s1, c) ∧ c.val ≠ 0 ∧
      release (new_object
        (⟨[Cell.live ⟨c_int.one.succ, 10⟩], [some 0, some 0]⟩ : State Int) 20).1 0
          = .ok s1) :=
  C15_sequential_equivalence [Op.construct (10 : Int), Op.copy 0, Op.assign 1 20] 3
    ⟨[Cell.live ⟨c_int.one.succ, 10⟩], [some 0, some 0]⟩ 1 0 ⟨c_int.one.succ, 10⟩ 20
    (by decide) (by decide)

/-- C11. Allocation failure on the divergence path: when the payload p of a
live handle h has a count other than 1 and `new` throws, `operator=` ends by
that exception in the very state in which it was called: h still points at
p, p is allocated with the same count and data, no other cell or handle has
changed, and a consistent state stays consistent. With storage available the
same function is the assignment itself. -/
theorem C11_allocation_failure {T : Type} (s : State T) (h p : Nat) (o : object_t T) (x : T)
    (hh : s.handles[h]? = some (some p)) (hp : s.heap[p]? = some (Cell.live o))
    (h1 : o.count_m.val ≠ 1) :
    (∃ s1, correct_cow.assign_alloc false h x s = .ok (.threw s1) ∧
      s1 = s ∧ s1.handles[h]? = some (some p) ∧ s1.heap[p]? = some (Cell.live o) ∧
      (Consistent s → Consistent s1)) ∧
    (∃ s2, correct_cow.assign h x s = .ok s2 ∧
      correct_cow.assign_alloc true h x s = .ok (.returned s2)) := by
  have hlt := lt_length_of_getElem? hp
  have hp1 : (new_object s x).1.heap[p]? = some (Cell.live o) := by
    simp only [new_object]
    rw [List.getElem?_append_left hlt]; exact hp
  refine ⟨⟨s, ?_, rfl, hh, hp, id⟩, ⟨_, assign_eq_of_shared x hh hp h1, ?_⟩⟩
  · simp only [correct_cow.assign_alloc, object_m_ok hh, deref_ok hp, if_neg h1,
      try_new_object, Bool.false_eq_true, if_false]
  · simp only [correct_cow.assign_alloc, object_m_ok hh, deref_ok hp, if_neg h1,
      try_new_object, if_true, release_eq hp1]
    simp [new_object, bind_handle, List.set_append, hlt, h1]

/-- Witness for C11: two handles share a payload holding 10; the assignment of
20 to the second handle fails to allocate. -/
theorem C11_allocation_failure_witness :
    (∃ s1, correct_cow.assign_alloc false 1 (20 : Int)
        ⟨[Cell.live ⟨c_int.one.succ, 10⟩], [some 0, some 0]⟩ = .ok (.threw s1) ∧
      s1 = ⟨[Cell.live ⟨c_int.one.succ, 10⟩], [some 0, some 0]⟩ ∧
      s1.handles[1]? = some (some 0) ∧
      s1.heap[0]? = some (Cell.live ⟨c_int.one.succ, 10⟩) ∧
      (Consistent (⟨[Cell.live ⟨c_int.one.succ, 10⟩], [some 0, some 0]⟩ : State Int) →
        Consistent s1)) ∧
    (∃ s2, correct_cow.assign 1 (20 : Int)
        ⟨[Cell.live ⟨c_int.one.succ, 10⟩], [some 0, some 0]⟩ = .ok s2 ∧
      correct_cow.assign_alloc true 1 (20 : Int)
        ⟨[Cell.live ⟨c_int.one.succ, 10⟩], [some 0, some 0]⟩ = .ok (.returned s2)) :=
  C11_allocation_failure ⟨[Cell.live ⟨c_int.one.succ, 10⟩], [some 0, some 0]⟩ 1 0
    ⟨c_int.one.succ, 10⟩ 20 (by decide) (by decide) (by decide)

end Cow

namespace SortSubrange

/-! ## Slices of a sequence -/

theorem slice_self {α : Type} (xs : List α) (a : Nat) : slice xs a a = [] := by
  simp [slice]

theorem slice_append {α : Type} (xs : List α) {a b c : Nat} (hab : a ≤ b) (hbc : b ≤ c) :
    slice xs a c = slice xs a b ++ slice xs b c := by
  unfold slice
  have h1 : c - a = (b - a) + (c - b) := by omega
  rw [h1, List.take_add, List.drop_drop]
  congr 3
  omega

theorem slice_length {α : Type} (xs : List α) {a b : Nat} (hb : b ≤ xs.length) :
    (slice xs a b).length = b - a := by
  simp only [slice, List.length_take, List.length_drop]
  omega

theorem eq_take_slice_drop {α : Type} (xs : List α) {a b : Nat} (hab : a ≤ b) :
    xs = xs.take a ++ slice xs a b ++ xs.drop b := by
  have h1 : xs.drop b = (xs.drop a).drop (b - a) := by
    rw [List.drop_drop]; congr 1; omega
  rw [h1, List.append_assoc]
  unfold slice
  rw [List.take_append_drop, List.take_append_drop]

theorem slice_getElem? {α : Type} (xs : List α) {a b k : Nat} (hk : a + k < b) :
    (slice xs a b)[k]? = xs[a + k]? := by
  unfold slice
  rw [List.getElem?_take_of_lt (by omega), List.getElem?_drop]

theorem mem_slice_of_getElem? {α : Type} {xs : List α} {a b i : Nat} {x : α}
    (h : xs[i]? = some x) (hai : a ≤ i) (hib : i < b) : x ∈ slice xs a b := by
  have h1 : (slice xs a b)[i - a]? = some x := by
    rw [slice_getElem? xs (by omega)]
    have : a + (i - a) = i := by omega
    rw [this]; exact h
  exact List.getElem?_mem h1

theorem slice_of_parts {α : Type} (P M Q : List α) {a i j : Nat} (hP : P.length = a)
    (hai : a ≤ i) (hij : i ≤ j) (hj : j ≤ a + M.length) :
    slice (P ++ M ++ Q) i j = slice M (i - a) (j - a) := by
  unfold slice
  have h0 : i - a - M.length = 0 := by omega
  have e1 : (P ++ M ++ Q).drop i = M.drop (i - a) ++ Q := by
    rw [List.append_assoc, List.drop_append_eq_append_drop, hP,
      List.drop_eq_nil_of_le (by omega), List.nil_append,
      List.drop_append_eq_append_drop, h0, List.drop_zero]
  have h1 : j - i - (M.drop (i - a)).length = 0 := by
    rw [List.length_drop]; omega
  have h2 : j - a - (i - a) = j - i := by omega
  rw [e1, List.take_append_eq_append_take, h1, List.take_zero, List.append_nil, h2]

theorem slice_whole {α : Type} (P M Q : List α) {a b : Nat} (hP : P.length = a)
    (hM : a + M.length = b) : slice (P ++ M ++ Q) a b = M := by
  rw [slice_of_parts P M Q hP (Nat.le_refl a) (by omega) (by omega)]
  unfold slice
  have : b - a - 0 = M.length := by omega
  rw [Nat.sub_self, List.drop_zero, this, List.take_length]

theorem slice_congr_take {α : Type} {xs ys : List α} {k : Nat} (h : ys.take k = xs.take k)
    (i : Nat) {j : Nat} (hj : j ≤ k) : slice ys i j = slice xs i j := by
  unfold slice
  have e : ∀ zs : List α, (zs.drop i).take (j - i) = ((zs.take k).drop i).take (j - i) := by
    intro zs
    rw [List.drop_take, List.take_take]
    congr 1
    omega
  rw [e ys, e xs, h]

theorem slice_congr_drop {α : Type} {xs ys : List α} {k : Nat} (h : ys.drop k = xs.drop k)
    {i : Nat} (hi : k ≤ i) (j : Nat) : slice ys i j = slice xs i j := by
  unfold slice
  have e : ∀ zs : List α, zs.drop i = (zs.drop k).drop (i - k) := by
    intro zs
    rw [List.drop_drop]; congr 1; omega
  rw [e ys, e xs, h]

/-! ## Sorting a sequence that is already gathered around a sorted window -/

theorem sort_eq_of_perm {α : Type} [LinearOrder α] {L M : List α} (h : L.Perm M) :
    L.insertionSort (· ≤ ·) = M.insertionSort (· ≤ ·) :=
  List.eq_of_perm_of_sorted
    (((List.perm_insertionSort _ L).trans h).trans (List.perm_insertionSort _ M).symm)
    (List.sorted_insertionSort _ L) (List.sorted_insertionSort _ M)

theorem sort_eq_of_partition {α : Type} [LinearOrder α] (A W B L : List α)
    (hperm : L.Perm (A ++ W ++ B)) (hW : W.Sorted (· ≤ ·))
    (hA : ∀ a ∈ A, ∀ w ∈ W ++ B, a ≤ w) (hWB : ∀ w ∈ W, ∀ b ∈ B, w ≤ b) :
    L.insertionSort (· ≤ ·)
      = A.insertionSort (· ≤ ·) ++ W ++ B.insertionSort (· ≤ ·) := by
  have hsA := List.perm_insertionSort (· ≤ ·) A
  have hsB := List.perm_insertionSort (· ≤ ·) B
  apply List.eq_of_perm_of_sorted (r := (· ≤ ·))
  · exact ((List.perm_insertionSort _ L).trans hperm).trans
      ((hsA.symm.append (List.Perm.refl W)).append hsB.symm)
  · exact List.sorted_insertionSort _ L
  · unfold List.Sorted
    rw [List.pairwise_append, List.pairwise_append]
    refine ⟨⟨List.sorted_insertionSort _ A, hW, ?_⟩, List.sorted_insertionSort _ B, ?_⟩
    · intro a ha w hw
      exact hA a (hsA.mem_iff.mp ha) w (List.mem_append_left _ hw)
    · intro x hx b hb
      have hb1 := hsB.mem_iff.mp hb
      rcases List.mem_append.mp hx with hx1 | hx1
      · exact hA x (hsA.mem_iff.mp hx1) b (List.mem_append_right _ hb1)
      · exact hWB x hx1 b hb1

theorem le_of_head_sort {α : Type} [LinearOrder α] {p : α} {R : List α}
    (h : ((p :: R).insertionSort (· ≤ ·))[0]? = some p) : ∀ y ∈ R, p ≤ y := by
  intro y hy
  have hs := List.sorted_insertionSort (· ≤ ·) (p :: R)
  have hp := List.perm_insertionSort (· ≤ ·) (p :: R)
  have hmem : y ∈ (p :: R).insertionSort (· ≤ ·) :=
    hp.mem_iff.mpr (List.mem_cons_of_mem _ hy)
  cases hl : (p :: R).insertionSort (· ≤ ·) with
  | nil => rw [hl] at hmem; cases hmem
  | cons m rest =>
    rw [hl] at h hs hmem
    have hm : m = p := by simpa using h
    subst hm
    rcases List.mem_cons.mp hmem with h1 | h1
    · exact le_of_eq h1.symm
    · exact (List.sorted_cons.mp hs).1 y h1

theorem slice_singleton {α : Type} {xs : List α} {i : Nat} {p : α} (h : xs[i]? = some p) :
    slice xs i (i + 1) = [p] := by
  have hlt : i < xs.length := by
    rcases Nat.lt_or_ge i xs.length with h1 | h1
    · exact h1
    · rw [List.getElem?_eq_none h1] at h; cases h
  have hp : xs[i] = p := by
    rw [List.getElem?_eq_getElem hlt] at h
    exact Option.some.inj h
  unfold slice
  rw [List.drop_eq_getElem_cons hlt, hp]
  simp

theorem take_eq_of_take_eq {α : Type} {xs ys : List α} {k j : Nat}
    (h : ys.take k = xs.take k) (hj : j ≤ k) : ys.take j = xs.take j := by
  have e : ∀ zs : List α, zs.take j = (zs.take k).take j := by
    intro zs
    rw [List.take_take]; congr 1; omega
  rw [e ys, e xs, h]

theorem sorted_range_length {α : Type} [LinearOrder α] (xs : List α) {f l : Nat}
    (hfl : f ≤ l) (hl : l ≤ xs.length) : (sorted_range xs f l).length = xs.length := by
  simp only [sorted_range, List.length_append, List.length_take, List.length_drop,
    List.length_insertionSort, slice_length xs hl]
  omega

theorem slice_sorted_range {α : Type} [LinearOrder α] (xs : List α) {f l i j : Nat}
    (hl : l ≤ xs.length) (hfi : f ≤ i) (hij : i ≤ j) (hjl : j ≤ l) :
    slice (sorted_range xs f l) i j
      = slice ((slice xs f l).insertionSort (· ≤ ·)) (i - f) (j - f) := by
  unfold sorted_range
  apply slice_of_parts _ _ _ _ hfi hij
  · rw [List.length_insertionSort, slice_length xs hl]; omega
  · rw [List.length_take]; omega

theorem sorted_range_getElem? {α : Type} [LinearOrder α] (xs : List α) {f l i : Nat}
    (hl : l ≤ xs.length) (hfi : f ≤ i) (hil : i < l) :
    (sorted_range xs f l)[i]? = ((slice xs f l).insertionSort (· ≤ ·))[i - f]? := by
  have h1 := slice_getElem? (sorted_range xs f l) (a := f) (b := l) (k := i - f) (by omega)
  have h2 : slice (sorted_range xs f l) f l = (slice xs f l).insertionSort (· ≤ ·) := by
    unfold sorted_range
    apply slice_whole
    · rw [List.length_take]; omega
    · rw [List.length_insertionSort, slice_length xs hl]; omega
  rw [h2] at h1
  rw [h1]
  congr 1
  omega

/-! ## What `sort_subrange` computes -/

theorem sort_subrange_of_eq {α : Type}
    (nth ps : Nat → Nat → Nat → List α → List α) (f l sf : Nat) (xs : List α) :
    sort_subrange nth ps f l sf sf xs = xs := by
  simp [sort_subrange, sort_subrange_frame]

theorem sort_subrange_of_first {α : Type}
    (nth ps : Nat → Nat → Nat → List α → List α) (f l sl : Nat) (xs : List α)
    (h : f ≠ sl) : sort_subrange nth ps f l f sl xs = ps f sl l xs := by
  simp [sort_subrange, sort_subrange_frame, h]

theorem sort_subrange_of_inner {α : Type}
    (nth ps : Nat → Nat → Nat → List α → List α) (f l sf sl : Nat) (xs : List α)
    (h : sf ≠ sl) (hf : sf ≠ f) :
    sort_subrange nth ps f l sf sl xs = ps (sf + 1) sl l (nth f sf l xs) := by
  simp [sort_subrange, sort_subrange_frame, h, hf]

theorem nth_element_pivot_le {α : Type} [LinearOrder α] {xs xs1 : List α} {f sf l : Nat}
    {p : α} (hf : f ≤ sf) (hsl : sf < l) (hl : l ≤ xs.length)
    (N : NthElementPost f sf l xs xs1) (hp : xs1[sf]? = some p) :
    ∀ y ∈ slice xs1 (sf + 1) l, p ≤ y := by
  obtain ⟨⟨Nlen, _, _, Nperm⟩, Nnth, Nle⟩ := N
  have hl1 : l ≤ xs1.length := by omega
  have hdec : slice xs1 sf l = p :: slice xs1 (sf + 1) l := by
    rw [slice_append xs1 (Nat.le_succ sf) (by omega : sf + 1 ≤ l), slice_singleton hp]
    rfl
  have hS1 : slice xs1 f l = slice xs1 f sf ++ [] ++ (p :: slice xs1 (sf + 1) l) := by
    rw [slice_append xs1 hf (by omega : sf ≤ l), hdec, List.append_nil]
  have hsort : (slice xs f l).insertionSort (· ≤ ·)
      = (slice xs1 f sf).insertionSort (· ≤ ·) ++ []
          ++ (p :: slice xs1 (sf + 1) l).insertionSort (· ≤ ·) := by
    rw [← sort_eq_of_perm Nperm]
    apply sort_eq_of_partition _ _ _ _ (by rw [← hS1]) List.sorted_nil
    · intro a ha w hw
      rw [List.nil_append, ← hdec] at hw
      exact Nle a ha w hw
    · intro w hw
      cases hw
  have hhead : ((p :: slice xs1 (sf + 1) l).insertionSort (· ≤ ·))[0]? = some p := by
    have h1 := sorted_range_getElem? xs hl hf hsl
    rw [← Nnth, hp, hsort, List.append_nil,
      List.getElem?_append_right (by
        rw [List.length_insertionSort, slice_length xs1 (by omega)])] at h1
    rw [List.length_insertionSort, slice_length xs1 (by omega), Nat.sub_self] at h1
    exact h1.symm
  exact le_of_head_sort hhead

theorem sort_subrange_gathered {α : Type} [LinearOrder α]
    (nth ps : Nat → Nat → Nat → List α → List α)
    (hnth : NthElementSpec nth) (hps : PartialSortSpec ps)
    (xs : List α) (f l sf sl : Nat)
    (h1 : f ≤ sf) (h2 : sf < sl) (h3 : sl ≤ l) (h4 : l ≤ xs.length) :
    Rearranges f l xs (sort_subrange nth ps f l sf sl xs) ∧
    (slice (sort_subrange nth ps f l sf sl xs) sf sl).Sorted (· ≤ ·) ∧
    (∀ a ∈ slice (sort_subrange nth ps f l sf sl xs) f sf,
      ∀ w ∈ slice (sort_subrange nth ps f l sf sl xs) sf l, a ≤ w) ∧
    (∀ w ∈ slice (sort_subrange nth ps f l sf sl xs) sf sl,
      ∀ b ∈ slice (sort_subrange nth ps f l sf sl xs) sl l, w ≤ b) := by
  by_cases hf : sf = f
  · subst hf
    rw [sort_subrange_of_first nth ps sf l sl xs (by omega)]
    obtain ⟨R, S, L⟩ := hps sf sl l xs (by omega) h3 h4
    refine ⟨R, S, ?_, L⟩
    intro a ha
    rw [slice_self] at ha
    cases ha
  · rw [sort_subrange_of_inner nth ps f l sf sl xs (by omega) hf]
    have N := hnth f sf l xs h1 (by omega) h4
    have hl1 : l ≤ (nth f sf l xs).length := by rw [N.1.1]; exact h4
    obtain ⟨⟨Plen, Ptake, Pdrop, Pperm⟩, Psorted, Ple⟩ :=
      hps (sf + 1) sl l (nth f sf l xs) (by omega) h3 hl1
    have hlt : sf < (nth f sf l xs).length := by omega
    have hp : (nth f sf l xs)[sf]? = some ((nth f sf l xs)[sf]) :=
      List.getElem?_eq_getElem hlt
    have hpiv := nth_element_pivot_le h1 (by omega) h4 N hp
    obtain ⟨⟨Nlen, Ntake, Ndrop, Nperm⟩, _, Nle⟩ := N
    generalize (nth f sf l xs)[sf] = p at hp hpiv
    generalize nth f sf l xs = xs1 at *
    generalize ps (sf + 1) sl l xs1 = ys at *
    have e1 : slice ys f sf = slice xs1 f sf := slice_congr_take Ptake f (Nat.le_succ sf)
    have e2 : slice ys sf (sf + 1) = [p] := by
      rw [slice_congr_take Ptake sf (Nat.le_refl _), slice_singleton hp]
    have e3 : slice ys f (sf + 1) = slice xs1 f (sf + 1) :=
      slice_congr_take Ptake f (Nat.le_refl _)
    have hdec1 : slice xs1 sf l = p :: slice xs1 (sf + 1) l := by
      rw [slice_append xs1 (Nat.le_succ sf) (by omega : sf + 1 ≤ l), slice_singleton hp]
      rfl
    have hdecl : slice ys sf l = p :: slice ys (sf + 1) l := by
      rw [slice_append ys (Nat.le_succ sf) (by omega : sf + 1 ≤ l), e2]
      rfl
    have hdecs : slice ys sf sl = p :: slice ys (sf + 1) sl := by
      rw [slice_append ys (Nat.le_succ sf) (by omega : sf + 1 ≤ sl), e2]
      rfl
    have hsplit : slice ys (sf + 1) l = slice ys (sf + 1) sl ++ slice ys sl l :=
      slice_append ys (by omega) h3
    have hpy : ∀ y ∈ slice ys (sf + 1) l, p ≤ y := fun y hy =>
      hpiv y (Pperm.mem_iff.mp hy)
    refine ⟨⟨Plen.trans Nlen, ?_, Pdrop.trans Ndrop, ?_⟩, ?_, ?_, ?_⟩
    · exact (take_eq_of_take_eq Ptake (by omega)).trans Ntake
    · rw [slice_append ys (by omega : f ≤ sf + 1) (by omega : sf + 1 ≤ l), e3]
      refine List.Perm.trans ?_ Nperm
      rw [slice_append xs1 (by omega : f ≤ sf + 1) (by omega : sf + 1 ≤ l)]
      exact (List.Perm.refl _).append Pperm
    · rw [hdecs]
      refine List.sorted_cons.mpr ⟨fun b hb => hpy b ?_, Psorted⟩
      rw [hsplit]
      exact List.mem_append_left _ hb
    · intro a ha w hw
      rw [e1] at ha
      refine Nle a ha w ?_
      rw [hdecl] at hw
      rw [hdec1]
      rcases List.mem_cons.mp hw with h | h
      · rw [h]; exact List.mem_cons_self _ _
      · exact List.mem_cons_of_mem _ (Pperm.mem_iff.mp h)
    · intro w hw b hb
      rw [hdecs] at hw
      rcases List.mem_cons.mp hw with h | h
      · rw [h]
        apply hpy
        rw [hsplit]
        exact List.mem_append_right _ hb
      · exact Ple w h b hb

/-! ## The assumptions can be met -/

theorem sorted_range_rearranges {α : Type} [LinearOrder α] (xs : List α) {f l : Nat}
    (hfl : f ≤ l) (hl : l ≤ xs.length) : Rearranges f l xs (sorted_range xs f l) := by
  have hlenT : (xs.take f).length = f := by rw [List.length_take]; omega
  have hlenM : ((slice xs f l).insertionSort (· ≤ ·)).length = l - f := by
    rw [List.length_insertionSort, slice_length xs hl]
  refine ⟨sorted_range_length xs hfl hl, ?_, ?_, ?_⟩
  · unfold sorted_range
    rw [List.append_assoc]
    exact List.take_left' hlenT
  · unfold sorted_range
    apply List.drop_left'
    rw [List.length_append, hlenT, hlenM]
    omega
  · have : slice (sorted_range xs f l) f l = (slice xs f l).insertionSort (· ≤ ·) := by
      unfold sorted_range
      exact slice_whole _ _ _ hlenT (by rw [hlenM]; omega)
    rw [this]
    exact List.perm_insertionSort _ _

theorem sorted_range_split {α : Type} [LinearOrder α] (xs : List α) {f m l : Nat}
    (hfm : f ≤ m) (hml : m ≤ l) (hl : l ≤ xs.length) :
    (slice (sorted_range xs f l) f m).Sorted (· ≤ ·) ∧
    (∀ x ∈ slice (sorted_range xs f l) f m, ∀ y ∈ slice (sorted_range xs f l) m l, x ≤ y) := by
  have hs := List.sorted_insertionSort (· ≤ ·) (slice xs f l)
  have e1 : slice (sorted_range xs f l) f m
      = ((slice xs f l).insertionSort (· ≤ ·)).take (m - f) := by
    rw [slice_sorted_range xs hl (Nat.le_refl f) hfm hml]
    simp [slice]
  have e2 : slice (sorted_range xs f l) m l
      = (((slice xs f l).insertionSort (· ≤ ·)).drop (m - f)).take (l - f - (m - f)) := by
    rw [slice_sorted_range xs hl hfm hml (Nat.le_refl l)]
    rfl
  rw [e1, e2]
  refine ⟨hs.sublist (List.take_sublist _ _), ?_⟩
  intro x hx y hy
  exact hs.rel_of_mem_take_of_mem_drop hx (List.mem_of_mem_take hy)

theorem sort_whole_range_nth_element {α : Type} [LinearOrder α] :
    NthElementSpec (sort_whole_range (α := α)) := by
  intro first nth last xs h1 h2 h3
  have hsp := sorted_range_split xs h1 (Nat.le_of_lt h2) h3
  exact ⟨sorted_range_rearranges xs (by omega) h3, rfl, hsp.2⟩

theorem sort_whole_range_partial_sort {α : Type} [LinearOrder α] :
    PartialSortSpec (sort_whole_range (α := α)) := by
  intro first middle last xs h1 h2 h3
  have hsp := sorted_range_split xs h1 h2 h3
  exact ⟨sorted_range_rearranges xs (by omega) h3, hsp.1, hsp.2⟩

/-! ## Theorems -/

/-- C14. Result of `sort_subrange`: with library algorithms that meet their
standard postconditions and f ≤ sf ≤ sl ≤ l inside the sequence, the elements
at the positions [sf, sl) after the call are in non-decreasing order and are
the elements found at [sf, sl) when the whole range [f, l) is sorted. -/
theorem C14_sort_subrange_result {α : Type} [LinearOrder α]
    (nth ps : Nat → Nat → Nat → List α → List α)
    (hnth : NthElementSpec nth) (hps : PartialSortSpec ps)
    (xs : List α) (f l sf sl : Nat)
    (h1 : f ≤ sf) (h2 : sf ≤ sl) (h3 : sl ≤ l) (h4 : l ≤ xs.length) :
    (slice (sort_subrange nth ps f l sf sl xs) sf sl).Sorted (· ≤ ·) ∧
    slice (sort_subrange nth ps f l sf sl xs) sf sl
      = slice (sorted_range xs f l) sf sl := by
  rcases Nat.eq_or_lt_of_le h2 with heq | hlt
  · subst heq
    rw [slice_self, slice_self]
    exact ⟨List.sorted_nil, rfl⟩
  · obtain ⟨⟨Rlen, _, _, Rperm⟩, hS, hA, hWB⟩ :=
      sort_subrange_gathered nth ps hnth hps xs f l sf sl h1 hlt h3 h4
    refine ⟨hS, ?_⟩
    generalize sort_subrange nth ps f l sf sl xs = ys at *
    have hdec : slice ys f l = slice ys f sf ++ slice ys sf sl ++ slice ys sl l := by
      rw [slice_append ys h1 (by omega : sf ≤ l), slice_append ys h2 h3, List.append_assoc]
    have hWBeq : slice ys sf sl ++ slice ys sl l = slice ys sf l :=
      (slice_append ys h2 h3).symm
    have hsort := sort_eq_of_partition (slice ys f sf) (slice ys sf sl) (slice ys sl l)
      (slice xs f l) (by rw [← hdec]; exact Rperm.symm) hS
      (by intro a ha w hw; rw [hWBeq] at hw; exact hA a ha w hw) hWB
    rw [slice_sorted_range xs h4 h1 h2 h3, hsort]
    symm
    apply slice_whole
    · rw [List.length_insertionSort, slice_length ys (by omega)]
    · rw [slice_length ys (by omega)]; omega

/-- Witness for C14: positions [1, 3) of a five-element sequence. -/
theorem C14_sort_subrange_result_witness :
    (slice (sort_subrange sort_whole_range sort_whole_range 0 5 1 3 [5, 3, 1, 4, 2]) 1 3).Sorted
      (· ≤ ·) ∧
    slice (sort_subrange sort_whole_range sort_whole_range 0 5 1 3 [5, 3, 1, 4, 2]) 1 3
      = slice (sorted_range [5, 3, 1, 4, 2] 0 5) 1 3 :=
  C14_sort_subrange_result sort_whole_range sort_whole_range sort_whole_range_nth_element
    sort_whole_range_partial_sort [5, 3, 1, 4, 2] 0 5 1 3
    (by decide) (by decide) (by decide) (by decide)

/-- C16. Partition around the sub-range: with library algorithms that meet
their standard postconditions and f ≤ sf < sl ≤ l inside the sequence, after
the call the positions sf and sl - 1 hold elements, every element at a
position in [f, sf) is not greater than the element at sf, and every element
at a position in [sl, l) is not less than the element at sl - 1. -/
theorem C16_sort_subrange_partitions {α : Type} [LinearOrder α]
    (nth ps : Nat → Nat → Nat → List α → List α)
    (hnth : NthElementSpec nth) (hps : PartialSortSpec ps)
    (xs : List α) (f l sf sl : Nat)
    (h1 : f ≤ sf) (h2 : sf < sl) (h3 : sl ≤ l) (h4 : l ≤ xs.length) :
    (∃ p q, (sort_subrange nth ps f l sf sl xs)[sf]? = some p ∧
      (sort_subrange nth ps f l sf sl xs)[sl - 1]? = some q ∧
      (∀ (i : Nat) (x : α), f ≤ i → i < sf →
        (sort_subrange nth ps f l sf sl xs)[i]? = some x → x ≤ p) ∧
      (∀ (j : Nat) (y : α), sl ≤ j → j < l →
        (sort_subrange nth ps f l sf sl xs)[j]? = some y → q ≤ y)) := by
  obtain ⟨⟨Rlen, _, _, _⟩, _, hA, hWB⟩ :=
    sort_subrange_gathered nth ps hnth hps xs f l sf sl h1 h2 h3 h4
  generalize sort_subrange nth ps f l sf sl xs = ys at *
  have hp : ys[sf]? = some (ys[sf]) := List.getElem?_eq_getElem (by omega)
  have hq : ys[sl - 1]? = some (ys[sl - 1]) := List.getElem?_eq_getElem (by omega)
  refine ⟨_, _, hp, hq, ?_, ?_⟩
  · intro i x hfi hi hx
    exact hA x (mem_slice_of_getElem? hx hfi hi) _
      (mem_slice_of_getElem? hp (Nat.le_refl _) (by omega))
  · intro j y hj hjl hy
    exact hWB _ (mem_slice_of_getElem? hq (by omega) (by omega)) y
      (mem_slice_of_getElem? hy hj hjl)

/-- Witness for C16: positions [1, 3) of a five-element sequence. -/
theorem C16_sort_subrange_partitions_witness :
    (∃ p q, (sort_subrange sort_whole_range sort_whole_range 0 5 1 3
          [5, 3, 1, 4, 2])[1]? = some p ∧
      (sort_subrange sort_whole_range sort_whole_range 0 5 1 3
          [5, 3, 1, 4, 2])[3 - 1]? = some q ∧
      (∀ (i : Nat) (x : Nat), 0 ≤ i → i < 1 →
        (sort_subrange sort_whole_range sort_whole_range 0 5 1 3
          [5, 3, 1, 4, 2])[i]? = some x → x ≤ p) ∧
      (∀ (j : Nat) (y : Nat), 3 ≤ j → j < 5 →
        (sort_subrange sort_whole_range sort_whole_range 0 5 1 3
          [5, 3, 1, 4, 2])[j]? = some y → q ≤ y)) :=
  C16_sort_subrange_partitions sort_whole_range sort_whole_range
    sort_whole_range_nth_element sort_whole_range_partial_sort [5, 3, 1, 4, 2] 0 5 1 3
    (by decide) (by decide) (by decide) (by decide)

theorem perm_of_rearranges {α : Type} {xs ys : List α} {f l : Nat} (hfl : f ≤ l)
    (h : Rearranges f l xs ys) : ys.Perm xs := by
  obtain ⟨_, ht, hd, hp⟩ := h
  rw [eq_take_slice_drop ys hfl, eq_take_slice_drop xs hfl, ht, hd]
  exact ((List.Perm.refl _).append hp).append (List.Perm.refl _)

/-- C17. `sort_subrange` only rearranges: with library algorithms that meet
their standard postconditions and f ≤ sf ≤ sl ≤ l inside the sequence, the
sequence after the call is a permutation of the sequence before it, of the
same length, and it is the same sequence when sf = sl. -/
theorem C17_sort_subrange_permutes {α : Type} [LinearOrder α]
    (nth ps : Nat → Nat → Nat → List α → List α)
    (hnth : NthElementSpec nth) (hps : PartialSortSpec ps)
    (xs : List α) (f l sf sl : Nat)
    (h1 : f ≤ sf) (h2 : sf ≤ sl) (h3 : sl ≤ l) (h4 : l ≤ xs.length) :
    (sort_subrange nth ps f l sf sl xs).Perm xs ∧
    (sort_subrange nth ps f l sf sl xs).length = xs.length ∧
    (sf = sl → sort_subrange nth ps f l sf sl xs = xs) := by
  have hlast : sf = sl → sort_subrange nth ps f l sf sl xs = xs := by
    intro h; subst h; exact sort_subrange_of_eq nth ps f l sf xs
  rcases Nat.eq_or_lt_of_le h2 with heq | hlt
  · rw [hlast heq]
    exact ⟨List.Perm.refl _, rfl, fun _ => rfl⟩
  · have hR := (sort_subrange_gathered nth ps hnth hps xs f l sf sl h1 hlt h3 h4).1
    exact ⟨perm_of_rearranges (by omega) hR, hR.1, hlast⟩

/-- Witness for C17: positions [1, 3) of a five-element sequence. -/
theorem C17_sort_subrange_permutes_witness :
    (sort_subrange sort_whole_range sort_whole_range 0 5 1 3 [5, 3, 1, 4, 2]).Perm
      [5, 3, 1, 4, 2] ∧
    (sort_subrange sort_whole_range sort_whole_range 0 5 1 3 [5, 3, 1, 4, 2]).length
      = [5, 3, 1, 4, 2].length ∧
    (1 = 3 → sort_subrange sort_whole_range sort_whole_range 0 5 1 3 [5, 3, 1, 4, 2]
      = [5, 3, 1, 4, 2]) :=
  C17_sort_subrange_permutes sort_whole_range sort_whole_range
    sort_whole_range_nth_element sort_whole_range_partial_sort [5, 3, 1, 4, 2] 0 5 1 3
    (by decide) (by decide) (by decide) (by decide)

/-- C18. Valid arguments: under f ≤ sf ≤ sl ≤ l, whatever the library
algorithms do, every call of `std::nth_element` made by `sort_subrange` is
`nth_element(f, sf, l)` with f < sf < l, every call of `std::partial_sort` has
first ≤ middle ≤ last ≤ l with middle = sl and last = l, and the value of sf at
the end (incremented or not) is at most sl. -/
theorem C18_sort_subrange_calls_valid {α : Type}
    (nth ps : Nat → Nat → Nat → List α → List α) (xs : List α) (f l sf sl : Nat)
    (h1 : f ≤ sf) (h2 : sf ≤ sl) (h3 : sl ≤ l) :
    (∀ c ∈ sort_subrange_calls nth ps f l sf sl xs,
      match c with
      | Call.nth_element a n b => a = f ∧ n = sf ∧ b = l ∧ f < sf ∧ sf < l
      | Call.partial_sort a m b => a ≤ m ∧ m ≤ b ∧ b ≤ l ∧ m = sl ∧ b = l) ∧
    (sort_subrange_frame nth ps f l sf sl xs).sf ≤ sl ∧
    (sf ≠ sl → sf ≠ f → (sort_subrange_frame nth ps f l sf sl xs).sf = sf + 1) := by
  unfold sort_subrange_calls sort_subrange_frame
  by_cases he : sf = sl
  · simp [he]
  · by_cases hf : sf = f
    · subst hf
      simp [he]
      omega
    · simp [he, hf]
      omega

/-- Witness for C18: positions [1, 3) of a five-element sequence. -/
theorem C18_sort_subrange_calls_valid_witness :
    (∀ c ∈ sort_subrange_calls sort_whole_range sort_whole_range 0 5 1 3 [5, 3, 1, 4, 2],
      match c with
      | Call.nth_element a n b => a = 0 ∧ n = 1 ∧ b = 5 ∧ 0 < 1 ∧ 1 < 5
      | Call.partial_sort a m b => a ≤ m ∧ m ≤ b ∧ b ≤ 5 ∧ m = 3 ∧ b = 5) ∧
    (sort_subrange_frame sort_whole_range sort_whole_range 0 5 1 3 [5, 3, 1, 4, 2]).sf ≤ 3 ∧
    ((1 : Nat) ≠ 3 → (1 : Nat) ≠ 0 →
      (sort_subrange_frame sort_whole_range sort_whole_range 0 5 1 3 [5, 3, 1, 4, 2]).sf
        = 1 + 1) :=
  C18_sort_subrange_calls_valid sort_whole_range sort_whole_range [5, 3, 1, 4, 2] 0 5 1 3
    (by decide) (by decide) (by decide)

end SortSubrange

namespace Shapes

theorem padded_of_le (out : ostream) (seq : String) (h : out.width ≤ seq.length) :
    padded out seq = seq := by
  simp [padded, Nat.not_lt.mpr h]

end Shapes

namespace Cow

/-! ## Interleavings: the invariant on counts -/

theorem live_of_owned {T : Type} {heap : List (Cell T)} {own del : Nat → Nat}
    (hg : GInv heap own del) {p : Nat} (hp : 0 < own p) :
    ∃ o, heap[p]? = some (Cell.live o) := by
  obtain ⟨ha, _, hf, _⟩ := hg
  have hlt := ha p hp
  cases hc : heap[p]? with
  | none => rw [List.getElem?_eq_none_iff] at hc; omega
  | some c =>
    cases c with
    | live o => exact ⟨o, rfl⟩
    | freed => have := (hf p hc).1; omega

theorem ginv_congr {T : Type} {heap : List (Cell T)} {own del own1 del1 : Nat → Nat}
    (hg : GInv heap own del) (ho : ∀ q, own1 q = own q) (hd : ∀ q, del1 q = del q) :
    GInv heap own1 del1 := by
  have e1 : own1 = own := funext ho
  have e2 : del1 = del := funext hd
  rw [e1, e2]; exact hg

theorem live_after_set_live {T : Type} {heap : List (Cell T)} {p q : Nat}
    {o1 : object_t T} (o2 : object_t T) (h : heap[q]? = some (Cell.live o1)) :
    ∃ o, (heap.set p (Cell.live o2))[q]? = some (Cell.live o) := by
  have hlt := lt_length_of_getElem? h
  by_cases hqp : p = q
  · subst hqp
    exact ⟨o2, by simp [List.getElem?_set, hlt]⟩
  · exact ⟨o1, by rw [List.getElem?_set_ne hqp]; exact h⟩

theorem ginv_data {T : Type} {heap : List (Cell T)} {own del own1 del1 : Nat → Nat}
    (hg : GInv heap own del) {p : Nat} {o : object_t T}
    (hp : heap[p]? = some (Cell.live o)) (x : T)
    (ho : ∀ q, own1 q = own q) (hdel : ∀ q, del1 q = del q) :
    GInv (heap.set p (Cell.live ⟨o.count_m, x⟩)) own1 del1 := by
  have e1 : own1 = own := funext ho
  have e2 : del1 = del := funext hdel
  subst e1 e2
  obtain ⟨ha, hb, hf, hd⟩ := hg
  have hlt := lt_length_of_getElem? hp
  refine ⟨?_, ?_, ?_, ?_⟩
  · intro q hq
    rw [List.length_set]; exact ha q hq
  · intro q o1 hq
    rcases getElem?_set_cases hq with ⟨h1, h2⟩ | ⟨_, h2⟩
    · cases h2; subst h1; exact hb q o hp
    · exact hb q o1 h2
  · intro q hq
    rcases getElem?_set_cases hq with ⟨_, h2⟩ | ⟨_, h2⟩
    · cases h2
    · exact hf q h2
  · intro q hq
    obtain ⟨h1, h2, o1, h3⟩ := hd q hq
    exact ⟨h1, h2, live_after_set_live _ h3⟩

theorem ginv_alloc {T : Type} {heap : List (Cell T)} {own del own1 del1 : Nat → Nat}
    (hg : GInv heap own del) (x : T)
    (ho : ∀ q, own1 q = own q + (if q = heap.length then 1 else 0))
    (hdel : ∀ q, del1 q = del q) :
    GInv (heap ++ [Cell.live ⟨c_int.one, x⟩]) own1 del1 := by
  have e2 : del1 = del := funext hdel
  subst e2
  obtain ⟨ha, hb, hf, hd⟩ := hg
  have hz : own heap.length = 0 := by
    rcases Nat.eq_zero_or_pos (own heap.length) with h | h
    · exact h
    · have := ha _ h; omega
  refine ⟨?_, ?_, ?_, ?_⟩
  · intro q hq
    rw [List.length_append, List.length_singleton]
    rw [ho] at hq
    by_cases hql : q = heap.length
    · omega
    · rw [if_neg hql] at hq
      have := ha q hq; omega
  · intro q o1 hq
    rw [ho]
    rcases getElem?_concat_cases hq with ⟨h1, h2⟩ | ⟨h1, h2⟩
    · rw [if_neg (by omega), Nat.add_zero]; exact hb q o1 h2
    · cases h2; subst h1
      rw [hz, if_pos rfl]; rfl
  · intro q hq
    rw [ho]
    rcases getElem?_concat_cases hq with ⟨h1, h2⟩ | ⟨_, h2⟩
    · rw [if_neg (by omega), Nat.add_zero]; exact hf q h2
    · cases h2
  · intro q hq
    obtain ⟨h1, h2, o1, h3⟩ := hd q hq
    have hlt := lt_length_of_getElem? h3
    refine ⟨h1, ?_, o1, ?_⟩
    · rw [ho, if_neg (by omega), h2]
    · rw [List.getElem?_append_left hlt]; exact h3

theorem ginv_inc {T : Type} {heap : List (Cell T)} {own del own1 del1 : Nat → Nat}
    (hg : GInv heap own del) {p : Nat} {o : object_t T}
    (hp : heap[p]? = some (Cell.live o)) (hpos : 0 < own p)
    (ho : ∀ q, own1 q = own q + (if q = p then 1 else 0))
    (hdel : ∀ q, del1 q = del q) :
    GInv (heap.set p (Cell.live ⟨o.count_m.succ, o.data_m⟩)) own1 del1 := by
  have e2 : del1 = del := funext hdel
  subst e2
  obtain ⟨ha, hb, hf, hd⟩ := hg
  refine ⟨?_, ?_, ?_, ?_⟩
  · intro q hq
    rw [List.length_set]
    rw [ho] at hq
    by_cases hqp : q = p
    · subst hqp; exact ha q hpos
    · rw [if_neg hqp] at hq; exact ha q hq
  · intro q o1 hq
    rw [ho]
    rcases getElem?_set_cases hq with ⟨h1, h2⟩ | ⟨h1, h2⟩
    · cases h2; subst h1
      rw [if_pos rfl, c_int.succ_val, hb q o hp, wrap32_wrap32_add]
      norm_cast
    · rw [if_neg h1, Nat.add_zero]; exact hb q o1 h2
  · intro q hq
    rw [ho]
    rcases getElem?_set_cases hq with ⟨_, h2⟩ | ⟨h1, h2⟩
    · cases h2
    · rw [if_neg h1, Nat.add_zero]; exact hf q h2
  · intro q hq
    obtain ⟨h1, h2, o1, h3⟩ := hd q hq
    have hqp : q ≠ p := by
      intro e; subst e; omega
    refine ⟨h1, ?_, live_after_set_live _ h3⟩
    rw [ho, if_neg hqp, h2]

theorem ginv_dec {T : Type} {heap : List (Cell T)} {own del own1 del1 : Nat → Nat}
    (hg : GInv heap own del) {p : Nat} {o : object_t T}
    (hp : heap[p]? = some (Cell.live o)) (hpos : 0 < own p)
    (ho : ∀ q, own1 q + (if q = p then 1 else 0) = own q)
    (hdel : ∀ q, del1 q = del q) :
    GInv (heap.set p (Cell.live ⟨o.count_m.pred, o.data_m⟩)) own1 del1 := by
  have e2 : del1 = del := funext hdel
  subst e2
  obtain ⟨ha, hb, hf, hd⟩ := hg
  refine ⟨?_, ?_, ?_, ?_⟩
  · intro q hq
    rw [List.length_set]
    have := ho q
    exact ha q (by omega)
  · intro q o1 hq
    have hoq := ho q
    rcases getElem?_set_cases hq with ⟨h1, h2⟩ | ⟨h1, h2⟩
    · cases h2; subst h1
      rw [if_pos rfl] at hoq
      rw [c_int.pred_val, hb q o hp, ← hoq]
      unfold wrap32
      push_cast
      omega
    · rw [if_neg h1, Nat.add_zero] at hoq
      rw [hoq]; exact hb q o1 h2
  · intro q hq
    have hoq := ho q
    rcases getElem?_set_cases hq with ⟨_, h2⟩ | ⟨h1, h2⟩
    · cases h2
    · rw [if_neg h1, Nat.add_zero] at hoq
      rw [hoq]; exact hf q h2
  · intro q hq
    obtain ⟨h1, h2, o1, h3⟩ := hd q hq
    have hoq := ho q
    refine ⟨h1, by omega, live_after_set_live _ h3⟩

theorem ginv_dec_zero {T : Type} {heap : List (Cell T)} {own del own1 del1 : Nat → Nat}
    (hg : GInv heap own del) {p : Nat} {o : object_t T}
    (hp : heap[p]? = some (Cell.live o)) (hpos : 0 < own p)
    (hbound : own p < 4294967296) (hzero : o.count_m.pred.val = 0)
    (ho : ∀ q, own1 q + (if q = p then 1 else 0) = own q)
    (hdel : ∀ q, del1 q = del q + (if q = p then 1 else 0)) :
    GInv (heap.set p (Cell.live ⟨o.count_m.pred, o.data_m⟩)) own1 del1 := by
  have hg1 := ginv_dec hg hp hpos ho (fun _ => rfl)
  obtain ⟨ha, hb, hf, hd⟩ := hg
  obtain ⟨ha1, hb1, hf1, hd1⟩ := hg1
  have hlt := lt_length_of_getElem? hp
  have hdp : del p = 0 := by
    rcases Nat.eq_zero_or_pos (del p) with h | h
    · exact h
    · have := (hd p h).2.1; omega
  have hown1 : own1 p = 0 := by
    have h1 := (c_int.pred_val_eq_zero _).mp hzero
    have h2 := hb p o hp
    have h3 := ho p
    rw [if_pos rfl] at h3
    rw [h1] at h2
    unfold wrap32 at h2
    omega
  refine ⟨ha1, hb1, ?_, ?_⟩
  · intro q hq
    have hqp : q ≠ p := by
      intro e; subst e
      simp [List.getElem?_set, hlt] at hq
    have := hf1 q hq
    rw [hdel, if_neg hqp]
    exact ⟨this.1, by omega⟩
  · intro q hq
    by_cases hqp : q = p
    · subst hqp
      rw [hdel, if_pos rfl, hdp]
      exact ⟨rfl, hown1, ⟨o.count_m.pred, o.data_m⟩, by simp [List.getElem?_set, hlt]⟩
    · rw [hdel, if_neg hqp, Nat.add_zero] at hq ⊢
      exact hd1 q hq

theorem ginv_free {T : Type} {heap : List (Cell T)} {own del own1 del1 : Nat → Nat}
    (hg : GInv heap own del) {p : Nat} (hpos : 0 < del p)
    (ho : ∀ q, own1 q = own q)
    (hdel : ∀ q, del1 q + (if q = p then 1 else 0) = del q) :
    GInv (heap.set p Cell.freed) own1 del1 := by
  have e1 : own1 = own := funext ho
  subst e1
  obtain ⟨ha, hb, hf, hd⟩ := hg
  obtain ⟨hd1, hd2, o, hd3⟩ := hd p hpos
  have hlt := lt_length_of_getElem? hd3
  refine ⟨?_, ?_, ?_, ?_⟩
  · intro q hq
    rw [List.length_set]; exact ha q hq
  · intro q o1 hq
    rcases getElem?_set_cases hq with ⟨_, h2⟩ | ⟨_, h2⟩
    · cases h2
    · exact hb q o1 h2
  · intro q hq
    have hdq := hdel q
    rcases getElem?_set_cases hq with ⟨h1, _⟩ | ⟨h1, h2⟩
    · subst h1
      rw [if_pos rfl] at hdq
      exact ⟨hd2, by omega⟩
    · rw [if_neg h1, Nat.add_zero] at hdq
      rw [hdq]; exact hf q h2
  · intro q hq
    have hdq := hdel q
    have hqp : q ≠ p := by
      intro e; subst e
      rw [if_pos rfl] at hdq
      omega
    rw [if_neg hqp, Nat.add_zero] at hdq
    rw [hdq] at hq ⊢
    obtain ⟨h1, h2, o1, h3⟩ := hd q hq
    exact ⟨h1, h2, o1, by rw [List.getElem?_set_ne (Ne.symm hqp)]; exact h3⟩

/-! ## Interleavings: sums over the threads -/

theorem sum_map_set {α : Type} (f : α → Nat) {l : List α} {i : Nat} {a : α} (b : α)
    (h : l[i]? = some a) :
    ((l.set i b).map f).sum + f a = (l.map f).sum + f b := by
  induction l generalizing i with
  | nil => simp at h
  | cons x rest ih =>
    cases i with
    | zero =>
      simp only [List.getElem?_cons_zero, Option.some.injEq] at h
      subst h
      simp only [List.set_cons_zero, List.map_cons, List.sum_cons]
      omega
    | succ j =>
      simp only [List.getElem?_cons_succ] at h
      have := ih h
      simp only [List.set_cons_succ, List.map_cons, List.sum_cons]
      omega

theorem le_sum_map {α : Type} (f : α → Nat) {l : List α} {i : Nat} {a : α}
    (h : l[i]? = some a) : f a ≤ (l.map f).sum := by
  induction l generalizing i with
  | nil => simp at h
  | cons x rest ih =>
    cases i with
    | zero =>
      simp only [List.getElem?_cons_zero, Option.some.injEq] at h
      subst h
      simp only [List.map_cons, List.sum_cons]
      omega
    | succ j =>
      simp only [List.getElem?_cons_succ] at h
      have := ih h
      simp only [List.map_cons, List.sum_cons]
      omega

theorem sum_map_le_sum_map {α : Type} (f g : α → Nat) (l : List α)
    (h : ∀ a, f a ≤ g a) : (l.map f).sum ≤ (l.map g).sum := by
  induction l with
  | nil => simp
  | cons x rest ih =>
    simp only [List.map_cons, List.sum_cons]
    have := h x
    omega

theorem owners_le_total {T : Type} (c : Config T) (p : Nat) :
    c.owners p ≤ c.owned_total :=
  sum_map_le_sum_map _ _ _ (fun _ => List.count_le_length _ _)

theorem owners_set {T : Type} {c : Config T} {i : Nat} {t : Thread T}
    (h : c.threads[i]? = some t) (heap1 : List (Cell T)) (t1 : Thread T) (p : Nat) :
    (⟨heap1, c.threads.set i t1⟩ : Config T).owners p + t.owned.count p
      = c.owners p + t1.owned.count p :=
  sum_map_set (fun t => t.owned.count p) t1 h

theorem deleters_set {T : Type} {c : Config T} {i : Nat} {t : Thread T}
    (h : c.threads[i]? = some t) (heap1 : List (Cell T)) (t1 : Thread T) (p : Nat) :
    (⟨heap1, c.threads.set i t1⟩ : Config T).deleters p + t.deleting.count p
      = c.deleters p + t1.deleting.count p :=
  sum_map_set (fun t => t.deleting.count p) t1 h

theorem owners_pos_of_owned {T : Type} {c : Config T} {i : Nat} {t : Thread T}
    (h : c.threads[i]? = some t) {p : Nat} (hp : p ∈ t.owned) : 0 < c.owners p := by
  have h1 : 0 < t.owned.count p := List.count_pos_iff.mpr hp
  have h2 := le_sum_map (fun t => t.owned.count p) h
  exact Nat.lt_of_lt_of_le h1 h2

theorem deleters_pos_of_deleting {T : Type} {c : Config T} {i : Nat} {t : Thread T}
    (h : c.threads[i]? = some t) {p : Nat} (hp : p ∈ t.deleting) : 0 < c.deleters p := by
  have h1 : 0 < t.deleting.count p := List.count_pos_iff.mpr hp
  have h2 := le_sum_map (fun t => t.deleting.count p) h
  exact Nat.lt_of_lt_of_le h1 h2

/-! ## Interleavings: the live pointers of a handle table -/

theorem count_live_ptrs (hs : List (Option Nat)) (p : Nat) :
    (live_ptrs hs).count p = hs.count (some p) := by
  induction hs with
  | nil => rfl
  | cons a rest ih =>
    cases a with
    | none =>
      simp only [live_ptrs, List.filterMap_cons, id] at ih ⊢
      simp [List.count_cons, ih]
    | some q =>
      simp only [live_ptrs, List.filterMap_cons, id] at ih ⊢
      simp [List.count_cons, ih]

theorem mem_live_ptrs {hs : List (Option Nat)} {p : Nat} :
    p ∈ live_ptrs hs ↔ some p ∈ hs := by
  rw [← List.count_pos_iff, ← List.count_pos_iff, count_live_ptrs]

theorem mem_live_ptrs_of_handle {hs : List (Option Nat)} {h p : Nat}
    (hh : hs[h]? = some (some p)) : p ∈ live_ptrs hs :=
  mem_live_ptrs.mpr (List.getElem?_mem hh)

theorem count_live_set_none {hs : List (Option Nat)} {h p : Nat}
    (hh : hs[h]? = some (some p)) (q : Nat) :
    (live_ptrs (hs.set h none)).count q + (if q = p then 1 else 0)
      = (live_ptrs hs).count q := by
  rw [count_live_ptrs, count_live_ptrs, count_set_none hh]
  by_cases hqp : q = p
  · subst hqp
    have := count_pos_of_handle hh
    simp only [if_true]
    omega
  · have : ¬ p = q := fun e => hqp e.symm
    simp [hqp, this]

theorem count_live_set_some {hs : List (Option Nat)} {h p : Nat}
    (hh : hs[h]? = some (some p)) (t q : Nat) :
    (live_ptrs (hs.set h (some t))).count q + (if q = p then 1 else 0)
      = (live_ptrs hs).count q + (if q = t then 1 else 0) := by
  rw [count_live_ptrs, count_live_ptrs, count_set_some hh]
  have hpos := count_pos_of_handle hh
  by_cases hqp : q = p
  · subst hqp
    by_cases hqt : q = t
    · subst hqt; simp only [if_true]; omega
    · have : ¬ t = q := fun e => hqt e.symm
      simp only [if_true, if_neg hqt, if_neg this]; omega
  · have h1 : ¬ p = q := fun e => hqp e.symm
    by_cases hqt : q = t
    · subst hqt; simp only [if_true, if_neg hqp, if_neg h1]; omega
    · have : ¬ t = q := fun e => hqt e.symm
      simp only [if_neg hqt, if_neg this, if_neg hqp, if_neg h1]; omega

theorem live_ptrs_concat (hs : List (Option Nat)) (p : Nat) :
    live_ptrs (hs ++ [some p]) = live_ptrs hs ++ [p] := by
  simp [live_ptrs, List.filterMap_append]

theorem live_ptrs_set_none_none {hs : List (Option Nat)} {h : Nat} :
    live_ptrs ((hs.set h none).set h none) = live_ptrs (hs.set h none) := by
  rw [List.set_set]

/-! ## Interleavings: one step of one thread keeps the invariant -/

theorem object_m_error {T : Type} {s : State T} {h : Nat} {e : Err}
    (H : object_m s h = .error e) : e = .dead_handle := by
  unfold object_m at H
  split at H
  · cases H
  · exact (Except.error.inj H).symm

theorem count_singleton_eq (p q : Nat) : [p].count q = if q = p then 1 else 0 := by
  by_cases h : q = p
  · subst h; simp
  · have : ¬ p = q := fun e => h e.symm
    simp [List.count_cons, h, this]

theorem owners_add {T : Type} {c : Config T} {i : Nat} {t : Thread T}
    (hi : c.threads[i]? = some t) (heap1 : List (Cell T)) (t1 : Thread T) {k : Nat → Nat}
    (h : ∀ q, t1.owned.count q = t.owned.count q + k q) (q : Nat) :
    (⟨heap1, c.threads.set i t1⟩ : Config T).owners q = c.owners q + k q := by
  have := owners_set hi heap1 t1 q
  have := h q
  omega

theorem owners_sub {T : Type} {c : Config T} {i : Nat} {t : Thread T}
    (hi : c.threads[i]? = some t) (heap1 : List (Cell T)) (t1 : Thread T) {k : Nat → Nat}
    (h : ∀ q, t1.owned.count q + k q = t.owned.count q) (q : Nat) :
    (⟨heap1, c.threads.set i t1⟩ : Config T).owners q + k q = c.owners q := by
  have := owners_set hi heap1 t1 q
  have := h q
  omega

theorem owners_same {T : Type} {c : Config T} {i : Nat} {t : Thread T}
    (hi : c.threads[i]? = some t) (heap1 : List (Cell T)) (t1 : Thread T)
    (h : ∀ q, t1.owned.count q = t.owned.count q) (q : Nat) :
    (⟨heap1, c.threads.set i t1⟩ : Config T).owners q = c.owners q := by
  have := owners_set hi heap1 t1 q
  have := h q
  omega

theorem deleters_add {T : Type} {c : Config T} {i : Nat} {t : Thread T}
    (hi : c.threads[i]? = some t) (heap1 : List (Cell T)) (t1 : Thread T) {k : Nat → Nat}
    (h : ∀ q, t1.deleting.count q = t.deleting.count q + k q) (q : Nat) :
    (⟨heap1, c.threads.set i t1⟩ : Config T).deleters q = c.deleters q + k q := by
  have := deleters_set hi heap1 t1 q
  have := h q
  omega

theorem deleters_sub {T : Type} {c : Config T} {i : Nat} {t : Thread T}
    (hi : c.threads[i]? = some t) (heap1 : List (Cell T)) (t1 : Thread T) {k : Nat → Nat}
    (h : ∀ q, t1.deleting.count q + k q = t.deleting.count q) (q : Nat) :
    (⟨heap1, c.threads.set i t1⟩ : Config T).deleters q + k q = c.deleters q := by
  have := deleters_set hi heap1 t1 q
  have := h q
  omega

theorem deleters_same {T : Type} {c : Config T} {i : Nat} {t : Thread T}
    (hi : c.threads[i]? = some t) (heap1 : List (Cell T)) (t1 : Thread T)
    (h : ∀ q, t1.deleting.count q = t.deleting.count q) (q : Nat) :
    (⟨heap1, c.threads.set i t1⟩ : Config T).deleters q = c.deleters q := by
  have := deleters_set hi heap1 t1 q
  have := h q
  omega

theorem cinv_step {T : Type} {c : Config T} {i : Nat} (hinv : CInv c)
    (heap1 : List (Cell T)) (t1 : Thread T) (hwf : t1.wf)
    (hg : GInv heap1 (⟨heap1, c.threads.set i t1⟩ : Config T).owners
      (⟨heap1, c.threads.set i t1⟩ : Config T).deleters) :
    CInv ⟨heap1, c.threads.set i t1⟩ := by
  refine ⟨?_, hg⟩
  intro t2 ht2
  rcases List.mem_or_eq_of_mem_set ht2 with h | h
  · exact hinv.1 t2 h
  · rw [h]; exact hwf

theorem cinv_frame {T : Type} {c : Config T} {i : Nat} {t : Thread T}
    (hi : c.threads[i]? = some t) (hinv : CInv c) (t1 : Thread T) (hwf : t1.wf)
    (ho : ∀ q, t1.owned.count q = t.owned.count q)
    (hd : ∀ q, t1.deleting.count q = t.deleting.count q) :
    CInv ⟨c.heap, c.threads.set i t1⟩ :=
  cinv_step hinv c.heap t1 hwf
    (ginv_congr hinv.2 (owners_same hi c.heap t1 ho) (deleters_same hi c.heap t1 hd))

theorem live_of_thread_owned {T : Type} {c : Config T} {i : Nat} {t : Thread T}
    (hi : c.threads[i]? = some t) (hinv : CInv c) {p : Nat} (hp : p ∈ t.owned) :
    ∃ o, c.heap[p]? = some (Cell.live o) :=
  live_of_owned hinv.2 (owners_pos_of_owned hi hp)

theorem live_of_thread_deleting {T : Type} {c : Config T} {i : Nat} {t : Thread T}
    (hi : c.threads[i]? = some t) (hinv : CInv c) {p : Nat} (hp : p ∈ t.deleting) :
    ∃ o, c.heap[p]? = some (Cell.live o) :=
  (hinv.2.2.2.2 p (deleters_pos_of_deleting hi hp)).2.2

theorem good_of_ok {T : Type} {v : Variant} {c : Config T} {i : Nat} {t : Thread T}
    (heap1 : List (Cell T)) (t1 : Thread T)
    (hstep : thread_step v c.heap t = .ok (heap1, t1))
    (hc : CInv ⟨heap1, c.threads.set i t1⟩) : GoodStep v c i t := by
  refine ⟨?_, ?_⟩
  · intro e he
    rw [hstep] at he; cases he
  · intro heap2 t2 h2
    rw [hstep] at h2
    cases h2
    exact hc

theorem good_of_dead {T : Type} {v : Variant} {c : Config T} {i : Nat} {t : Thread T}
    (hstep : thread_step v c.heap t = .error .dead_handle) : GoodStep v c i t := by
  refine ⟨?_, ?_⟩
  · intro e he
    rw [hstep] at he
    exact (Except.error.inj he).symm
  · intro heap2 t2 h2
    rw [hstep] at h2; cases h2

theorem deleters_unchanged {T : Type} {c : Config T} {i : Nat} {t : Thread T}
    (hi : c.threads[i]? = some t) (heap1 : List (Cell T)) (t1 : Thread T)
    (h : ∀ q, t1.deleting.count q = t.deleting.count q) :
    (⟨heap1, c.threads.set i t1⟩ : Config T).deleters = c.deleters :=
  funext (deleters_same hi heap1 t1 h)

theorem owners_unchanged {T : Type} {c : Config T} {i : Nat} {t : Thread T}
    (hi : c.threads[i]? = some t) (heap1 : List (Cell T)) (t1 : Thread T)
    (h : ∀ q, t1.owned.count q = t.owned.count q) :
    (⟨heap1, c.threads.set i t1⟩ : Config T).owners = c.owners :=
  funext (owners_same hi heap1 t1 h)

theorem good_done {T : Type} (v : Variant) {c : Config T} {i : Nat}
    {hs : List (Option Nat)} (hi : c.threads[i]? = some ⟨hs, .idle, []⟩) (hinv : CInv c) :
    GoodStep v c i ⟨hs, .idle, []⟩ :=
  good_of_ok c.heap ⟨hs, .idle, []⟩ rfl
    (cinv_frame hi hinv ⟨hs, .idle, []⟩ trivial (fun _ => rfl) (fun _ => rfl))

theorem good_construct {T : Type} (v : Variant) {c : Config T} {i : Nat}
    {hs : List (Option Nat)} {x : T} {rest : List (Op T)}
    (hi : c.threads[i]? = some ⟨hs, .idle, Op.construct x :: rest⟩) (hinv : CInv c) :
    GoodStep v c i ⟨hs, .idle, Op.construct x :: rest⟩ := by
  refine good_of_ok (c.heap ++ [Cell.live ⟨c_int.one, x⟩])
    ⟨hs ++ [some c.heap.length], .idle, rest⟩ rfl ?_
  refine cinv_step hinv _ _ trivial ?_
  refine ginv_alloc hinv.2 x (owners_add hi _ _ ?_) (deleters_same hi _ _ (fun _ => rfl))
  intro q
  show (live_ptrs (hs ++ [some c.heap.length])).count q = (live_ptrs hs).count q + _
  rw [live_ptrs_concat, List.count_append, count_singleton_eq]

theorem good_copy_start {T : Type} (v : Variant) {c : Config T} {i : Nat}
    {hs : List (Option Nat)} {src : Nat} {rest : List (Op T)}
    (hi : c.threads[i]? = some ⟨hs, .idle, Op.copy src :: rest⟩) (hinv : CInv c) :
    GoodStep v c i ⟨hs, .idle, Op.copy src :: rest⟩ := by
  cases ho : object_m (⟨c.heap, hs⟩ : State T) src with
  | error e =>
    have := object_m_error ho
    subst this
    exact good_of_dead (by simp only [thread_step, ho])
  | ok p =>
    have hh : hs[src]? = some (some p) := object_m_eq_ok.mp ho
    refine good_of_ok c.heap ⟨hs ++ [some p], .copy_inc, rest⟩
      (by simp only [thread_step, ho]) ?_
    refine cinv_frame hi hinv _ ?_ ?_ (fun _ => rfl)
    · refine ⟨p, ?_, ?_⟩
      · simp
      · show p ∈ live_ptrs (hs ++ [some p]).dropLast
        rw [List.dropLast_concat]
        exact mem_live_ptrs_of_handle hh
    · intro q
      show (live_ptrs (hs ++ [some p]).dropLast).count q = (live_ptrs hs).count q
      rw [List.dropLast_concat]

theorem good_copy_inc {T : Type} (v : Variant) {c : Config T} {i : Nat}
    {hs : List (Option Nat)} {todo : List (Op T)}
    (hi : c.threads[i]? = some ⟨hs, .copy_inc, todo⟩) (hinv : CInv c) :
    GoodStep v c i ⟨hs, .copy_inc, todo⟩ := by
  obtain ⟨p, hlast, hmem⟩ : ∃ p, hs.getLast? = some (some p) ∧ p ∈ live_ptrs hs.dropLast :=
    hinv.1 _ (List.getElem?_mem hi)
  have hh : hs[hs.length - 1]? = some (some p) := by
    rw [← List.getLast?_eq_getElem?]; exact hlast
  have hsplit : hs = hs.dropLast ++ [some p] := by
    have := List.dropLast_append_getLast? (some p) hlast
    exact this.symm
  obtain ⟨o, hp⟩ := live_of_thread_owned hi hinv (p := p) hmem
  have hstep : thread_step v c.heap ⟨hs, .copy_inc, todo⟩
      = .ok (c.heap.set p (Cell.live ⟨o.count_m.succ, o.data_m⟩), ⟨hs, .idle, todo⟩) := by
    simp only [thread_step, object_m_ok (s := ⟨c.heap, hs⟩) hh, pre_inc,
      deref_ok (s := ⟨c.heap, hs⟩) hp, put]
  refine good_of_ok _ _ hstep ?_
  refine cinv_step hinv _ _ trivial ?_
  refine ginv_inc hinv.2 hp (owners_pos_of_owned hi hmem)
    (owners_add hi _ _ ?_) (deleters_same hi _ _ (fun _ => rfl))
  intro q
  show (live_ptrs hs).count q = (live_ptrs hs.dropLast).count q + _
  conv_lhs => rw [hsplit]
  rw [live_ptrs_concat, List.count_append, count_singleton_eq]

theorem deleting_count_of_handle {hs : List (Option Nat)} {h p : Nat}
    (hh : hs[h]? = some (some p)) (q : Nat) :
    ((hs[h]?.getD none).toList).count q = if q = p then 1 else 0 := by
  rw [hh]
  exact count_singleton_eq p q

theorem good_destroy_start {T : Type} (v : Variant) {c : Config T} {i : Nat}
    {hs : List (Option Nat)} {h : Nat} {rest : List (Op T)}
    (hi : c.threads[i]? = some ⟨hs, .idle, Op.destroy h :: rest⟩) (hinv : CInv c)
    (hb : c.owned_total < 4294967296) :
    GoodStep v c i ⟨hs, .idle, Op.destroy h :: rest⟩ := by
  cases ho : object_m (⟨c.heap, hs⟩ : State T) h with
  | error e =>
    have := object_m_error ho
    subst this
    exact good_of_dead (by simp only [thread_step, ho])
  | ok p =>
    have hh : hs[h]? = some (some p) := object_m_eq_ok.mp ho
    have hmem : p ∈ (⟨hs, .idle, Op.destroy h :: rest⟩ : Thread T).owned :=
      mem_live_ptrs_of_handle hh
    have hpos := owners_pos_of_owned hi hmem
    obtain ⟨o, hp⟩ := live_of_thread_owned hi hinv hmem
    have hdec := pre_dec_eq (s := ⟨c.heap, hs⟩) hp
    by_cases hz : o.count_m.pred.val = 0
    · have hstep : thread_step v c.heap ⟨hs, .idle, Op.destroy h :: rest⟩
          = .ok (c.heap.set p (Cell.live ⟨o.count_m.pred, o.data_m⟩),
              ⟨hs, .dtor_delete h, rest⟩) := by
        simp only [thread_step, ho, hdec, if_pos hz]
      refine good_of_ok _ _ hstep ?_
      refine cinv_step hinv _ _ ⟨p, hh⟩ ?_
      refine ginv_dec_zero hinv.2 hp hpos
        (Nat.lt_of_le_of_lt (owners_le_total c p) hb) hz
        (owners_sub hi _ _ ?_) (deleters_add hi _ _ ?_)
      · intro q
        exact count_live_set_none hh q
      · intro q
        show ((hs[h]?.getD none).toList).count q = 0 + _
        rw [deleting_count_of_handle hh, Nat.zero_add]
    · have hstep : thread_step v c.heap ⟨hs, .idle, Op.destroy h :: rest⟩
          = .ok (c.heap.set p (Cell.live ⟨o.count_m.pred, o.data_m⟩),
              ⟨hs.set h none, .idle, rest⟩) := by
        simp only [thread_step, ho, hdec, if_neg hz, bind_handle]
      refine good_of_ok _ _ hstep ?_
      refine cinv_step hinv _ _ trivial ?_
      refine ginv_dec hinv.2 hp hpos (owners_sub hi _ _ ?_)
        (deleters_same hi _ _ (fun _ => rfl))
      intro q
      exact count_live_set_none hh q

theorem good_dtor_delete {T : Type} (v : Variant) {c : Config T} {i : Nat}
    {hs : List (Option Nat)} {h : Nat} {todo : List (Op T)}
    (hi : c.threads[i]? = some ⟨hs, .dtor_delete h, todo⟩) (hinv : CInv c) :
    GoodStep v c i ⟨hs, .dtor_delete h, todo⟩ := by
  obtain ⟨p, hh⟩ : ∃ p, hs[h]? = some (some p) := hinv.1 _ (List.getElem?_mem hi)
  have hmem : p ∈ (⟨hs, .dtor_delete h, todo⟩ : Thread T).deleting := by
    show p ∈ (hs[h]?.getD none).toList
    rw [hh]; simp
  have hpos := deleters_pos_of_deleting hi hmem
  obtain ⟨o, hp⟩ := live_of_thread_deleting hi hinv hmem
  have hstep : thread_step v c.heap ⟨hs, .dtor_delete h, todo⟩
      = .ok (c.heap.set p Cell.freed, ⟨hs.set h none, .idle, todo⟩) := by
    simp only [thread_step, object_m_ok (s := ⟨c.heap, hs⟩) hh, delete_object,
      deref_ok (s := ⟨c.heap, hs⟩) hp, bind_handle]
  refine good_of_ok _ _ hstep ?_
  refine cinv_step hinv _ _ trivial ?_
  refine ginv_free hinv.2 hpos (owners_same hi _ _ ?_) (deleters_sub hi _ _ ?_)
  · intro q
    show (live_ptrs (hs.set h none)).count q = (live_ptrs (hs.set h none)).count q
    rfl
  · intro q
    show 0 + _ = ((hs[h]?.getD none).toList).count q
    rw [deleting_count_of_handle hh, Nat.zero_add]

theorem good_assign_start {T : Type} (v : Variant) {c : Config T} {i : Nat}
    {hs : List (Option Nat)} {h : Nat} {x : T} {rest : List (Op T)}
    (hi : c.threads[i]? = some ⟨hs, .idle, Op.assign h x :: rest⟩) (hinv : CInv c) :
    GoodStep v c i ⟨hs, .idle, Op.assign h x :: rest⟩ := by
  cases ho : object_m (⟨c.heap, hs⟩ : State T) h with
  | error e =>
    have := object_m_error ho
    subst this
    exact good_of_dead (by simp only [thread_step, ho])
  | ok p =>
    have hh : hs[h]? = some (some p) := object_m_eq_ok.mp ho
    have hmem : p ∈ (⟨hs, .idle, Op.assign h x :: rest⟩ : Thread T).owned :=
      mem_live_ptrs_of_handle hh
    obtain ⟨o, hp⟩ := live_of_thread_owned hi hinv hmem
    by_cases h1 : o.count_m.val = 1
    · refine good_of_ok c.heap ⟨hs, .assign_store h x, rest⟩
        (by simp only [thread_step, ho, deref_ok (s := ⟨c.heap, hs⟩) hp, if_pos h1]) ?_
      exact cinv_frame hi hinv _ ⟨p, hh⟩ (fun _ => rfl) (fun _ => rfl)
    · refine good_of_ok c.heap ⟨hs, .assign_new h x, rest⟩
        (by simp only [thread_step, ho, deref_ok (s := ⟨c.heap, hs⟩) hp, if_neg h1]) ?_
      exact cinv_frame hi hinv _ ⟨p, hh⟩ (fun _ => rfl) (fun _ => rfl)

theorem good_assign_store {T : Type} (v : Variant) {c : Config T} {i : Nat}
    {hs : List (Option Nat)} {h : Nat} {x : T} {todo : List (Op T)}
    (hi : c.threads[i]? = some ⟨hs, .assign_store h x, todo⟩) (hinv : CInv c) :
    GoodStep v c i ⟨hs, .assign_store h x, todo⟩ := by
  obtain ⟨p, hh⟩ : ∃ p, hs[h]? = some (some p) := hinv.1 _ (List.getElem?_mem hi)
  have hmem : p ∈ (⟨hs, .assign_store h x, todo⟩ : Thread T).owned :=
    mem_live_ptrs_of_handle hh
  obtain ⟨o, hp⟩ := live_of_thread_owned hi hinv hmem
  have hstep : thread_step v c.heap ⟨hs, .assign_store h x, todo⟩
      = .ok (c.heap.set p (Cell.live ⟨o.count_m, x⟩), ⟨hs, .idle, todo⟩) := by
    simp only [thread_step, object_m_ok (s := ⟨c.heap, hs⟩) hh,
      deref_ok (s := ⟨c.heap, hs⟩) hp, put]
  refine good_of_ok _ _ hstep ?_
  refine cinv_step hinv _ _ trivial ?_
  exact ginv_data hinv.2 hp x (owners_same hi _ _ (fun _ => rfl))
    (deleters_same hi _ _ (fun _ => rfl))

theorem good_assign_new {T : Type} (v : Variant) {c : Config T} {i : Nat}
    {hs : List (Option Nat)} {h : Nat} {x : T} {todo : List (Op T)}
    (hi : c.threads[i]? = some ⟨hs, .assign_new h x, todo⟩) (hinv : CInv c) :
    GoodStep v c i ⟨hs, .assign_new h x, todo⟩ := by
  obtain ⟨p, hh⟩ : ∃ p, hs[h]? = some (some p) := hinv.1 _ (List.getElem?_mem hi)
  refine good_of_ok (c.heap ++ [Cell.live ⟨c_int.one, x⟩])
    ⟨hs, .assign_dec h c.heap.length, todo⟩ rfl ?_
  refine cinv_step hinv _ _ ⟨p, hh⟩ ?_
  refine ginv_alloc hinv.2 x (owners_add hi _ _ ?_) (deleters_same hi _ _ (fun _ => rfl))
  intro q
  show (c.heap.length :: live_ptrs hs).count q = (live_ptrs hs).count q + _
  rw [List.count_cons]
  by_cases hq : q = c.heap.length
  · subst hq; simp
  · have : ¬ c.heap.length = q := fun e => hq e.symm
    simp [hq, this]

theorem good_assign_bind {T : Type} (v : Variant) {c : Config T} {i : Nat}
    {hs : List (Option Nat)} {h tmp : Nat} {todo : List (Op T)}
    (hi : c.threads[i]? = some ⟨hs, .assign_bind h tmp, todo⟩) (hinv : CInv c) :
    GoodStep v c i ⟨hs, .assign_bind h tmp, todo⟩ := by
  refine good_of_ok c.heap ⟨hs.set h (some tmp), .idle, todo⟩ rfl ?_
  exact cinv_frame hi hinv _ trivial (fun _ => rfl) (fun _ => rfl)

theorem good_assign_delete {T : Type} (v : Variant) {c : Config T} {i : Nat}
    {hs : List (Option Nat)} {h tmp : Nat} {todo : List (Op T)}
    (hi : c.threads[i]? = some ⟨hs, .assign_delete h tmp, todo⟩) (hinv : CInv c) :
    GoodStep v c i ⟨hs, .assign_delete h tmp, todo⟩ := by
  obtain ⟨p, hh⟩ : ∃ p, hs[h]? = some (some p) := hinv.1 _ (List.getElem?_mem hi)
  have hmem : p ∈ (⟨hs, .assign_delete h tmp, todo⟩ : Thread T).deleting := by
    show p ∈ (hs[h]?.getD none).toList
    rw [hh]; simp
  have hpos := deleters_pos_of_deleting hi hmem
  obtain ⟨o, hp⟩ := live_of_thread_deleting hi hinv hmem
  have hstep : thread_step v c.heap ⟨hs, .assign_delete h tmp, todo⟩
      = .ok (c.heap.set p Cell.freed, ⟨hs, .assign_bind h tmp, todo⟩) := by
    simp only [thread_step, object_m_ok (s := ⟨c.heap, hs⟩) hh, delete_object,
      deref_ok (s := ⟨c.heap, hs⟩) hp]
  refine good_of_ok _ _ hstep ?_
  refine cinv_step hinv _ _ ⟨p, hh⟩ ?_
  refine ginv_free hinv.2 hpos (owners_same hi _ _ (fun _ => rfl))
    (deleters_sub hi _ _ ?_)
  intro q
  show 0 + _ = ((hs[h]?.getD none).toList).count q
  rw [deleting_count_of_handle hh, Nat.zero_add]

theorem owned_assign_dec {hs : List (Option Nat)} {h p : Nat} (hh : hs[h]? = some (some p))
    (tmp q : Nat) :
    (live_ptrs (hs.set h (some tmp))).count q + (if q = p then 1 else 0)
      = (tmp :: live_ptrs hs).count q := by
  rw [count_live_set_some hh, List.count_cons]
  by_cases hq : q = tmp
  · subst hq; simp
  · have : ¬ tmp = q := fun e => hq e.symm
    simp [hq, this]

theorem good_assign_dec {T : Type} (v : Variant) {c : Config T} {i : Nat}
    {hs : List (Option Nat)} {h tmp : Nat} {todo : List (Op T)}
    (hi : c.threads[i]? = some ⟨hs, .assign_dec h tmp, todo⟩) (hinv : CInv c)
    (hb : c.owned_total < 4294967296) :
    GoodStep v c i ⟨hs, .assign_dec h tmp, todo⟩ := by
  obtain ⟨p, hh⟩ : ∃ p, hs[h]? = some (some p) := hinv.1 _ (List.getElem?_mem hi)
  have hmem : p ∈ (⟨hs, .assign_dec h tmp, todo⟩ : Thread T).owned :=
    List.mem_cons_of_mem _ (mem_live_ptrs_of_handle hh)
  have hpos := owners_pos_of_owned hi hmem
  obtain ⟨o, hp⟩ := live_of_thread_owned hi hinv hmem
  have hdec := pre_dec_eq (s := ⟨c.heap, hs⟩) hp
  have hbind : thread_step v c.heap ⟨hs, .assign_dec h tmp, todo⟩
      = .ok (c.heap.set p (Cell.live ⟨o.count_m.pred, o.data_m⟩),
          ⟨hs, .assign_bind h tmp, todo⟩) →
      GoodStep v c i ⟨hs, .assign_dec h tmp, todo⟩ := by
    intro hstep
    refine good_of_ok _ _ hstep ?_
    refine cinv_step hinv _ _ ⟨p, hh⟩ ?_
    exact ginv_dec hinv.2 hp hpos (owners_sub hi _ _ (owned_assign_dec hh tmp))
      (deleters_same hi _ _ (fun _ => rfl))
  cases v with
  | bad =>
    apply hbind
    simp only [thread_step, object_m_ok (s := ⟨c.heap, hs⟩) hh, hdec]
  | correct =>
    by_cases hz : o.count_m.pred.val = 0
    · have hstep : thread_step .correct c.heap ⟨hs, .assign_dec h tmp, todo⟩
          = .ok (c.heap.set p (Cell.live ⟨o.count_m.pred, o.data_m⟩),
              ⟨hs, .assign_delete h tmp, todo⟩) := by
        simp only [thread_step, object_m_ok (s := ⟨c.heap, hs⟩) hh, hdec, if_pos hz]
      refine good_of_ok _ _ hstep ?_
      refine cinv_step hinv _ _ ⟨p, hh⟩ ?_
      refine ginv_dec_zero hinv.2 hp hpos
        (Nat.lt_of_le_of_lt (owners_le_total c p) hb) hz
        (owners_sub hi _ _ (owned_assign_dec hh tmp)) (deleters_add hi _ _ ?_)
      intro q
      show ((hs[h]?.getD none).toList).count q = 0 + _
      rw [deleting_count_of_handle hh, Nat.zero_add]
    · apply hbind
      simp only [thread_step, object_m_ok (s := ⟨c.heap, hs⟩) hh, hdec, if_neg hz]

theorem good_step {T : Type} (v : Variant) {c : Config T} {i : Nat} {t : Thread T}
    (hi : c.threads[i]? = some t) (hinv : CInv c) (hb : c.owned_total < 4294967296) :
    GoodStep v c i t := by
  obtain ⟨hs, pc, todo⟩ := t
  cases pc with
  | idle =>
    cases todo with
    | nil => exact good_done v hi hinv
    | cons op rest =>
      cases op with
      | construct x => exact good_construct v hi hinv
      | copy src => exact good_copy_start v hi hinv
      | destroy h => exact good_destroy_start v hi hinv hb
      | assign h x => exact good_assign_start v hi hinv
  | copy_inc => exact good_copy_inc v hi hinv
  | dtor_delete h => exact good_dtor_delete v hi hinv
  | assign_store h x => exact good_assign_store v hi hinv
  | assign_new h x => exact good_assign_new v hi hinv
  | assign_dec h tmp => exact good_assign_dec v hi hinv hb
  | assign_delete h tmp => exact good_assign_delete v hi hinv
  | assign_bind h tmp => exact good_assign_bind v hi hinv

theorem config_step_none {T : Type} (v : Variant) {i : Nat} {c : Config T}
    (hi : c.threads[i]? = none) : Config.step v i c = .ok c := by
  simp only [Config.step, hi]

theorem config_step_error {T : Type} (v : Variant) {i : Nat} {c : Config T} {t : Thread T}
    {e : Err} (hi : c.threads[i]? = some t) (hs : thread_step v c.heap t = .error e) :
    Config.step v i c = .error e := by
  simp only [Config.step, hi, hs]

theorem config_step_ok {T : Type} (v : Variant) {i : Nat} {c : Config T} {t : Thread T}
    {heap1 : List (Cell T)} {t1 : Thread T} (hi : c.threads[i]? = some t)
    (hs : thread_step v c.heap t = .ok (heap1, t1)) :
    Config.step v i c = .ok ⟨heap1, c.threads.set i t1⟩ := by
  simp only [Config.step, hi, hs]

theorem config_step_inv {T : Type} (v : Variant) (i : Nat) {c : Config T}
    (hinv : CInv c) (hb : c.owned_total < 4294967296) :
    (∀ e, Config.step v i c = .error e → e = .dead_handle) ∧
    (∀ c1, Config.step v i c = .ok c1 → CInv c1) := by
  cases hi : c.threads[i]? with
  | none =>
    rw [config_step_none v hi]
    refine ⟨fun e he => ?_, fun c1 h1 => ?_⟩
    · cases he
    · cases h1; exact hinv
  | some t =>
    obtain ⟨herr, hok⟩ := good_step v hi hinv hb
    cases hs : thread_step v c.heap t with
    | error e =>
      rw [config_step_error v hi hs]
      refine ⟨fun e1 he1 => ?_, fun c1 h1 => ?_⟩
      · cases he1
        exact herr e hs
      · cases h1
    | ok r =>
      obtain ⟨heap1, t1⟩ := r
      rw [config_step_ok v hi hs]
      refine ⟨fun e he => ?_, fun c1 h1 => ?_⟩
      · cases he
      · cases h1
        exact hok heap1 t1 hs

theorem exec_inv {T : Type} (v : Variant) (sched : List Nat) {c : Config T}
    (hinv : CInv c) (hb : ∀ d ∈ visited v sched c, d.owned_total < 4294967296) :
    (∀ e, exec v sched c = .error e → e = .dead_handle) ∧
    (∀ c1, exec v sched c = .ok c1 → CInv c1) := by
  induction sched generalizing c with
  | nil =>
    refine ⟨fun e he => ?_, fun c1 h1 => ?_⟩
    · cases he
    · cases h1; exact hinv
  | cons i rest ih =>
    have hbc : c.owned_total < 4294967296 := by
      apply hb
      unfold visited
      split <;> simp
    obtain ⟨herr, hok⟩ := config_step_inv v i hinv hbc
    cases hs : Config.step v i c with
    | error e =>
      simp only [exec, hs]
      refine ⟨fun e1 he1 => ?_, fun c1 h1 => ?_⟩
      · cases he1
        exact herr e hs
      · cases h1
    | ok c2 =>
      simp only [exec, hs]
      apply ih (hok c2 hs)
      intro d hd
      apply hb
      simp only [visited, hs]
      exact List.mem_cons_of_mem _ hd

/-! ## Interleavings: the start and the end -/

theorem start_owners {T : Type} (x : T) (progs : List (Nat × List (Op T))) (p : Nat) :
    (start x progs).owners p = if p = 0 then (progs.map (·.1)).sum else 0 := by
  unfold Config.owners start
  induction progs with
  | nil => simp
  | cons pr rest ih =>
    simp only [List.map_cons, List.sum_cons] at ih ⊢
    rw [ih]
    have : (Thread.owned (⟨List.replicate pr.1 (some 0), Pc.idle, pr.2⟩ : Thread T)).count p
        = if p = 0 then pr.1 else 0 := by
      show (live_ptrs (List.replicate pr.1 (some 0))).count p = _
      rw [count_live_ptrs, List.count_replicate]
      by_cases hp : p = 0
      · subst hp; simp
      · have : ¬ (0 : Nat) = p := fun e => hp e.symm
        simp [hp, this]
    rw [this]
    by_cases hp : p = 0 <;> simp [hp]

theorem start_deleters {T : Type} (x : T) (progs : List (Nat × List (Op T))) (p : Nat) :
    (start x progs).deleters p = 0 := by
  unfold Config.deleters start
  induction progs with
  | nil => simp
  | cons pr rest ih =>
    simp only [List.map_cons, List.sum_cons] at ih ⊢
    rw [ih]
    rfl

theorem start_inv {T : Type} (x : T) (progs : List (Nat × List (Op T))) :
    CInv (start x progs) := by
  refine ⟨?_, ?_, ?_, ?_, ?_⟩
  · intro t ht
    simp only [start, List.mem_map] at ht
    obtain ⟨pr, _, rfl⟩ := ht
    trivial
  · intro p hp
    rw [start_owners] at hp
    by_cases h0 : p = 0
    · subst h0; simp [start]
    · rw [if_neg h0] at hp; omega
  · intro p o hp
    rw [start_owners]
    have hlt := lt_length_of_getElem? hp
    have h0 : p = 0 := by simp [start] at hlt; exact hlt
    subst h0
    simp only [start, List.getElem?_cons_zero, Option.some.injEq, Cell.live.injEq] at hp
    subst hp
    simp [c_int.wrap]
  · intro p hp
    have hlt := lt_length_of_getElem? hp
    have h0 : p = 0 := by simp [start] at hlt; exact hlt
    subst h0
    simp [start] at hp
  · intro p hp
    rw [start_deleters] at hp
    omega

theorem finished_owners {T : Type} {c : Config T} (hf : c.finished) (p : Nat) :
    c.owners p = c.refs p := by
  unfold Config.owners Config.refs
  unfold Config.finished at hf
  generalize c.threads = ts at hf
  induction ts with
  | nil => rfl
  | cons t rest ih =>
    simp only [List.map_cons, List.sum_cons]
    rw [ih (fun t1 h1 => hf t1 (List.mem_cons_of_mem _ h1))]
    have h1 := (hf t (List.mem_cons_self _ _)).1
    have : t.owned = live_ptrs t.handles := by
      unfold Thread.owned
      rw [h1]
    rw [this, count_live_ptrs]

/-! ## Interleavings: the number of references stays within the budget -/

theorem length_live_concat (hs : List (Option Nat)) (p : Nat) :
    (live_ptrs (hs ++ [some p])).length = (live_ptrs hs).length + 1 := by
  rw [live_ptrs_concat, List.length_append, List.length_singleton]

theorem length_live_set_none (hs : List (Option Nat)) (h : Nat) :
    (live_ptrs (hs.set h none)).length ≤ (live_ptrs hs).length := by
  induction hs generalizing h with
  | nil => simp
  | cons a rest ih =>
    cases h with
    | zero => cases a <;> simp [live_ptrs]
    | succ j =>
      have := ih j
      cases a <;> simp [live_ptrs] at this ⊢ <;> omega

theorem length_live_set_some (hs : List (Option Nat)) (h t : Nat) :
    (live_ptrs (hs.set h (some t))).length ≤ (live_ptrs hs).length + 1 := by
  induction hs generalizing h with
  | nil => simp
  | cons a rest ih =>
    cases h with
    | zero => cases a <;> simp [live_ptrs]
    | succ j =>
      have := ih j
      cases a <;> simp [live_ptrs] at this ⊢ <;> omega

theorem length_live_dropLast (hs : List (Option Nat)) :
    (live_ptrs hs).length ≤ (live_ptrs hs.dropLast).length + 1 := by
  rcases List.eq_nil_or_concat hs with h | ⟨l, a, h⟩
  · subst h; simp [live_ptrs]
  · subst h
    rw [List.concat_eq_append, List.dropLast_concat]
    cases a with
    | none => simp [live_ptrs, List.filterMap_append]
    | some p => rw [length_live_concat]

theorem owned_total_le_budget {T : Type} (c : Config T) : c.owned_total ≤ c.budget :=
  sum_map_le_sum_map _ _ _ (fun t => by unfold Thread.budget; omega)

theorem pre_dec_handles {T : Type} {s s1 : State T} {p : Nat} {c : c_int}
    (h : pre_dec s p = .ok (s1, c)) : s1.handles = s.handles := by
  unfold pre_dec at h
  split at h
  · cases h
  · cases h; rfl

theorem pre_inc_handles {T : Type} {s s1 : State T} {p : Nat} {c : c_int}
    (h : pre_inc s p = .ok (s1, c)) : s1.handles = s.handles := by
  unfold pre_inc at h
  split at h
  · cases h
  · cases h; rfl

theorem delete_object_handles {T : Type} {s s1 : State T} {p : Nat}
    (h : delete_object s p = .ok s1) : s1.handles = s.handles := by
  unfold delete_object at h
  split at h
  · cases h
  · cases h; rfl

theorem thread_step_budget {T : Type} (v : Variant) (heap : List (Cell T)) (t : Thread T)
    {heap1 : List (Cell T)} {t1 : Thread T}
    (h : thread_step v heap t = .ok (heap1, t1)) : t1.budget ≤ t.budget := by
  obtain ⟨hs, pc, todo⟩ := t
  cases pc with
  | idle =>
    cases todo with
    | nil =>
      simp only [thread_step] at h
      cases h; exact Nat.le_refl _
    | cons op rest =>
      cases op with
      | construct x =>
        simp only [thread_step, ctor_eq] at h
        cases h
        simp only [Thread.budget, Thread.owned, length_live_concat, List.map_cons,
          List.sum_cons, Op.creates]
        omega
      | copy src =>
        cases ho : object_m (⟨heap, hs⟩ : State T) src with
        | error e => simp only [thread_step, ho] at h; cases h
        | ok p =>
          simp only [thread_step, ho] at h
          cases h
          simp only [Thread.budget, Thread.owned, List.dropLast_concat, List.map_cons,
            List.sum_cons, Op.creates]
          omega
      | destroy hd =>
        cases ho : object_m (⟨heap, hs⟩ : State T) hd with
        | error e => simp only [thread_step, ho] at h; cases h
        | ok p =>
          cases hp : pre_dec (⟨heap, hs⟩ : State T) p with
          | error e => simp only [thread_step, ho, hp] at h; cases h
          | ok r =>
            obtain ⟨s1, c⟩ := r
            have e1 : s1.handles = hs := pre_dec_handles hp
            have := length_live_set_none hs hd
            simp only [thread_step, ho, hp] at h
            split at h
            · cases h
              simp only [Thread.budget, Thread.owned, List.map_cons, List.sum_cons,
                Op.creates, e1]
              omega
            · cases h
              simp only [Thread.budget, Thread.owned, List.map_cons, List.sum_cons,
                Op.creates, bind_handle, e1]
              omega
      | assign ha x =>
        cases ho : object_m (⟨heap, hs⟩ : State T) ha with
        | error e => simp only [thread_step, ho] at h; cases h
        | ok p =>
          cases hp : deref (⟨heap, hs⟩ : State T) p with
          | error e => simp only [thread_step, ho, hp] at h; cases h
          | ok o =>
            simp only [thread_step, ho, hp] at h
            split at h
            · cases h
              simp only [Thread.budget, Thread.owned, List.map_cons, List.sum_cons,
                Op.creates]
              omega
            · cases h
              simp only [Thread.budget, Thread.owned, List.map_cons, List.sum_cons,
                Op.creates]
              omega
  | copy_inc =>
    cases ho : object_m (⟨heap, hs⟩ : State T) (hs.length - 1) with
    | error e => simp only [thread_step, ho] at h; cases h
    | ok p =>
      cases hp : pre_inc (⟨heap, hs⟩ : State T) p with
      | error e => simp only [thread_step, ho, hp] at h; cases h
      | ok r =>
        obtain ⟨s1, c⟩ := r
        have e1 : s1.handles = hs := pre_inc_handles hp
        have := length_live_dropLast hs
        simp only [thread_step, ho, hp] at h
        cases h
        simp only [Thread.budget, Thread.owned, e1]
        omega
  | dtor_delete hd =>
    cases ho : object_m (⟨heap, hs⟩ : State T) hd with
    | error e => simp only [thread_step, ho] at h; cases h
    | ok p =>
      cases hp : delete_object (⟨heap, hs⟩ : State T) p with
      | error e => simp only [thread_step, ho, hp] at h; cases h
      | ok s1 =>
        have e1 : s1.handles = hs := delete_object_handles hp
        simp only [thread_step, ho, hp] at h
        cases h
        simp only [Thread.budget, Thread.owned, bind_handle, e1, List.set_set]
        omega
  | assign_store ha x =>
    cases ho : object_m (⟨heap, hs⟩ : State T) ha with
    | error e => simp only [thread_step, ho] at h; cases h
    | ok p =>
      cases hp : deref (⟨heap, hs⟩ : State T) p with
      | error e => simp only [thread_step, ho, hp] at h; cases h
      | ok o =>
        simp only [thread_step, ho, hp] at h
        cases h
        exact Nat.le_refl _
  | assign_new ha x =>
    simp only [thread_step, new_object] at h
    cases h
    simp only [Thread.budget, Thread.owned, List.length_cons]
    omega
  | assign_dec ha tmp =>
    cases ho : object_m (⟨heap, hs⟩ : State T) ha with
    | error e => simp only [thread_step, ho] at h; cases h
    | ok p =>
      cases hp : pre_dec (⟨heap, hs⟩ : State T) p with
      | error e => simp only [thread_step, ho, hp] at h; cases h
      | ok r =>
        obtain ⟨s1, c⟩ := r
        have e1 : s1.handles = hs := pre_dec_handles hp
        have := length_live_set_some hs ha tmp
        simp only [thread_step, ho, hp] at h
        cases v with
        | bad =>
          simp only at h
          cases h
          simp only [Thread.budget, Thread.owned, e1, List.length_cons]
          omega
        | correct =>
          simp only at h
          split at h
          · cases h
            simp only [Thread.budget, Thread.owned, e1, List.length_cons]
            omega
          · cases h
            simp only [Thread.budget, Thread.owned, e1, List.length_cons]
            omega
  | assign_delete ha tmp =>
    cases ho : object_m (⟨heap, hs⟩ : State T) ha with
    | error e => simp only [thread_step, ho] at h; cases h
    | ok p =>
      cases hp : delete_object (⟨heap, hs⟩ : State T) p with
      | error e => simp only [thread_step, ho, hp] at h; cases h
      | ok s1 =>
        have e1 : s1.handles = hs := delete_object_handles hp
        simp only [thread_step, ho, hp] at h
        cases h
        simp only [Thread.budget, Thread.owned, e1]
        omega
  | assign_bind ha tmp =>
    simp only [thread_step] at h
    cases h
    simp only [Thread.budget, Thread.owned, bind_handle, List.set_set]
    omega

theorem config_step_budget {T : Type} (v : Variant) (i : Nat) {c c1 : Config T}
    (h : Config.step v i c = .ok c1) : c1.budget ≤ c.budget := by
  cases hi : c.threads[i]? with
  | none =>
    rw [config_step_none v hi] at h
    cases h; exact Nat.le_refl _
  | some t =>
    cases hs : thread_step v c.heap t with
    | error e => rw [config_step_error v hi hs] at h; cases h
    | ok r =>
      obtain ⟨heap1, t1⟩ := r
      rw [config_step_ok v hi hs] at h
      cases h
      have h1 := thread_step_budget v c.heap t hs
      have h2 := sum_map_set Thread.budget t1 hi
      unfold Config.budget
      show ((c.threads.set i t1).map Thread.budget).sum ≤ _
      omega

theorem visited_budget {T : Type} (v : Variant) (sched : List Nat) (c : Config T) :
    ∀ d ∈ visited v sched c, d.budget ≤ c.budget := by
  induction sched generalizing c with
  | nil =>
    intro d hd
    simp only [visited, List.mem_singleton] at hd
    subst hd; exact Nat.le_refl _
  | cons i rest ih =>
    intro d hd
    cases hs : Config.step v i c with
    | error e =>
      simp only [visited, hs, List.mem_singleton] at hd
      subst hd; exact Nat.le_refl _
    | ok c1 =>
      simp only [visited, hs, List.mem_cons] at hd
      rcases hd with h | h
      · subst h; exact Nat.le_refl _
      · exact Nat.le_trans (ih c1 d h) (config_step_budget v i hs)

theorem exec_mem_visited {T : Type} (v : Variant) (sched : List Nat) {c c1 : Config T}
    (h : exec v sched c = .ok c1) : c1 ∈ visited v sched c := by
  induction sched generalizing c with
  | nil =>
    simp only [exec] at h
    cases h
    simp [visited]
  | cons i rest ih =>
    cases hs : Config.step v i c with
    | error e => simp only [exec, hs] at h; cases h
    | ok c2 =>
      simp only [exec, hs] at h
      simp only [visited, hs]
      exact List.mem_cons_of_mem _ (ih h)

/-- Safety below the wrap-around, for both classes: from a configuration that
satisfies the invariant and whose budget (the counted references held, plus
one for every constructor, copy constructor and assignment still to run) is
below 2^32, no schedule touches a payload that is not allocated, and the
invariant holds in the configuration reached. -/
theorem exec_safe {T : Type} (v : Variant) (sched : List Nat) {c : Config T}
    (hinv : CInv c) (hb : c.budget < 4294967296) :
    (∀ e, exec v sched c = .error e → e = .dead_handle) ∧
    (∀ c1, exec v sched c = .ok c1 → CInv c1) :=
  exec_inv v sched hinv (fun d hd =>
    Nat.lt_of_le_of_lt
      (Nat.le_trans (owned_total_le_budget d) (visited_budget v sched c d hd)) hb)

theorem count_eq_owners {T : Type} {c : Config T} (hinv : CInv c)
    (hb : c.owned_total < 2147483648) {p : Nat} {o : object_t T}
    (hp : c.heap[p]? = some (Cell.live o)) : o.count_m.val = c.owners p := by
  have h1 := hinv.2.2.1 p o hp
  have h2 := owners_le_total c p
  rw [h1]
  exact wrap32_of_range _ (by omega) (by omega)

/-! ## Interleavings: a schedule that makes the counter wrap around -/

theorem exec_append {T : Type} (v : Variant) (s1 s2 : List Nat) (c : Config T) :
    exec v (s1 ++ s2) c =
      match exec v s1 c with
      | .error e => .error e
      | .ok c1 => exec v s2 c1 := by
  induction s1 generalizing c with
  | nil => simp [exec]
  | cons i rest ih =>
    simp only [List.cons_append, exec]
    cases Config.step v i c with
    | error e => simp
    | ok c1 => simpa using ih c1

theorem exec_append_of_ok {T : Type} (v : Variant) {s1 : List Nat} {c c1 : Config T}
    (h : exec v s1 c = .ok c1) (s2 : List Nat) : exec v (s1 ++ s2) c = exec v s2 c1 := by
  rw [exec_append, h]

theorem exec_cons_of_ok {T : Type} (v : Variant) {i : Nat} {c c1 : Config T}
    (h : Config.step v i c = .ok c1) (rest : List Nat) :
    exec v (i :: rest) c = exec v rest c1 := by
  simp only [exec, h]

theorem config_step_head {T : Type} (v : Variant) {heap heap1 : List (Cell T)}
    {t t1 : Thread T} (others : List (Thread T))
    (hs : thread_step v heap t = .ok (heap1, t1)) :
    Config.step v 0 ⟨heap, t :: others⟩ = .ok ⟨heap1, t1 :: others⟩ := by
  simp only [Config.step, List.getElem?_cons_zero, hs, List.set_cons_zero]

theorem config_step_second {T : Type} (v : Variant) {heap heap1 : List (Cell T)}
    {t t1 : Thread T} (t0 : Thread T) (others : List (Thread T))
    (hs : thread_step v heap t = .ok (heap1, t1)) :
    Config.step v 1 ⟨heap, t0 :: t :: others⟩ = .ok ⟨heap1, t0 :: t1 :: others⟩ := by
  simp only [Config.step, List.getElem?_cons_succ, List.getElem?_cons_zero, hs,
    List.set_cons_succ, List.set_cons_zero]

theorem step_copy_first {T : Type} (v : Variant) (x : T) (N k : Nat) (hk : 0 < k)
    (todo : List (Op T)) (others : List (Thread T)) :
    exec v [0, 0] ⟨[Cell.live ⟨c_int.wrap N, x⟩],
        ⟨List.replicate k (some 0), .idle, Op.copy 0 :: todo⟩ :: others⟩
      = .ok ⟨[Cell.live ⟨c_int.wrap (N + 1 : Nat), x⟩],
          ⟨List.replicate (k + 1) (some 0), .idle, todo⟩ :: others⟩ := by
  have h0 : (List.replicate k (some 0))[0]? = some (some 0) :=
    List.getElem?_replicate_of_lt hk
  have h1 : (List.replicate (k + 1) (some 0))[(List.replicate (k + 1) (some 0)).length - 1]?
      = some (some 0) := by
    rw [List.length_replicate, Nat.add_sub_cancel]
    exact List.getElem?_replicate_of_lt (Nat.lt_succ_self k)
  have t1 : thread_step v [Cell.live ⟨c_int.wrap N, x⟩]
        ⟨List.replicate k (some 0), .idle, Op.copy 0 :: todo⟩
      = .ok ([Cell.live ⟨c_int.wrap N, x⟩],
          ⟨List.replicate (k + 1) (some 0), .copy_inc, todo⟩) := by
    simp only [thread_step, object_m_ok (s := ⟨_, _⟩) h0, List.replicate_succ']
  have t2 : thread_step v [Cell.live ⟨c_int.wrap N, x⟩]
        ⟨List.replicate (k + 1) (some 0), .copy_inc, todo⟩
      = .ok ([Cell.live ⟨c_int.wrap (N + 1 : Nat), x⟩],
          ⟨List.replicate (k + 1) (some 0), .idle, todo⟩) := by
    have hobj : object_m (⟨[Cell.live ⟨c_int.wrap N, x⟩], List.replicate (k + 1) (some 0)⟩ :
        State T) ((List.replicate (k + 1) (some 0)).length - 1) = .ok 0 := object_m_ok h1
    simp only [thread_step, hobj, pre_inc, deref, put,
      List.getElem?_cons_zero, List.set_cons_zero, wrap_succ]
  rw [exec_cons_of_ok v (config_step_head v others t1),
    exec_cons_of_ok v (config_step_head v others t2)]
  rfl

theorem exec_copies {T : Type} (v : Variant) (x : T) (rest : List (Op T))
    (others : List (Thread T)) (n N k : Nat) (hk : 0 < k) :
    exec v (List.replicate (2 * n) 0) ⟨[Cell.live ⟨c_int.wrap N, x⟩],
        ⟨List.replicate k (some 0), .idle, List.replicate n (Op.copy 0) ++ rest⟩ :: others⟩
      = .ok ⟨[Cell.live ⟨c_int.wrap (N + n : Nat), x⟩],
          ⟨List.replicate (k + n) (some 0), .idle, rest⟩ :: others⟩ := by
  induction n generalizing N k with
  | zero => rfl
  | succ n ih =>
    have e1 : List.replicate (2 * (n + 1)) 0 = [0, 0] ++ List.replicate (2 * n) 0 := by
      rw [show 2 * (n + 1) = 2 * n + 1 + 1 by omega, List.replicate_succ,
        List.replicate_succ]
      rfl
    have e0 : List.replicate (n + 1) (Op.copy (0 : Nat)) ++ rest
        = Op.copy 0 :: (List.replicate n (Op.copy 0) ++ rest) := rfl
    rw [e1, e0,
      exec_append_of_ok v (step_copy_first v x N k hk _ others), ih (N + 1) (k + 1) (by omega)]
    have e2 : N + 1 + n = N + (n + 1) := by omega
    have e3 : k + 1 + n = k + (n + 1) := by omega
    rw [e2, e3]

theorem exec_diverge_second {T : Type} (t0 : Thread T) (o : object_t T) (y : T)
    (h1 : o.count_m.val ≠ 1) :
    exec .correct [1, 1, 1, 1] ⟨[Cell.live o], [t0, ⟨[some 0], .idle, [Op.assign 0 y]⟩]⟩
      = .ok ⟨[Cell.live ⟨o.count_m.pred, o.data_m⟩, Cell.live ⟨c_int.one, y⟩],
          [t0, ⟨[some 1], .idle, []⟩]⟩ := by
  have hz : o.count_m.pred.val ≠ 0 := fun h0 => h1 ((c_int.pred_val_eq_zero _).mp h0)
  have a1 : thread_step .correct [Cell.live o] ⟨[some 0], .idle, [Op.assign 0 y]⟩
      = .ok ([Cell.live o], ⟨[some 0], .assign_new 0 y, []⟩) := by
    simp [thread_step, object_m, deref, h1]
  have a2 : thread_step .correct [Cell.live o] ⟨[some 0], .assign_new 0 y, []⟩
      = .ok ([Cell.live o, Cell.live ⟨c_int.one, y⟩], ⟨[some 0], .assign_dec 0 1, []⟩) := by
    simp [thread_step, new_object]
  have a3 : thread_step .correct [Cell.live o, Cell.live ⟨c_int.one, y⟩]
        ⟨[some 0], .assign_dec 0 1, []⟩
      = .ok ([Cell.live ⟨o.count_m.pred, o.data_m⟩, Cell.live ⟨c_int.one, y⟩],
          ⟨[some 0], .assign_bind 0 1, []⟩) := by
    simp [thread_step, object_m, pre_dec, deref, put, hz]
  have a4 : thread_step .correct
        [Cell.live ⟨o.count_m.pred, o.data_m⟩, Cell.live ⟨c_int.one, y⟩]
        ⟨[some 0], .assign_bind 0 1, []⟩
      = .ok ([Cell.live ⟨o.count_m.pred, o.data_m⟩, Cell.live ⟨c_int.one, y⟩],
          ⟨[some 1], .idle, []⟩) := by
    simp [thread_step, bind_handle]
  rw [exec_cons_of_ok _ (config_step_second _ t0 [] a1),
    exec_cons_of_ok _ (config_step_second _ t0 [] a2),
    exec_cons_of_ok _ (config_step_second _ t0 [] a3),
    exec_cons_of_ok _ (config_step_second _ t0 [] a4)]
  rfl

theorem exec_copies_then_diverge (x y : Int) (n : Nat)
    (h1 : (c_int.wrap (2 + n : Nat)).val ≠ 1) :
    exec .correct (List.replicate (2 * n) 0 ++ [1, 1, 1, 1])
        (start x [(1, List.replicate n (Op.copy 0)), (1, [Op.assign 0 y])])
      = .ok ⟨[Cell.live ⟨(c_int.wrap (2 + n : Nat)).pred, x⟩, Cell.live ⟨c_int.one, y⟩],
          [⟨List.replicate (1 + n) (some 0), .idle, []⟩, ⟨[some 1], .idle, []⟩]⟩ := by
  have hs : start x [(1, List.replicate n (Op.copy 0)), (1, [Op.assign 0 y])]
      = ⟨[Cell.live ⟨c_int.wrap (2 : Nat), x⟩],
          ⟨List.replicate 1 (some 0), .idle, List.replicate n (Op.copy 0) ++ []⟩ ::
            [⟨[some 0], .idle, [Op.assign 0 y]⟩]⟩ := by
    simp [start]
  rw [hs, exec_append_of_ok _ (exec_copies .correct x [] _ n 2 1 (by decide))]
  exact exec_diverge_second _ ⟨c_int.wrap (2 + n : Nat), x⟩ y h1

/-! ## A thread that runs alone executes the member functions -/

theorem exec_cons_of_error {T : Type} (v : Variant) {i : Nat} {c : Config T} {e : Err}
    (h : Config.step v i c = .error e) (rest : List Nat) :
    exec v (i :: rest) c = .error e := by
  simp only [exec, h]

theorem config_step_head_error {T : Type} (v : Variant) {heap : List (Cell T)}
    {t : Thread T} {e : Err} (others : List (Thread T))
    (hs : thread_step v heap t = .error e) :
    Config.step v 0 ⟨heap, t :: others⟩ = .error e := by
  simp only [Config.step, List.getElem?_cons_zero, hs]

theorem solo_construct {T : Type} (v : Variant) (x : T) (rest : List (Op T))
    (heap : List (Cell T)) (hs : List (Option Nat)) :
    exec v [0] ⟨heap, [⟨hs, .idle, Op.construct x :: rest⟩]⟩
      = .ok ⟨(correct_cow.ctor x ⟨heap, hs⟩).heap,
          [⟨(correct_cow.ctor x ⟨heap, hs⟩).handles, .idle, rest⟩]⟩ := by
  have a1 : thread_step v heap ⟨hs, .idle, Op.construct x :: rest⟩
      = .ok ((correct_cow.ctor x ⟨heap, hs⟩).heap,
          ⟨(correct_cow.ctor x ⟨heap, hs⟩).handles, .idle, rest⟩) := rfl
  rw [exec_cons_of_ok v (config_step_head v [] a1)]
  rfl

theorem solo_copy {T : Type} (v : Variant) (src : Nat) (rest : List (Op T))
    (heap : List (Cell T)) (hs : List (Option Nat)) :
    exec v [0, 0] ⟨heap, [⟨hs, .idle, Op.copy src :: rest⟩]⟩
      = match correct_cow.copy_ctor src ⟨heap, hs⟩ with
        | .error e => .error e
        | .ok s1 => .ok ⟨s1.heap, [⟨s1.handles, .idle, rest⟩]⟩ := by
  cases ho : object_m (⟨heap, hs⟩ : State T) src with
  | error e =>
    have a1 : thread_step v heap ⟨hs, .idle, Op.copy src :: rest⟩ = .error e := by
      simp only [thread_step, ho]
    rw [exec_cons_of_error v (config_step_head_error v [] a1)]
    simp only [correct_cow.copy_ctor, ho]
  | ok p =>
    have a1 : thread_step v heap ⟨hs, .idle, Op.copy src :: rest⟩
        = .ok (heap, ⟨hs ++ [some p], .copy_inc, rest⟩) := by
      simp only [thread_step, ho]
    have hlast : object_m (⟨heap, hs ++ [some p]⟩ : State T) ((hs ++ [some p]).length - 1)
        = .ok p := by
      apply object_m_ok
      simp
    rw [exec_cons_of_ok v (config_step_head v [] a1)]
    cases hi : pre_inc (⟨heap, hs ++ [some p]⟩ : State T) p with
    | error e =>
      have a2 : thread_step v heap ⟨hs ++ [some p], .copy_inc, rest⟩ = .error e := by
        simp only [thread_step, hlast, hi]
      rw [exec_cons_of_error v (config_step_head_error v [] a2)]
      simp only [correct_cow.copy_ctor, ho, hi]
    | ok r =>
      obtain ⟨s2, c⟩ := r
      have a2 : thread_step v heap ⟨hs ++ [some p], .copy_inc, rest⟩
          = .ok (s2.heap, ⟨s2.handles, .idle, rest⟩) := by
        simp only [thread_step, hlast, hi]
      rw [exec_cons_of_ok v (config_step_head v [] a2)]
      simp only [correct_cow.copy_ctor, ho, hi]
      rfl

theorem solo_destroy {T : Type} (v : Variant) (h : Nat) (rest : List (Op T))
    (heap : List (Cell T)) (hs : List (Option Nat)) :
    ∃ n, exec v (List.replicate n 0) ⟨heap, [⟨hs, .idle, Op.destroy h :: rest⟩]⟩
      = match correct_cow.dtor h ⟨heap, hs⟩ with
        | .error e => .error e
        | .ok s1 => .ok ⟨s1.heap, [⟨s1.handles, .idle, rest⟩]⟩ := by
  cases ho : object_m (⟨heap, hs⟩ : State T) h with
  | error e =>
    have a1 : thread_step v heap ⟨hs, .idle, Op.destroy h :: rest⟩ = .error e := by
      simp only [thread_step, ho]
    refine ⟨1, ?_⟩
    rw [List.replicate_one, exec_cons_of_error v (config_step_head_error v [] a1)]
    simp only [correct_cow.dtor, ho]
  | ok p =>
    cases hd : deref (⟨heap, hs⟩ : State T) p with
    | error e =>
      have a1 : thread_step v heap ⟨hs, .idle, Op.destroy h :: rest⟩ = .error e := by
        simp only [thread_step, ho, pre_dec, hd]
      refine ⟨1, ?_⟩
      rw [List.replicate_one, exec_cons_of_error v (config_step_head_error v [] a1)]
      simp only [correct_cow.dtor, ho, release, pre_dec, hd]
    | ok o =>
      have hp : heap[p]? = some (Cell.live o) := deref_eq_ok.mp hd
      have hlt : p < heap.length := lt_length_of_getElem? hp
      by_cases hz : o.count_m.pred.val = 0
      · have a1 : thread_step v heap ⟨hs, .idle, Op.destroy h :: rest⟩
            = .ok (heap.set p (Cell.live ⟨o.count_m.pred, o.data_m⟩),
                ⟨hs, .dtor_delete h, rest⟩) := by
          simp only [thread_step, ho, pre_dec, hd, put, hz, if_true]
        have ho2 : object_m (⟨heap.set p (Cell.live ⟨o.count_m.pred, o.data_m⟩), hs⟩ :
            State T) h = .ok p := ho
        have hd2 : deref (⟨heap.set p (Cell.live ⟨o.count_m.pred, o.data_m⟩), hs⟩ :
            State T) p = .ok ⟨o.count_m.pred, o.data_m⟩ := by
          apply deref_ok
          simp [hlt]
        have a2 : thread_step v (heap.set p (Cell.live ⟨o.count_m.pred, o.data_m⟩))
              ⟨hs, .dtor_delete h, rest⟩
            = .ok (heap.set p Cell.freed, ⟨hs.set h none, .idle, rest⟩) := by
          simp only [thread_step, ho2, delete_object, hd2, bind_handle, List.set_set]
        refine ⟨2, ?_⟩
        rw [show List.replicate 2 0 = [0, 0] from rfl,
          exec_cons_of_ok v (config_step_head v [] a1),
          exec_cons_of_ok v (config_step_head v [] a2)]
        simp only [correct_cow.dtor, ho, release, pre_dec, hd, put, hz, if_true,
          delete_object, hd2, bind_handle, List.set_set]
        rfl
      · have a1 : thread_step v heap ⟨hs, .idle, Op.destroy h :: rest⟩
            = .ok (heap.set p (Cell.live ⟨o.count_m.pred, o.data_m⟩),
                ⟨hs.set h none, .idle, rest⟩) := by
          simp only [thread_step, ho, pre_dec, hd, put, hz, if_false, bind_handle]
        refine ⟨1, ?_⟩
        rw [List.replicate_one, exec_cons_of_ok v (config_step_head v [] a1)]
        simp only [correct_cow.dtor, ho, release, pre_dec, hd, put, hz, if_false,
          bind_handle]
        rfl

theorem solo_assign {T : Type} (v : Variant) (h : Nat) (x : T) (rest : List (Op T))
    (heap : List (Cell T)) (hs : List (Option Nat)) :
    ∃ n, exec v (List.replicate n 0) ⟨heap, [⟨hs, .idle, Op.assign h x :: rest⟩]⟩
      = match correct_cow.assign h x ⟨heap, hs⟩ with
        | .error e => .error e
        | .ok s1 => .ok ⟨s1.heap, [⟨s1.handles, .idle, rest⟩]⟩ := by
  cases ho : object_m (⟨heap, hs⟩ : State T) h with
  | error e =>
    have a1 : thread_step v heap ⟨hs, .idle, Op.assign h x :: rest⟩ = .error e := by
      simp only [thread_step, ho]
    refine ⟨1, ?_⟩
    rw [List.replicate_one, exec_cons_of_error v (config_step_head_error v [] a1)]
    simp only [correct_cow.assign, ho]
  | ok p =>
    cases hd : deref (⟨heap, hs⟩ : State T) p with
    | error e =>
      have a1 : thread_step v heap ⟨hs, .idle, Op.assign h x :: rest⟩ = .error e := by
        simp only [thread_step, ho, hd]
      refine ⟨1, ?_⟩
      rw [List.replicate_one, exec_cons_of_error v (config_step_head_error v [] a1)]
      simp only [correct_cow.assign, ho, hd]
    | ok o =>
      have hp : heap[p]? = some (Cell.live o) := deref_eq_ok.mp hd
      have hlt : p < heap.length := lt_length_of_getElem? hp
      by_cases h1 : o.count_m.val = 1
      · have a1 : thread_step v heap ⟨hs, .idle, Op.assign h x :: rest⟩
            = .ok (heap, ⟨hs, .assign_store h x, rest⟩) := by
          simp only [thread_step, ho, hd, h1, if_true]
        have a2 : thread_step v heap ⟨hs, .assign_store h x, rest⟩
            = .ok (heap.set p (Cell.live ⟨o.count_m, x⟩), ⟨hs, .idle, rest⟩) := by
          simp only [thread_step, ho, hd, put]
        refine ⟨2, ?_⟩
        rw [show List.replicate 2 0 = [0, 0] from rfl,
          exec_cons_of_ok v (config_step_head v [] a1),
          exec_cons_of_ok v (config_step_head v [] a2)]
        simp only [correct_cow.assign, ho, hd, h1, if_true, put]
        rfl
      · have hz : o.count_m.pred.val ≠ 0 := fun h0 => h1 ((c_int.pred_val_eq_zero _).mp h0)
        have a1 : thread_step v heap ⟨hs, .idle, Op.assign h x :: rest⟩
            = .ok (heap, ⟨hs, .assign_new h x, rest⟩) := by
          simp only [thread_step, ho, hd, h1, if_false]
        have a2 : thread_step v heap ⟨hs, .assign_new h x, rest⟩
            = .ok (heap ++ [Cell.live ⟨c_int.one, x⟩],
                ⟨hs, .assign_dec h heap.length, rest⟩) := by
          simp only [thread_step, new_object]
        have ho2 : object_m (⟨heap ++ [Cell.live ⟨c_int.one, x⟩], hs⟩ : State T) h = .ok p :=
          ho
        have hd2 : deref (⟨heap ++ [Cell.live ⟨c_int.one, x⟩], hs⟩ : State T) p = .ok o := by
          apply deref_ok
          show (heap ++ [Cell.live ⟨c_int.one, x⟩])[p]? = some (Cell.live o)
          rw [List.getElem?_append_left hlt, hp]
        have a3 : thread_step v (heap ++ [Cell.live ⟨c_int.one, x⟩])
              ⟨hs, .assign_dec h heap.length, rest⟩
            = .ok ((heap ++ [Cell.live ⟨c_int.one, x⟩]).set p
                  (Cell.live ⟨o.count_m.pred, o.data_m⟩),
                ⟨hs, .assign_bind h heap.length, rest⟩) := by
          cases v <;> simp only [thread_step, ho2, pre_dec, hd2, put, hz, if_false]
        have a4 : thread_step v ((heap ++ [Cell.live ⟨c_int.one, x⟩]).set p
                  (Cell.live ⟨o.count_m.pred, o.data_m⟩))
              ⟨hs, .assign_bind h heap.length, rest⟩
            = .ok ((heap ++ [Cell.live ⟨c_int.one, x⟩]).set p
                  (Cell.live ⟨o.count_m.pred, o.data_m⟩),
                ⟨hs.set h (some heap.length), .idle, rest⟩) := by
          simp only [thread_step, bind_handle]
        refine ⟨4, ?_⟩
        rw [show List.replicate 4 0 = [0, 0, 0, 0] from rfl,
          exec_cons_of_ok v (config_step_head v [] a1),
          exec_cons_of_ok v (config_step_head v [] a2),
          exec_cons_of_ok v (config_step_head v [] a3),
          exec_cons_of_ok v (config_step_head v [] a4)]
        simp only [correct_cow.assign, ho, hd, h1, if_false, new_object, release, pre_dec,
          hd2, put, hz, bind_handle]
        rfl

theorem solo_step {T : Type} (v : Variant) (op : Op T) (rest : List (Op T))
    (heap : List (Cell T)) (hs : List (Option Nat)) :
    ∃ n, exec v (List.replicate n 0) ⟨heap, [⟨hs, .idle, op :: rest⟩]⟩
      = match step op ⟨heap, hs⟩ with
        | .error e => .error e
        | .ok s1 => .ok ⟨s1.heap, [⟨s1.handles, .idle, rest⟩]⟩ := by
  cases op with
  | construct x => exact ⟨1, solo_construct v x rest heap hs⟩
  | copy src => exact ⟨2, solo_copy v src rest heap hs⟩
  | destroy h => exact solo_destroy v h rest heap hs
  | assign h x => exact solo_assign v h x rest heap hs

/-- A thread that runs alone executes its member functions one after the
other: some number of its atomic steps gives the result of `run`, for both
classes. -/
theorem solo_run {T : Type} (v : Variant) (ops : List (Op T))
    (heap : List (Cell T)) (hs : List (Option Nat)) :
    ∃ n, exec v (List.replicate n 0) ⟨heap, [⟨hs, .idle, ops⟩]⟩
      = match run ops ⟨heap, hs⟩ with
        | .error e => .error e
        | .ok s1 => .ok ⟨s1.heap, [⟨s1.handles, .idle, []⟩]⟩ := by
  induction ops generalizing heap hs with
  | nil => exact ⟨0, rfl⟩
  | cons op rest ih =>
    obtain ⟨n, hn⟩ := solo_step v op rest heap hs
    cases hst : step op ⟨heap, hs⟩ with
    | error e =>
      refine ⟨n, ?_⟩
      rw [hn]
      simp only [run, hst]
    | ok s1 =>
      obtain ⟨m, hm⟩ := ih s1.heap s1.handles
      refine ⟨n + m, ?_⟩
      rw [hst] at hn
      rw [List.replicate_add, exec_append_of_ok v hn, hm]
      simp only [run, hst]

/-! ## Interleavings: an assignment racing with a destructor -/

theorem start_assign_destroy {T : Type} (x y : T) :
    start x [(1, [Op.assign 0 y]), (1, [Op.destroy 0])]
      = ⟨[Cell.live ⟨c_int.wrap 2, x⟩],
          [⟨[some 0], .idle, [Op.assign 0 y]⟩, ⟨[some 0], .idle, [Op.destroy 0]⟩]⟩ := by
  simp [start]

theorem exec_race_prefix {T : Type} (v : Variant) (o : object_t T) (y : T)
    (h1 : o.count_m.val ≠ 1) (h2 : o.count_m.pred.val ≠ 0) (rest : List Nat) :
    exec v (0 :: 1 :: 0 :: rest) ⟨[Cell.live o],
        [⟨[some 0], .idle, [Op.assign 0 y]⟩, ⟨[some 0], .idle, [Op.destroy 0]⟩]⟩
      = exec v rest ⟨[Cell.live ⟨o.count_m.pred, o.data_m⟩, Cell.live ⟨c_int.one, y⟩],
          [⟨[some 0], .assign_dec 0 1, []⟩, ⟨[none], .idle, []⟩]⟩ := by
  have a1 : thread_step v [Cell.live o] ⟨[some 0], .idle, [Op.assign 0 y]⟩
      = .ok ([Cell.live o], ⟨[some 0], .assign_new 0 y, []⟩) := by
    simp [thread_step, object_m, deref, h1]
  have a2 : thread_step v [Cell.live o] ⟨[some 0], .idle, [Op.destroy 0]⟩
      = .ok ([Cell.live ⟨o.count_m.pred, o.data_m⟩], ⟨[none], .idle, []⟩) := by
    simp [thread_step, object_m, pre_dec, deref, put, bind_handle, h2]
  have a3 : thread_step v [Cell.live ⟨o.count_m.pred, o.data_m⟩]
        ⟨[some 0], .assign_new 0 y, []⟩
      = .ok ([Cell.live ⟨o.count_m.pred, o.data_m⟩, Cell.live ⟨c_int.one, y⟩],
          ⟨[some 0], .assign_dec 0 1, []⟩) := by
    simp [thread_step, new_object]
  rw [exec_cons_of_ok v (config_step_head v _ a1),
    exec_cons_of_ok v (config_step_second v _ [] a2),
    exec_cons_of_ok v (config_step_head v _ a3)]

theorem exec_bad_leak {T : Type} (x y : T) :
    exec .bad [0, 1, 0, 0, 0] (start x [(1, [Op.assign 0 y]), (1, [Op.destroy 0])])
      = .ok ⟨[Cell.live ⟨(c_int.wrap 2).pred.pred, x⟩, Cell.live ⟨c_int.one, y⟩],
          [⟨[some 1], .idle, []⟩, ⟨[none], .idle, []⟩]⟩ := by
  have a4 : thread_step .bad
        [Cell.live ⟨(c_int.wrap 2).pred, x⟩, Cell.live ⟨c_int.one, y⟩]
        ⟨[some 0], .assign_dec 0 1, []⟩
      = .ok ([Cell.live ⟨(c_int.wrap 2).pred.pred, x⟩, Cell.live ⟨c_int.one, y⟩],
          ⟨[some 0], .assign_bind 0 1, []⟩) := by
    simp [thread_step, object_m, pre_dec, deref, put]
  have a5 : thread_step .bad
        [Cell.live ⟨(c_int.wrap 2).pred.pred, x⟩, Cell.live ⟨c_int.one, y⟩]
        ⟨[some 0], .assign_bind 0 1, []⟩
      = .ok ([Cell.live ⟨(c_int.wrap 2).pred.pred, x⟩, Cell.live ⟨c_int.one, y⟩],
          ⟨[some 1], .idle, []⟩) := by
    simp [thread_step, bind_handle]
  rw [start_assign_destroy,
    exec_race_prefix .bad ⟨c_int.wrap 2, x⟩ y
      (by decide : (c_int.wrap 2).val ≠ 1) (by decide : (c_int.wrap 2).pred.val ≠ 0),
    exec_cons_of_ok _ (config_step_head _ _ a4),
    exec_cons_of_ok _ (config_step_head _ _ a5)]
  rfl

theorem exec_correct_free {T : Type} (x y : T) :
    exec .correct [0, 1, 0, 0, 0, 0] (start x [(1, [Op.assign 0 y]), (1, [Op.destroy 0])])
      = .ok ⟨[Cell.freed, Cell.live ⟨c_int.one, y⟩],
          [⟨[some 1], .idle, []⟩, ⟨[none], .idle, []⟩]⟩ := by
  have hz : (c_int.wrap 2).pred.pred.val = 0 := by decide
  have a4 : thread_step .correct
        [Cell.live ⟨(c_int.wrap 2).pred, x⟩, Cell.live ⟨c_int.one, y⟩]
        ⟨[some 0], .assign_dec 0 1, []⟩
      = .ok ([Cell.live ⟨(c_int.wrap 2).pred.pred, x⟩, Cell.live ⟨c_int.one, y⟩],
          ⟨[some 0], .assign_delete 0 1, []⟩) := by
    simp [thread_step, object_m, pre_dec, deref, put, hz]
  have a5 : thread_step .correct
        [Cell.live ⟨(c_int.wrap 2).pred.pred, x⟩, Cell.live ⟨c_int.one, y⟩]
        ⟨[some 0], .assign_delete 0 1, []⟩
      = .ok ([Cell.freed, Cell.live ⟨c_int.one, y⟩], ⟨[some 0], .assign_bind 0 1, []⟩) := by
    simp [thread_step, object_m, delete_object, deref]
  have a6 : thread_step .correct [Cell.freed, Cell.live ⟨c_int.one, y⟩]
        ⟨[some 0], .assign_bind 0 1, []⟩
      = .ok ([Cell.freed, Cell.live ⟨c_int.one, y⟩], ⟨[some 1], .idle, []⟩) := by
    simp [thread_step, bind_handle]
  rw [start_assign_destroy,
    exec_race_prefix .correct ⟨c_int.wrap 2, x⟩ y
      (by decide : (c_int.wrap 2).val ≠ 1) (by decide : (c_int.wrap 2).pred.val ≠ 0),
    exec_cons_of_ok _ (config_step_head _ _ a4),
    exec_cons_of_ok _ (config_step_head _ _ a5),
    exec_cons_of_ok _ (config_step_head _ _ a6)]
  rfl

theorem finished_pair {T : Type} (heap : List (Cell T)) (h0 h1 : List (Option Nat)) :
    Config.finished (⟨heap, [⟨h0, .idle, []⟩, ⟨h1, .idle, []⟩]⟩ : Config T) := by
  intro t ht
  simp only [List.mem_cons, List.mem_singleton, List.not_mem_nil, or_false] at ht
  rcases ht with h | h <;> subst h <;> exact ⟨rfl, rfl⟩

/-- C12 (as amended). Race safety of `correct_cow`: threads that each own
some of the handles of one payload run any operations on their own handles.
Along every schedule on which fewer than 2^31 counted references exist at any
time, no step touches a payload that is not allocated (no access after a
delete, no second delete); in the configuration reached the count of every
allocated payload is the number of counted references to it, and once all
threads have finished it is the number of live handles pointing at it. -/
theorem C12_race_safety {T : Type} (x : T) (progs : List (Nat × List (Op T)))
    (sched : List Nat)
    (hb : ∀ d ∈ visited .correct sched (start x progs), d.owned_total < 2147483648) :
    (∀ e, exec .correct sched (start x progs) = .error e → e = .dead_handle) ∧
    (∀ c1, exec .correct sched (start x progs) = .ok c1 →
      (∀ (p : Nat) (o : object_t T), c1.heap[p]? = some (Cell.live o) →
        o.count_m.val = c1.owners p) ∧
      (c1.finished → ∀ (p : Nat) (o : object_t T), c1.heap[p]? = some (Cell.live o) →
        o.count_m.val = c1.refs p)) := by
  have hinv := exec_inv .correct sched (start_inv x progs)
    (fun d hd => Nat.lt_trans (hb d hd) (by decide))
  refine ⟨hinv.1, fun c1 h1 => ?_⟩
  have hc1 := hinv.2 c1 h1
  have hb1 := hb c1 (exec_mem_visited .correct sched h1)
  refine ⟨fun p o hp => count_eq_owners hc1 hb1 hp, fun hfin p o hp => ?_⟩
  rw [← finished_owners hfin]
  exact count_eq_owners hc1 hb1 hp

/-- Witness for C12: one thread assigns to its handle while another destroys
its handle of the same payload. -/
theorem C12_race_safety_witness :
    (∀ d ∈ visited .correct [0, 1, 0, 0, 0, 0]
        (start (10 : Int) [(1, [Op.assign 0 20]), (1, [Op.destroy 0])]),
      d.owned_total < 2147483648) ∧
    exec .correct [0, 1, 0, 0, 0, 0]
        (start (10 : Int) [(1, [Op.assign 0 20]), (1, [Op.destroy 0])])
      = .ok ⟨[Cell.freed, Cell.live ⟨c_int.one, 20⟩],
             [⟨[some 1], .idle, []⟩, ⟨[none], .idle, []⟩]⟩ ∧
    (∀ e, exec .correct [0, 1, 0, 0, 0, 0]
        (start (10 : Int) [(1, [Op.assign 0 20]), (1, [Op.destroy 0])]) = .error e →
      e = .dead_handle) ∧
    (∀ c1, exec .correct [0, 1, 0, 0, 0, 0]
        (start (10 : Int) [(1, [Op.assign 0 20]), (1, [Op.destroy 0])]) = .ok c1 →
      (∀ (p : Nat) (o : object_t Int), c1.heap[p]? = some (Cell.live o) →
        o.count_m.val = c1.owners p) ∧
      (c1.finished → ∀ (p : Nat) (o : object_t Int), c1.heap[p]? = some (Cell.live o) →
        o.count_m.val = c1.refs p)) :=
  ⟨by decide, by decide,
   C12_race_safety (10 : Int) [(1, [Op.assign 0 20]), (1, [Op.destroy 0])]
     [0, 1, 0, 0, 0, 0] (by decide)⟩

/-- C12 (as stated) fails without a bound on the number of handles: thread 0
owns one handle of the payload and copies it 2^31 - 1 times, then thread 1
assigns to its own handle of the same payload. All threads have finished, the
first payload is allocated and 2^31 live handles point at it, and its count is
-2^31. -/
theorem C12_counterexample :
    ∃ c1 : Config Int,
      exec .correct (List.replicate (2 * 2147483647) 0 ++ [1, 1, 1, 1])
        (start (0 : Int) [(1, List.replicate 2147483647 (Op.copy 0)), (1, [Op.assign 0 1])])
        = .ok c1 ∧
      c1.finished ∧
      (∃ o : object_t Int, c1.heap[0]? = some (Cell.live o) ∧
        o.count_m.val = -2147483648 ∧ c1.refs 0 = 2147483648 ∧
        ¬ (o.count_m.val = c1.refs 0)) := by
  refine ⟨_, exec_copies_then_diverge 0 1 2147483647 (by decide), finished_pair _ _ _, ?_⟩
  · have hr : ∀ n : Nat, Config.refs (⟨[Cell.live ⟨(c_int.wrap (2 + n : Nat)).pred, (0 : Int)⟩,
          Cell.live ⟨c_int.one, 1⟩],
        [⟨List.replicate (1 + n) (some 0), .idle, []⟩, ⟨[some 1], .idle, []⟩]⟩ : Config Int) 0
        = 1 + n := by
      intro n
      simp [Config.refs, List.count_replicate_self]
    refine ⟨_, rfl, by decide, hr 2147483647, ?_⟩
    rw [hr 2147483647]
    decide

/-! ## Interleavings of `bad_cow`: the leak, and the access after a delete -/

/-- The window of `bad_cow::operator=` between the test of the count and the
decrement at position 2 loses a delete: an assignment by one thread is
interleaved with a destructor by another, both decrements happen after the
assignment has tested the count, all threads finish, and the first payload is
still allocated, with count 0 and no handle pointing at it. -/
theorem bad_cow_leak {T : Type} (x y : T) :
    ∃ c1, exec .bad [0, 1, 0, 0, 0]
          (start x [(1, [Op.assign 0 y]), (1, [Op.destroy 0])]) = .ok c1 ∧
      c1.finished ∧ c1.leaked 0 ∧ c1.refs 0 = 0 ∧
      (∃ o : object_t T, c1.heap[0]? = some (Cell.live o) ∧
        o.count_m.val = 0 ∧ o.data_m = x) :=
  ⟨_, exec_bad_leak x y, finished_pair _ _ _, ⟨⟨_, rfl⟩, rfl, rfl⟩, rfl,
    ⟨_, rfl, (by decide : (c_int.wrap 2).pred.pred.val = 0), rfl⟩⟩

/-- In `correct_cow` the interleaving of `bad_cow_leak`, followed by the delete
at position 3, frees the first payload. -/
theorem correct_cow_no_leak {T : Type} (x y : T) :
    ∃ c2, exec .correct [0, 1, 0, 0, 0, 0]
          (start x [(1, [Op.assign 0 y]), (1, [Op.destroy 0])]) = .ok c2 ∧
      c2.finished ∧ c2.heap[0]? = some Cell.freed :=
  ⟨_, exec_correct_free x y, finished_pair _ _ _, rfl⟩

end Cow
